import Mathlib

/-!
# Poly-Calc: sparse multivariate polynomials (src/src/poly.c)

A shallow embedding of the polynomial engine of `poly.c` and of the canonical-form
invariant of the specification, followed by theorems about it.

Conventions of the embedding.

* `poly_coeff_t` is an arbitrary commutative ring `R` with decidable equality: the
  engine only ever adds, multiplies, negates and compares coefficients with `==`.
  `R = ℤ` is exact integer arithmetic; `R = ZMod (2 ^ 64)` is the arithmetic of a
  64-bit machine word with wrap-around.
* `poly_exp_t` exponents are natural numbers (the data model bounds them by
  `0 ≤ e ≤ 2^31 - 1`); exponent arithmetic is exact.
* Memory management (`PolyDestroy`, `free`, `safeRealloc`) has no value-level effect
  and is not modelled; a clone is rebuilt recursively as in the source.
* A C array together with its element count is a `List`.
-/

namespace PolyCalc

/-! ## Data model -/

mutual
/-- Modelled from the spec: `poly.h` is not part of the sources. A polynomial is either a
Constant holding one coefficient (`arr == NULL` in C) or a Sum-of-monomials holding a
sequence of monomials (`size` and `arr` in C). The data model makes a Sum non-empty:
`arr []` stands for no value the engine can build, because a `Poly` with `size == 0` whose
`arr` comes from `safeMalloc(0)` or `safeRealloc(_, 0)` has `arr == NULL` and `coeff == 0`
(the union shares `coeff` and `size`), which is `coeff 0`; see `PolyOfArr`. -/
inductive Poly (R : Type) where
  | coeff (c : R) : Poly R
  | arr (ms : List (Mono R)) : Poly R
/-- Modelled from the spec: a monomial is a pair of a coefficient polynomial `p` over the
remaining variables and the exponent `exp` of the outermost variable. -/
inductive Mono (R : Type) where
  | mk (p : Poly R) (exp : Nat) : Mono R
end

variable {R : Type} [CommRing R] [DecidableEq R]

/-- The coefficient polynomial of a monomial (field `p`). -/
def Mono.p : Mono R → Poly R
  | .mk p _ => p

/-- The exponent of a monomial (field `exp`). -/
def Mono.exp : Mono R → Nat
  | .mk _ e => e

/-- Modelled from the spec: `PolyFromCoeff` of `poly.h`, the Constant holding `c`. -/
def PolyFromCoeff (c : R) : Poly R := .coeff c

/-- Modelled from the spec: `PolyZero` of `poly.h`, the Constant 0. -/
def PolyZero : Poly R := PolyFromCoeff 0

/-- Modelled from the spec: `PolyIsCoeff` of `poly.h` (`IsConstant` in §4.1), true iff the
value is the Constant variant. -/
def PolyIsCoeff : Poly R → Bool
  | .coeff _ => true
  | .arr _ => false

/-- Modelled from the spec: `PolyIsZero` of `poly.h` (`IsZero` in §4.1), true iff the value
is the Constant variant holding 0. -/
def PolyIsZero : Poly R → Bool
  | .coeff c => decide (c = 0)
  | .arr _ => false

/-- Modelled from the spec: `MonoFromPoly` of `poly.h`, the monomial with coefficient `p`
and exponent `n` (it takes ownership of `p`). -/
def MonoFromPoly (p : Poly R) (n : Nat) : Mono R := .mk p n

/-- The `Poly` whose fields are `size = ms.length` and `arr` = a block obtained from
`safeMalloc(size * sizeof(Mono))` or `safeRealloc(&arr, size * sizeof(Mono))` holding `ms`.
For `size == 0` both allocation wrappers leave `arr == NULL` (safealloc.c), and since
`size` shares its storage with `coeff`, the value is the Constant 0. -/
def PolyOfArr : List (Mono R) → Poly R
  | [] => .coeff 0
  | m :: ms => .arr (m :: ms)

mutual
/-- Source function `PolyClone` (poly.c:114): a deep copy. -/
def PolyClone : Poly R → Poly R
  | .coeff c => .coeff c
  | .arr ms => .arr (cloneMonos ms)
/-- The loop of `PolyClone`, `MonoClone` applied to every monomial
(`MonoClone` of `poly.h` clones the coefficient and keeps the exponent). -/
def cloneMonos : List (Mono R) → List (Mono R)
  | [] => []
  | .mk p e :: rest => .mk (PolyClone p) e :: cloneMonos rest
end

/-- Modelled from the spec: `MonoClone` of `poly.h`, a deep copy of a monomial. -/
def MonoClone : Mono R → Mono R
  | .mk p e => .mk (PolyClone p) e

/-! ## Addition (poly.c:136-284) -/

mutual
/-- Source function `PolyAddCoeff` (poly.c:136): addition when one operand is a Constant. The source asserts
that one operand is a Constant; on two Sums the model returns `p`. Reading `p->arr[0]`
of an empty array is undefined in C; the model then takes the last branch. -/
def PolyAddCoeff (p q : Poly R) : Poly R :=
  match p, q with
  | .coeff a, .coeff b => PolyFromCoeff (a + b)
  | .coeff a, .arr qs => PolyAddCoeff (.arr qs) (.coeff a)
  | .arr ps, .coeff b =>
    if PolyIsZero (Poly.coeff b) then PolyClone (.arr ps)
    else
      match ps with
      | .mk p0 0 :: rest =>
        let atExpZero := PolyAdd p0 (.coeff b)
        if PolyIsZero atExpZero then PolyOfArr (cloneMonos rest)
        else .arr (.mk atExpZero 0 :: cloneMonos rest)
      | _ => .arr (MonoFromPoly (.coeff b) 0 :: cloneMonos ps)
  | .arr ps, .arr _ => .arr ps
termination_by (sizeOf p + sizeOf q, (match p, q with | .coeff _, .arr _ => 2 | _, _ => 1 : Nat))
decreasing_by
  all_goals simp_wf
  · simp [Prod.lex_def]; omega
  · simp [Prod.lex_def]; omega
/-- The `while` loop of `PolyAddNonCoeffs` (poly.c:208): `ps` and `qs` are the monomials
of `p` and `q` from positions `pi` and `qi` on; the value is what the loop appends to
`result.arr`. -/
def addLoop (ps qs : List (Mono R)) : List (Mono R) :=
  match ps, qs with
  | [], [] => []
  | [], q :: qs => MonoClone q :: addLoop [] qs
  | p :: ps, [] => MonoClone p :: addLoop ps []
  | .mk pp pe :: ps, .mk qp qe :: qs =>
    if pe < qe then MonoClone (.mk pp pe) :: addLoop ps (.mk qp qe :: qs)
    else if pe > qe then MonoClone (.mk qp qe) :: addLoop (.mk pp pe :: ps) qs
    else
      let polySum := PolyAdd pp qp
      if !PolyIsZero polySum then MonoFromPoly polySum pe :: addLoop ps qs
      else addLoop ps qs
termination_by (sizeOf ps + sizeOf qs, 0)
decreasing_by
  all_goals simp_wf
  all_goals simp [Prod.lex_def]
  all_goals omega
/-- Source function `PolyAddNonCoeffs` (poly.c:197): the merge of two Sums; the array is shrunk to the
number of monomials written. The source is only called on two Sums; otherwise the model
returns `p`. -/
def PolyAddNonCoeffs (p q : Poly R) : Poly R :=
  match p, q with
  | .arr ps, .arr qs => PolyOfArr (addLoop ps qs)
  | _, _ => p
termination_by (sizeOf p + sizeOf q, 1)
decreasing_by
  all_goals simp_wf
  all_goals simp [Prod.lex_def]
  all_goals omega
/-- Source function `PolyAdd` (poly.c:261): dispatch, then the collapse of a Sum made of one exponent-0
monomial with a Constant coefficient. -/
def PolyAdd (p q : Poly R) : Poly R :=
  let result :=
    if PolyIsCoeff p || PolyIsCoeff q then PolyAddCoeff p q else PolyAddNonCoeffs p q
  match result with
  | .arr [.mk (.coeff c) 0] => .coeff c
  | r => r
termination_by (sizeOf p + sizeOf q, 3)
decreasing_by
  all_goals simp [Prod.lex_def]
  split <;> omega
end

/-! ## Normalisation (poly.c:307-376) -/

/-- Model of `qsort(monos, count, sizeof(Mono), MonoExpCompare)` (poly.c:312): the monomials
in non-decreasing order of exponent. (`qsort` does not fix the order of monomials with
equal exponents; the model is an insertion sort.) -/
def sortMonos (ms : List (Mono R)) : List (Mono R) :=
  ms.insertionSort (fun a b => a.exp ≤ b.exp)

/-- The `for` loop of `PolyOwnMonos` (poly.c:316-333) on a sorted array: `prevExp` is
`monos[i - 1].exp`, `polySum` the accumulated coefficient, `rest` the monomials from
position `i` on; the value is the list of monomials written to `monos[0 .. newMonoIndex)`,
the write after the loop included. -/
def ownLoop (prevExp : Nat) (polySum : Poly R) : List (Mono R) → List (Mono R)
  | [] => if !PolyIsZero polySum then [MonoFromPoly polySum prevExp] else []
  | .mk p e :: rest =>
    if prevExp = e then ownLoop e (PolyAdd polySum p) rest
    else
      (if !PolyIsZero polySum then [MonoFromPoly polySum prevExp] else [])
        ++ ownLoop e p rest

/-- Function `PolyOwnMonos` after the call of `qsort` (poly.c:313-354), on the sorted array. -/
def ownSorted : List (Mono R) → Poly R
  | [] => PolyZero
  | .mk p e :: rest =>
    match ownLoop e p rest with
    | [] => PolyZero
    | [.mk (.coeff c) 0] => .coeff c
    | m :: ms => .arr (m :: ms)

/-- Source function `PolyOwnMonos` (poly.c:307): the normaliser; `monos` with its `count`. -/
def PolyOwnMonos (monos : List (Mono R)) : Poly R :=
  match monos with
  | [] => PolyZero
  | _ => ownSorted (sortMonos monos)

/-- Source function `PolyAddMonos` (poly.c:357): normalises a shallow copy of the array. -/
def PolyAddMonos (monosIn : List (Mono R)) : Poly R :=
  match monosIn with
  | [] => PolyZero
  | _ => PolyOwnMonos monosIn

/-- Source function `PolyCloneMonos` (poly.c:367): normalises a deep copy of the array. -/
def PolyCloneMonos (monosIn : List (Mono R)) : Poly R :=
  match monosIn with
  | [] => PolyZero
  | _ => PolyOwnMonos (monosIn.map MonoClone)

/-! ## Multiplication (poly.c:388-464) -/

mutual
/-- Source function `PolyMul` (poly.c:388), with the exponent sums of the Sum-by-Sum case
taken exactly. This is the product whenever no exponent sum leaves `poly_exp_t`;
`Machine.PolyMul` below is the function with the sums checked against the range, and it
agrees with this one wherever it has a value. The two Constant cases form no exponent
sum. -/
def PolyMul (p q : Poly R) : Poly R :=
  match p, q with
  | .coeff a, .coeff b => PolyFromCoeff (a * b)
  | .coeff a, .arr qs => PolyMul (.arr qs) (.coeff a)
  | .arr ps, .coeff b => PolyOwnMonos (mulCoeffLoop ps (.coeff b))
  | .arr ps, .arr qs => PolyOwnMonos (mulLoop ps qs)
termination_by (sizeOf p + sizeOf q, (match p, q with | .coeff _, .arr _ => 3 | _, _ => 2 : Nat))
decreasing_by
  all_goals simp_wf
  all_goals simp [Prod.lex_def]
  all_goals omega
/-- The loop of the Sum-by-Constant case (poly.c:405): `monos[i]` is
`(PolyMul(&p->arr[i].p, q), p->arr[i].exp)`. -/
def mulCoeffLoop (ps : List (Mono R)) (q : Poly R) : List (Mono R) :=
  match ps with
  | [] => []
  | .mk c e :: rest => .mk (PolyMul c q) e :: mulCoeffLoop rest q
termination_by (sizeOf ps + sizeOf q, 1)
decreasing_by
  all_goals simp_wf
  all_goals simp [Prod.lex_def]
  all_goals omega
/-- The outer loop of the Sum-by-Sum case (poly.c:417): row `i` of the candidates. -/
def mulLoop (ps qs : List (Mono R)) : List (Mono R) :=
  match ps with
  | [] => []
  | .mk c e :: rest => mulInner c e qs ++ mulLoop rest qs
termination_by (sizeOf ps + sizeOf qs, 1)
decreasing_by
  all_goals simp_wf
  all_goals simp [Prod.lex_def]
  all_goals omega
/-- The inner loop of the Sum-by-Sum case (poly.c:418): the candidates
`(c * q->arr[j].p, e + q->arr[j].exp)` of the monomial `(c, e)` of `p`, the sum of the
exponents being exact (see `Machine.mulInner` for the sum in `poly_exp_t`). -/
def mulInner (c : Poly R) (e : Nat) (qs : List (Mono R)) : List (Mono R) :=
  match qs with
  | [] => []
  | .mk qc qe :: rest => .mk (PolyMul c qc) (e + qe) :: mulInner c e rest
termination_by (sizeOf c + sizeOf qs, 0)
decreasing_by
  all_goals simp_wf
  all_goals simp [Prod.lex_def]
  all_goals omega
end

mutual
/-- Source function `PolyMulByCoeffInPlace` (poly.c:431): every Constant leaf of `p` is multiplied by `c`;
the value is the content of `p` after the call. -/
def PolyMulByCoeffInPlace : Poly R → R → Poly R
  | .coeff a, c => .coeff (a * c)
  | .arr ms, c => .arr (mulByCoeffMonos ms c)
/-- The loop of `PolyMulByCoeffInPlace` over `p->arr`. -/
def mulByCoeffMonos : List (Mono R) → R → List (Mono R)
  | [], _ => []
  | .mk p e :: rest, c => .mk (PolyMulByCoeffInPlace p c) e :: mulByCoeffMonos rest c
end

/-- The `while` loop of `CoeffExp` (poly.c:52) with its three variables. -/
def coeffExpLoop (result a : R) (b : Nat) : R :=
  if b = 0 then result
  else coeffExpLoop (if b % 2 = 1 then result * a else result) (a * a) (b / 2)
termination_by b
decreasing_by omega

/-- Source function `CoeffExp` (poly.c:48): `a` to the power `b` by squaring. -/
def CoeffExp (a : R) (b : Nat) : R := coeffExpLoop 1 a b

/-- The `while` loop of `PolyExp` (poly.c:447) with its variables, over the product with
exact exponent sums (see `Machine.polyExpLoop` for the sums in `poly_exp_t`). -/
def polyExpLoop (result multiplier : Poly R) (e : Nat) : Poly R :=
  if e = 0 then result
  else
    polyExpLoop (if e % 2 = 1 then PolyMul result multiplier else result)
      (PolyMul multiplier multiplier) (e / 2)
termination_by e
decreasing_by omega

/-- Source function `PolyExp` (poly.c:441): `p` to the power `e` by squaring, over the
product with exact exponent sums; `Machine.PolyExp` agrees with it wherever it has a
value. -/
def PolyExp (p : Poly R) (e : Nat) : Poly R := polyExpLoop (PolyFromCoeff 1) (PolyClone p) e

/-! ## Negation and subtraction (poly.c:474-512) -/

mutual
/-- Source function `PolyNeg` (poly.c:474). -/
def PolyNeg : Poly R → Poly R
  | .coeff c => PolyFromCoeff (-c)
  | .arr ms => .arr (negMonos ms)
/-- The loop of `PolyNeg` over the copied array. -/
def negMonos : List (Mono R) → List (Mono R)
  | [] => []
  | .mk p e :: rest => .mk (PolyNeg p) e :: negMonos rest
end

/-- Source function `PolySub` (poly.c:504). -/
def PolySub (p q : Poly R) : Poly R :=
  let qNeg := PolyNeg q
  PolyAdd p qNeg

/-! ## Equality, evaluation, composition (poly.c:552-647) -/

mutual
/-- Source function `PolyIsEq` (poly.c:552). -/
def PolyIsEq : Poly R → Poly R → Bool
  | .coeff a, .coeff b => decide (a = b)
  | .coeff _, .arr _ => false
  | .arr _, .coeff _ => false
  | .arr ps, .arr qs => if ps.length ≠ qs.length then false else isEqLoop ps qs
/-- The loop of `PolyIsEq` (poly.c:563) over two arrays of the same size; it stops at the
first position where `result` is false. -/
def isEqLoop : List (Mono R) → List (Mono R) → Bool
  | .mk pp pe :: ps, .mk qp qe :: qs =>
    if decide (pe = qe) && PolyIsEq pp qp then isEqLoop ps qs else false
  | _, _ => true
end

/-- Source function `PolyAt` (poly.c:579): the value of `p` at `x` for the outermost variable. -/
def PolyAt (p : Poly R) (x : R) : Poly R :=
  match p with
  | .coeff c => PolyClone (.coeff c)
  | .arr ms =>
    ms.foldl
      (fun polySum m =>
        let powerPoly := PolyFromCoeff (CoeffExp x m.exp)
        let polyProd := PolyMul m.p powerPoly
        PolyAdd polySum polyProd)
      PolyZero

/-- Source function `PolyAtInPlace` (poly.c:600): the returned value. The first loop scales every
coefficient in place, the second adds the scaled coefficients up from `p->arr[0].p`.
(Reading `p->arr[0]` of an empty array is undefined in C; the model returns the
Constant 0 there.) -/
def PolyAtInPlace (p : Poly R) (x : R) : Poly R :=
  match p with
  | .coeff c => .coeff c
  | .arr ms =>
    match ms.map (fun m => Mono.mk (PolyMulByCoeffInPlace m.p (CoeffExp x m.exp)) m.exp) with
    | [] => PolyZero
    | m0 :: rest => rest.foldl (fun result m => PolyAdd result m.p) m0.p

mutual
/-- Source function `PolyCompose` (poly.c:619): `q` is the pointer to the substitutions, `q i` being
`q[i]`, and `k` their number. The powers and products are those with exact exponent sums;
`Machine.PolyCompose` agrees with it wherever it has a value. -/
def PolyCompose : Poly R → Nat → (Nat → Poly R) → Poly R
  | .coeff c, _, _ => .coeff c
  | .arr ms, k, q => composeLoop ms k q PolyZero
/-- The `for` loop of `PolyCompose` (poly.c:625) from position `i` on, `result` being the
sum so far; the loop is left at the first monomial with a non-zero exponent when
`k == 0`. -/
def composeLoop : List (Mono R) → Nat → (Nat → Poly R) → Poly R → Poly R
  | [], _, _, result => result
  | .mk c e :: rest, k, q, result =>
    if e ≠ 0 ∧ k = 0 then result
    else
      let compPoly := PolyCompose c (if k = 0 then 0 else k - 1) (fun i => q (i + 1))
      let expPoly := if e = 0 then PolyFromCoeff 1 else PolyExp (q 0) e
      let mulPoly := PolyMul compPoly expPoly
      let addPoly := PolyAdd result mulPoly
      composeLoop rest k q addPoly
end

/-! ## Negation in place, degrees and the sortedness check (poly.c:25-112, 492-538) -/

mutual
/-- Source function `PolyNegInPlace` (poly.c:492): the content of `p` after the call. -/
def PolyNegInPlace : Poly R → Poly R
  | .coeff c => .coeff (-c)
  | .arr ms => .arr (negInPlaceMonos ms)
/-- The loop of `PolyNegInPlace` over `p->arr`. -/
def negInPlaceMonos : List (Mono R) → List (Mono R)
  | [] => []
  | .mk p e :: rest => .mk (PolyNegInPlace p) e :: negInPlaceMonos rest
end

/-- Source function `ExpMax` (poly.c:25) on `poly_exp_t`, a signed integer type. -/
def ExpMax (a b : Int) : Int := if a > b then a else b

mutual
/-- Source function `PolyDegBy` (poly.c:514); the value is a `poly_exp_t`. -/
def PolyDegBy : Poly R → Nat → Int
  | .coeff c, _ => if PolyIsZero (Poly.coeff c) then -1 else 0
  | .arr ms, var_idx => degByLoop ms var_idx 0
/-- The loop of `PolyDegBy` (poly.c:521) from position `i` on, `result` being the maximum
so far. -/
def degByLoop : List (Mono R) → Nat → Int → Int
  | [], _, result => result
  | .mk p e :: rest, var_idx, result =>
    degByLoop rest var_idx
      (ExpMax result (if var_idx = 0 then (e : Int) else PolyDegBy p (var_idx - 1)))
end

/-- The value that an `int` computation with the exact result `z` leaves in a
`poly_exp_t` (32 bits, two's complement): `z` itself when it lies between `-2^31` and
`2^31 - 1`, and otherwise `z` reduced modulo `2^32` into that range. -/
def wrapExp (z : Int) : Int := (z + 2147483648) % 4294967296 - 2147483648

mutual
/-- Source function `PolyDeg` (poly.c:528); the value is a `poly_exp_t`. -/
def PolyDeg : Poly R → Int
  | .coeff c => if PolyIsZero (Poly.coeff c) then -1 else 0
  | .arr ms => degLoop ms 0
/-- The loop of `PolyDeg` (poly.c:535) from position `i` on, `result` being the maximum so
far. The sum `PolyDeg(&p->arr[i].p) + p->arr[i].exp` is an `int` addition. -/
def degLoop : List (Mono R) → Int → Int
  | [], result => result
  | .mk p e :: rest, result => degLoop rest (ExpMax result (wrapExp (PolyDeg p + e)))
end

mutual
/-- Source function `PolyIsSorted` (poly.c:100). (Reading `p->arr[0]` of an empty array is
undefined in C; the model returns `true` there.) -/
def PolyIsSorted : Poly R → Bool
  | .coeff _ => true
  | .arr [] => true
  | .arr (.mk p0 e0 :: rest) => isSortedLoop e0 (PolyIsSorted p0) rest
/-- The loop of `PolyIsSorted` (poly.c:106) from position `i` on: `prevExp` is
`p->arr[i - 1].exp` and `result` the conjunction so far. -/
def isSortedLoop : Nat → Bool → List (Mono R) → Bool
  | _, result, [] => result
  | prevExp, result, .mk p e :: rest =>
    isSortedLoop e ((result && decide (prevExp < e)) && PolyIsSorted p) rest
end

/-! ## Text: the printer (poly.c:649-669) and the reader of literals (polyui.c:307-601) -/

/-- A character read through a `char *`: the head of the remaining text, and the
terminating NUL character when the text is exhausted. -/
def peek (s : List Char) : Char := s.headD (Char.ofNat 0)

/-- Error kinds of the user interface, `ErrorType` of `polyui.c:20-27`. -/
inductive ErrorType where
  | NO_ERROR
  | STACK_UNDERFLOW
  | WRONG_POLY
  | WRONG_COMMAND
  | WRONG_ARGUMENT
  deriving DecidableEq, Repr

/-- Source function `isDigit` (`polyui.c:307`). -/
def isDigit (c : Char) : Bool := decide ('0' ≤ c) && decide (c ≤ '9')

/-- Source function `isDigitMinus` (`polyui.c:317`). -/
def isDigitMinus (c : Char) : Bool := isDigit c || decide (c = '-')

/-- The largest `long`, 64 bits wide. -/
def LONG_MAX : Int := 9223372036854775807

/-- The smallest `long`, 64 bits wide. -/
def LONG_MIN : Int := -9223372036854775808

/-- Modelled from the spec: `POLY_EXP_T_MAX` of `poly.h`, which is not part of the sources;
the largest exponent, `2^31 - 1` (§3 of the specification). -/
def POLY_EXP_T_MAX : Int := 2147483647

/-- The text that `printf("%ld", c)` and `printf("%d", c)` of the C library write: a minus
sign for a negative number, then the decimal digits of the absolute value, most significant
first, a single `0` for zero. -/
def printfLd (c : Int) : List Char :=
  if c < 0 then '-' :: Nat.toDigits 10 c.natAbs else Nat.toDigits 10 c.natAbs

/-- The white space that `strtol` of the C library skips (`isspace` in the C locale). -/
def isspace (c : Char) : Bool :=
  c = ' ' || c = Char.ofNat 9 || c = Char.ofNat 10 || c = Char.ofNat 11 || c = Char.ofNat 12 ||
    c = Char.ofNat 13

/-- The digit loop of `strtol` in base 10: the value read so far and the text behind the
digits. -/
def strtolDigits : List Char → Nat → Nat × List Char
  | [], acc => (acc, [])
  | c :: s, acc =>
    if isDigit c then strtolDigits s (acc * 10 + (c.toNat - 48)) else (acc, c :: s)

/-- The call `strtol(s, &end, 10)` of the C library with `errno` cleared before: white space
is skipped, an optional sign is read, then the longest run of decimal digits. The result is
the value, the text `end` behind the number, and whether `errno` was set: a value outside
`long` is clamped to `LONG_MAX` or `LONG_MIN` with `errno = ERANGE`; without any digit the
value is 0 and `end` is `s`. -/
def strtol (s : List Char) : Int × List Char × Bool :=
  let s1 := s.dropWhile isspace
  let neg : Bool := decide (peek s1 = '-')
  let s2 := if peek s1 = '-' ∨ peek s1 = '+' then s1.tail else s1
  if isDigit (peek s2) then
    let r := strtolDigits s2 0
    let v : Int := if neg then -(r.1 : Int) else (r.1 : Int)
    if LONG_MAX < v then (LONG_MAX, r.2, true)
    else if v < LONG_MIN then (LONG_MIN, r.2, true)
    else (v, r.2, false)
  else (0, s, false)

/-- Source function `readCoeff` (`polyui.c:442-450`): the number read, `*nextChar`, and
`*errFlag`. -/
def readCoeff (firstChar : List Char) : Int × List Char × Bool :=
  let r := strtol firstChar
  (r.1, r.2.1, r.2.2 || !isDigitMinus (peek firstChar))

/-- Source function `readExp` (`polyui.c:473-482`): the exponent read, `*nextChar`, and
`*errFlag`. The cast of the `long` to `poly_exp_t` is exact whenever `*errFlag` is false;
a value that the cast would change is returned unchanged here, next to the raised flag. -/
def readExp (firstChar : List Char) : Nat × List Char × Bool :=
  let r := strtol firstChar
  (r.1.toNat, r.2.1, r.2.2 || !isDigit (peek firstChar) || decide (POLY_EXP_T_MAX < r.1))

mutual
/-- Source function `PolyPrint` (`poly.c:649-669`), as the text it writes to the standard
output. Coefficients are `long`, exponents `int`. A Sum without monomials is outside the
data model (the source would read `arr[0]`). -/
def PolyPrint : Poly ℤ → List Char
  | .coeff c => printfLd c
  | .arr [] => []
  | .arr (.mk p e :: rest) =>
    ('(' :: PolyPrint p) ++ (',' :: printfLd (e : Int)) ++ (')' :: printMonos rest)
/-- The loop of `PolyPrint` over the monomials from the second on. -/
def printMonos : List (Mono ℤ) → List Char
  | [] => []
  | .mk p e :: rest =>
    ('+' :: '(' :: PolyPrint p) ++ (',' :: printfLd (e : Int)) ++ (')' :: printMonos rest)
end

mutual
/-- Source function `readMono` (`polyui.c:525-552`). The arguments are `firstChar`, the
values of `*nextChar` and `*errType` at the call, and the result is the monomial with the
new `*nextChar` and `*errType`. The first argument bounds the depth of the recursion;
`none` is returned when it is used up. -/
def readMono : Nat → List Char → List Char → ErrorType →
    Option (Mono ℤ × List Char × ErrorType)
  | 0, _, _, _ => none
  | fuel + 1, firstChar, nextChar, errType =>
    if peek firstChar ≠ '(' then some (Mono.mk PolyZero 0, nextChar, ErrorType.WRONG_POLY)
    else
      match readPoly fuel firstChar.tail nextChar errType with
      | none => none
      | some (p, nextChar1, errType1) =>
        if peek nextChar1 ≠ ',' ∨ errType1 ≠ ErrorType.NO_ERROR then
          some (Mono.mk p 0, nextChar1, ErrorType.WRONG_POLY)
        else
          let r := readExp nextChar1.tail
          if peek r.2.1 ≠ ')' ∨ r.2.2 = true then
            some (Mono.mk p r.1, r.2.1, ErrorType.WRONG_POLY)
          else some (Mono.mk p r.1, r.2.1.tail, errType1)
/-- Source function `readPoly` (`polyui.c:563-601`), with the same conventions as
`readMono`. -/
def readPoly : Nat → List Char → List Char → ErrorType →
    Option (Poly ℤ × List Char × ErrorType)
  | 0, _, _, _ => none
  | fuel + 1, firstChar, nextChar, errType =>
    if isDigitMinus (peek firstChar) then
      let r := readCoeff firstChar
      some (Poly.coeff r.1, r.2.1, if r.2.2 then ErrorType.WRONG_POLY else errType)
    else
      match readMono fuel firstChar nextChar errType with
      | none => none
      | some (m, nextChar1, errType1) =>
        match readMonos fuel [m] nextChar1 errType1 with
        | none => none
        | some (monoBuffer, nextChar2, errType2) =>
          some (PolyAddMonos monoBuffer, nextChar2, errType2)
/-- The `while` loop of `readPoly` (`polyui.c:583-592`): further monomials are read into
the buffer as long as the next character is `+` and no error was raised. -/
def readMonos : Nat → List (Mono ℤ) → List Char → ErrorType →
    Option (List (Mono ℤ) × List Char × ErrorType)
  | 0, _, _, _ => none
  | fuel + 1, monoBuffer, nextChar, errType =>
    if peek nextChar = '+' ∧ errType = ErrorType.NO_ERROR then
      match readMono fuel nextChar.tail nextChar errType with
      | none => none
      | some (m, nextChar1, errType1) => readMonos fuel (monoBuffer ++ [m]) nextChar1 errType1
    else some (monoBuffer, nextChar, errType)
end

mutual
/-- The numbers of a polynomial fit the machine: every Constant is a 64-bit signed integer
and every exponent is at most `2^31 - 1`. -/
def fitsMachine : Poly ℤ → Bool
  | .coeff c => decide (LONG_MIN ≤ c) && decide (c ≤ LONG_MAX)
  | .arr ms => fitsMachineMonos ms
/-- The numbers of every monomial of the list fit the machine. -/
def fitsMachineMonos : List (Mono ℤ) → Bool
  | [] => true
  | .mk p e :: rest => (decide ((e : Int) ≤ POLY_EXP_T_MAX) && fitsMachine p) && fitsMachineMonos rest
end

/-! ## The stack of polynomials (polystack.c) and the commands (polyui.c:102-289) -/

/-- The default size of dynamically allocated arrays, `DEFAULT_SIZE` of `safealloc.h:17`. -/
def DEFAULT_SIZE : Nat := 16

/-- The stack of polynomials, `PolyStack` of `polystack.h`: `size` is the number of
allocated slots, and `stack` holds the slots in use, `stack[0]` first and the top last;
their number is the field `elems`. -/
structure PolyStack (R : Type) where
  size : Nat
  stack : List (Poly R)

/-- The field `elems`: the number of polynomials on the stack. -/
def PolyStack.elems (s : PolyStack R) : Nat := s.stack.length

/-- Source function `PSInit` (`polystack.c:13-20`). -/
def PSInit : PolyStack R := { size := DEFAULT_SIZE, stack := [] }

/-- Source function `PSPush` (`polystack.c:22-30`): the array is doubled when it is full. -/
def PSPush (s : PolyStack R) (p : Poly R) : PolyStack R :=
  { size := if s.elems = s.size then s.size * 2 else s.size, stack := s.stack ++ [p] }

/-- Source function `PSGet` (`polystack.c:32-35`), `s->stack[s->elems - pos]`. The source
does not check the index; outside the slots in use the model gives the Constant 0. -/
def PSGet (s : PolyStack R) (pos : Nat) : Poly R :=
  s.stack.getD (s.elems - pos) PolyZero

/-- Source function `PSPeek` (`polystack.c:42-45`). -/
def PSPeek (s : PolyStack R) : Poly R := PSGet s 1

/-- A write of `p` through the pointer that `PSGetPtr(s, pos)` (`polystack.c:37-40`)
returns. -/
def PSStorePtr (s : PolyStack R) (pos : Nat) (p : Poly R) : PolyStack R :=
  { size := s.size, stack := s.stack.set (s.elems - pos) p }

/-- Source function `PSPop` (`polystack.c:52-63`): the polynomial on top and the stack
without it; the array is halved when at most a quarter of it is in use. The source does
not check for the empty stack; the model gives the Constant 0 there. -/
def PSPop (s : PolyStack R) : Poly R × PolyStack R :=
  let result := s.stack.getD (s.elems - 1) PolyZero
  let elems := s.elems - 1
  (result,
    { size := if elems ≤ s.size / 4 ∧ s.size > DEFAULT_SIZE then s.size / 2 else s.size,
      stack := s.stack.dropLast })

/-! The commands. Each takes the argument of the command, if it has one, as the number it
was converted to, and the values of the stack and of `*context.errType` at the call; it
returns their values afterwards. What a command writes to the standard output is not part
of this state. -/

/-- Source function `executeZero` (`polyui.c:102-105`). -/
def executeZero (s : PolyStack R) (errType : ErrorType) : PolyStack R × ErrorType :=
  (PSPush s PolyZero, errType)

/-- Source function `executeIsCoeff` (`polyui.c:111-116`); it prints `PolyIsCoeff` of the
top. -/
def executeIsCoeff (s : PolyStack R) (errType : ErrorType) : PolyStack R × ErrorType :=
  if s.elems < 1 then (s, ErrorType.STACK_UNDERFLOW) else (s, errType)

/-- Source function `executeIsZero` (`polyui.c:122-127`); it prints `PolyIsZero` of the
top. -/
def executeIsZero (s : PolyStack R) (errType : ErrorType) : PolyStack R × ErrorType :=
  if s.elems < 1 then (s, ErrorType.STACK_UNDERFLOW) else (s, errType)

/-- Source function `executeClone` (`polyui.c:133-138`). -/
def executeClone (s : PolyStack R) (errType : ErrorType) : PolyStack R × ErrorType :=
  if s.elems < 1 then (s, ErrorType.STACK_UNDERFLOW)
  else (PSPush s (PolyClone (PSPeek s)), errType)

/-- Source function `executeAdd` (`polyui.c:144-153`). -/
def executeAdd (s : PolyStack R) (errType : ErrorType) : PolyStack R × ErrorType :=
  if s.elems < 2 then (s, ErrorType.STACK_UNDERFLOW)
  else
    let r1 := PSPop s
    let r2 := PSPop r1.2
    (PSPush r2.2 (PolyAdd r1.1 r2.1), errType)

/-- Source function `executeMul` (`polyui.c:159-168`). -/
def executeMul (s : PolyStack R) (errType : ErrorType) : PolyStack R × ErrorType :=
  if s.elems < 2 then (s, ErrorType.STACK_UNDERFLOW)
  else
    let r1 := PSPop s
    let r2 := PSPop r1.2
    (PSPush r2.2 (PolyMul r1.1 r2.1), errType)

/-- Source function `executeNeg` (`polyui.c:174-179`): the top is negated in place. -/
def executeNeg (s : PolyStack R) (errType : ErrorType) : PolyStack R × ErrorType :=
  if s.elems < 1 then (s, ErrorType.STACK_UNDERFLOW)
  else (PSStorePtr s 1 (PolyNegInPlace (PSPeek s)), errType)

/-- Source function `executeSub` (`polyui.c:185-194`). -/
def executeSub (s : PolyStack R) (errType : ErrorType) : PolyStack R × ErrorType :=
  if s.elems < 2 then (s, ErrorType.STACK_UNDERFLOW)
  else
    let r1 := PSPop s
    let r2 := PSPop r1.2
    (PSPush r2.2 (PolySub r1.1 r2.1), errType)

/-- Source function `executeIsEq` (`polyui.c:200-207`); it prints `PolyIsEq` of the two
polynomials on top. -/
def executeIsEq (s : PolyStack R) (errType : ErrorType) : PolyStack R × ErrorType :=
  if s.elems < 2 then (s, ErrorType.STACK_UNDERFLOW) else (s, errType)

/-- Source function `executeDeg` (`polyui.c:213-218`); it prints `PolyDeg` of the top. -/
def executeDeg (s : PolyStack R) (errType : ErrorType) : PolyStack R × ErrorType :=
  if s.elems < 1 then (s, ErrorType.STACK_UNDERFLOW) else (s, errType)

/-- Source function `executeDegBy` (`polyui.c:224-229`); it prints `PolyDegBy` of the top
for the variable `arg`. -/
def executeDegBy (_arg : Nat) (s : PolyStack R) (errType : ErrorType) :
    PolyStack R × ErrorType :=
  if s.elems < 1 then (s, ErrorType.STACK_UNDERFLOW) else (s, errType)

/-- Source function `executeAt` (`polyui.c:235-241`). -/
def executeAt (arg : R) (s : PolyStack R) (errType : ErrorType) : PolyStack R × ErrorType :=
  if s.elems < 1 then (s, ErrorType.STACK_UNDERFLOW)
  else
    let r := PSPop s
    (PSPush r.2 (PolyAtInPlace r.1 arg), errType)

/-- Source function `executePrint` (`polyui.c:247-252`); it prints the top. -/
def executePrint (s : PolyStack R) (errType : ErrorType) : PolyStack R × ErrorType :=
  if s.elems < 1 then (s, ErrorType.STACK_UNDERFLOW) else (s, errType)

/-- Source function `executePop` (`polyui.c:258-264`). -/
def executePop (s : PolyStack R) (errType : ErrorType) : PolyStack R × ErrorType :=
  if s.elems < 1 then (s, ErrorType.STACK_UNDERFLOW) else ((PSPop s).2, errType)

/-- The first loop of `executeCompose` (`polyui.c:277-278`) from `i` on, with `n`
iterations left: `q[k - i - 1] = PSPop(context.stack)`. -/
def composePops (k : Nat) : Nat → Nat → (Nat → Poly R) → PolyStack R →
    (Nat → Poly R) × PolyStack R
  | 0, _, q, s => (q, s)
  | n + 1, i, q, s =>
    let r := PSPop s
    composePops k n (i + 1) (Function.update q (k - i - 1) r.1) r.2

/-- Source function `executeCompose` (`polyui.c:270-289`). The array `q` is a function of
the index; its slots hold the Constant 0 before they are written. -/
def executeCompose (arg : Nat) (s : PolyStack R) (errType : ErrorType) :
    PolyStack R × ErrorType :=
  let k := arg
  if s.elems ≤ k then (s, ErrorType.STACK_UNDERFLOW)
  else
    let r := PSPop s
    let qs := composePops k k 0 (fun _ => PolyZero) r.2
    let result := PolyCompose r.1 k qs.1
    (PSPush qs.2 result, errType)

/-- The commands of the calculator, the entries of `commandList` (`polyui.c:352-369`),
each with its argument if it has one. -/
inductive Command (R : Type) where
  | ZERO
  | SUB
  | PRINT
  | POP
  | NEG
  | MUL
  | IS_ZERO
  | IS_EQ
  | IS_COEFF
  | DEG_BY (arg : Nat)
  | DEG
  | COMPOSE (arg : Nat)
  | CLONE
  | AT (arg : R)
  | ADD

/-- The field `cmndFunc` of the entry of `commandList` (`polyui.c:352-369`), called on the
context. -/
def Command.cmndFunc : Command R → PolyStack R → ErrorType → PolyStack R × ErrorType
  | .ZERO => executeZero
  | .SUB => executeSub
  | .PRINT => executePrint
  | .POP => executePop
  | .NEG => executeNeg
  | .MUL => executeMul
  | .IS_ZERO => executeIsZero
  | .IS_EQ => executeIsEq
  | .IS_COEFF => executeIsCoeff
  | .DEG_BY arg => executeDegBy arg
  | .DEG => executeDeg
  | .COMPOSE arg => executeCompose arg
  | .CLONE => executeClone
  | .AT arg => executeAt arg
  | .ADD => executeAdd

/-- The number of polynomials that a command needs on the stack, as the specification
lists them: 2 for ADD, MUL, SUB and IS_EQ, `k + 1` for COMPOSE `k`, none for ZERO, and 1
for every other command. -/
def Command.operands : Command R → Nat
  | .ZERO => 0
  | .ADD => 2
  | .MUL => 2
  | .SUB => 2
  | .IS_EQ => 2
  | .COMPOSE k => k + 1
  | _ => 1

/-! ## Multiplication, powers and composition with the exponent sums computed in `poly_exp_t` -/

namespace Machine

/-- The `int` addition of two exponents, `p->arr[i].exp + q->arr[j].exp` (poly.c:421). A
sum above `POLY_EXP_T_MAX` is a signed overflow: what the source stores then is no exponent
of the data model (on the usual machines the sum has wrapped to a negative number), and
the model has no value for it. -/
def expAdd (a b : Nat) : Option Nat :=
  if ((a + b : Nat) : Int) ≤ POLY_EXP_T_MAX then some (a + b) else none

mutual
/-- Source function `PolyMul` (poly.c:388), with the exponent sums of the Sum-by-Sum case
computed in `poly_exp_t`: the value is `none` when one of them overflows. -/
def PolyMul (p q : Poly R) : Option (Poly R) :=
  match p, q with
  | .coeff a, .coeff b => some (PolyFromCoeff (a * b))
  | .coeff a, .arr qs => PolyMul (.arr qs) (.coeff a)
  | .arr ps, .coeff b => (mulCoeffLoop ps (.coeff b)).map PolyOwnMonos
  | .arr ps, .arr qs => (mulLoop ps qs).map PolyOwnMonos
termination_by (sizeOf p + sizeOf q, (match p, q with | .coeff _, .arr _ => 3 | _, _ => 2 : Nat))
decreasing_by
  all_goals simp_wf
  all_goals simp [Prod.lex_def]
  all_goals omega
/-- The loop of the Sum-by-Constant case (poly.c:405): `monos[i]` is
`(PolyMul(&p->arr[i].p, q), p->arr[i].exp)`. -/
def mulCoeffLoop (ps : List (Mono R)) (q : Poly R) : Option (List (Mono R)) :=
  match ps with
  | [] => some []
  | .mk c e :: rest =>
    match PolyMul c q, mulCoeffLoop rest q with
    | some r, some l => some (.mk r e :: l)
    | _, _ => none
termination_by (sizeOf ps + sizeOf q, 1)
decreasing_by
  all_goals simp_wf
  all_goals simp [Prod.lex_def]
  all_goals omega
/-- The outer loop of the Sum-by-Sum case (poly.c:417): row `i` of the candidates. -/
def mulLoop (ps qs : List (Mono R)) : Option (List (Mono R)) :=
  match ps with
  | [] => some []
  | .mk c e :: rest =>
    match mulInner c e qs, mulLoop rest qs with
    | some row, some l => some (row ++ l)
    | _, _ => none
termination_by (sizeOf ps + sizeOf qs, 1)
decreasing_by
  all_goals simp_wf
  all_goals simp [Prod.lex_def]
  all_goals omega
/-- The inner loop of the Sum-by-Sum case (poly.c:418): the candidates
`(c * q->arr[j].p, e + q->arr[j].exp)` of the monomial `(c, e)` of `p`. -/
def mulInner (c : Poly R) (e : Nat) (qs : List (Mono R)) : Option (List (Mono R)) :=
  match qs with
  | [] => some []
  | .mk qc qe :: rest =>
    match PolyMul c qc, expAdd e qe, mulInner c e rest with
    | some r, some s, some l => some (.mk r s :: l)
    | _, _, _ => none
termination_by (sizeOf c + sizeOf qs, 0)
decreasing_by
  all_goals simp_wf
  all_goals simp [Prod.lex_def]
  all_goals omega
end

/-- A call `PolyMul(&a, &b)` on two variables that may hold no polynomial of the data
model: the product has a value only when both operands have one. -/
def mulOpt (a b : Option (Poly R)) : Option (Poly R) :=
  match a, b with
  | some x, some y => PolyMul x y
  | _, _ => none

/-- The `while` loop of `PolyExp` (poly.c:447) with its variables. Each variable holds a
polynomial or, after an overflow of an exponent, none; the square of `multiplier` that
the last round computes is destroyed unused (poly.c:461), so its overflow does not reach
`result`. -/
def polyExpLoop (result multiplier : Option (Poly R)) (e : Nat) : Option (Poly R) :=
  if e = 0 then result
  else
    polyExpLoop (if e % 2 = 1 then mulOpt result multiplier else result)
      (mulOpt multiplier multiplier) (e / 2)
termination_by e
decreasing_by omega

/-- Source function `PolyExp` (poly.c:441): `p` to the power `e` by squaring. -/
def PolyExp (p : Poly R) (e : Nat) : Option (Poly R) :=
  polyExpLoop (some (PolyFromCoeff 1)) (some (PolyClone p)) e

mutual
/-- Source function `PolyCompose` (poly.c:619): `q` is the pointer to the substitutions,
`q i` being `q[i]`, and `k` their number. -/
def PolyCompose : Poly R → Nat → (Nat → Poly R) → Option (Poly R)
  | .coeff c, _, _ => some (.coeff c)
  | .arr ms, k, q => composeLoop ms k q PolyZero
/-- The `for` loop of `PolyCompose` (poly.c:625) from position `i` on, `result` being the
sum so far; the loop is left at the first monomial with a non-zero exponent when
`k == 0`. -/
def composeLoop : List (Mono R) → Nat → (Nat → Poly R) → Poly R → Option (Poly R)
  | [], _, _, result => some result
  | .mk c e :: rest, k, q, result =>
    if e ≠ 0 ∧ k = 0 then some result
    else
      match PolyCompose c (if k = 0 then 0 else k - 1) (fun i => q (i + 1)),
          (if e = 0 then some (PolyFromCoeff 1) else PolyExp (q 0) e) with
      | some compPoly, some expPoly =>
        match PolyMul compPoly expPoly with
        | some mulPoly => composeLoop rest k q (PolyAdd result mulPoly)
        | none => none
      | _, _ => none
end

end Machine

/-! ## The canonical form of the specification and the value of a polynomial -/

/-- Invariant (a): the exponents of the sequence are strictly increasing. -/
def expsIncreasing : List (Mono R) → Bool
  | [] => true
  | [_] => true
  | a :: b :: rest => decide (a.exp < b.exp) && expsIncreasing (b :: rest)

/-- The sequence that invariant (d) excludes: exactly one monomial, of exponent 0, whose
coefficient is a Constant. -/
def collapsible : List (Mono R) → Bool
  | [.mk (.coeff _) 0] => true
  | _ => false

mutual
/-- The canonical-form invariant (a)-(e) of the specification, §3. -/
def Canonical : Poly R → Bool
  | .coeff _ => true
  | .arr ms => !ms.isEmpty && expsIncreasing ms && !collapsible ms && coeffsCanonical ms
/-- Invariants (b) and (c) for the monomials of a sequence: every coefficient is
canonical and is not the Constant 0. -/
def coeffsCanonical : List (Mono R) → Bool
  | [] => true
  | .mk p _ :: rest => Canonical p && !PolyIsZero p && coeffsCanonical rest
end

/-- The assignment `v` without its first variable: `tailV v i = v (i + 1)`. -/
def tailV (v : Nat → R) : Nat → R := fun i => v (i + 1)

/-- The assignment giving `x` to variable 0 and `v i` to variable `i + 1`. -/
def consV (x : R) (v : Nat → R) : Nat → R
  | 0 => x
  | i + 1 => v i

mutual
/-- The value of a polynomial under an assignment of the variables: `val (Const c) v = c`,
and the value of a Sum is the sum over its monomials `(e, c)` of
`val c (tailV v) * v 0 ^ e`. -/
def val : Poly R → (Nat → R) → R
  | .coeff c, _ => c
  | .arr ms, v => valMonos ms v
/-- The sum over a sequence of monomials `(e, c)` of `val c (tailV v) * v 0 ^ e`. -/
def valMonos : List (Mono R) → (Nat → R) → R
  | [], _ => 0
  | .mk p e :: rest, v => val p (tailV v) * v 0 ^ e + valMonos rest v
end

/-- A polynomial in the outermost variable only: a Constant, or a Sum all of whose
coefficients are Constants. -/
def oneVariable : Poly R → Bool
  | .coeff _ => true
  | .arr ms => ms.all (fun m => PolyIsCoeff m.p)

mutual
/-- The value of a polynomial in a ring `A` that receives the coefficients through `f`:
as `val`, with the Constant `c` read as `f c`. With `A` a polynomial ring over `R`, `f` the
embedding of the constants and the variables as assignment, this is the polynomial that
the tree denotes. -/
def valIn {A : Type} [CommRing A] (f : R → A) : Poly R → (Nat → A) → A
  | .coeff c, _ => f c
  | .arr ms, v => valMonosIn f ms v
/-- The sum over a sequence of monomials `(e, c)` of `valIn f c (tailV v) * v 0 ^ e`. -/
def valMonosIn {A : Type} [CommRing A] (f : R → A) : List (Mono R) → (Nat → A) → A
  | [], _ => 0
  | .mk p e :: rest, v => valIn f p (tailV v) * v 0 ^ e + valMonosIn f rest v
end

mutual
/-- The tree `p` with every Constant leaf `c` replaced by `f c`, the shape and the
exponents being kept. -/
def mapLeaves (f : R → R) : Poly R → Poly R
  | .coeff c => .coeff (f c)
  | .arr ms => .arr (mapLeavesMonos f ms)
/-- The monomials `ms` with `mapLeaves f` applied to every coefficient. -/
def mapLeavesMonos (f : R → R) : List (Mono R) → List (Mono R)
  | [] => []
  | .mk p e :: rest => .mk (mapLeaves f p) e :: mapLeavesMonos f rest
end

mutual
/-- Invariant (a) at every nesting level: the exponents of every Sum in the tree are
strictly increasing. -/
def sortedEveryLevel : Poly R → Bool
  | .coeff _ => true
  | .arr ms => expsIncreasing ms && coeffsSorted ms
/-- Every coefficient of the sequence satisfies `sortedEveryLevel`. -/
def coeffsSorted : List (Mono R) → Bool
  | [] => true
  | .mk p _ :: rest => sortedEveryLevel p && coeffsSorted rest
end

mutual
/-- The total degree can be computed in `poly_exp_t`: at every nesting level and for every
monomial `(e, c)`, the sum `e + PolyDeg c` that `PolyDeg` forms is at most `2^31 - 1`. -/
def degFits : Poly R → Bool
  | .coeff _ => true
  | .arr ms => degFitsMonos ms
/-- The sums formed by `PolyDeg` for the monomials of the list and inside their coefficients
are at most `2^31 - 1`. -/
def degFitsMonos : List (Mono R) → Bool
  | [] => true
  | .mk p e :: rest =>
    (decide ((e : Int) + PolyDeg p ≤ POLY_EXP_T_MAX) && degFits p) && degFitsMonos rest
end

mutual
/-- The Constant leaves of a polynomial, from left to right. -/
def leaves : Poly R → List R
  | .coeff c => [c]
  | .arr ms => leavesMonos ms
/-- The Constant leaves of the coefficients of a sequence of monomials. -/
def leavesMonos : List (Mono R) → List R
  | [] => []
  | .mk p _ :: rest => leaves p ++ leavesMonos rest
end

mutual
/-- The exponents of a polynomial are bounded level by level: every exponent at nesting
level `k` is at most `B k`. -/
def expsBelow : (Nat → Nat) → Poly R → Bool
  | _, .coeff _ => true
  | B, .arr ms => expsBelowMonos B ms
/-- The exponents of the monomials of the list are at most `B 0`, and those inside their
coefficients at level `k` at most `B (k + 1)`. -/
def expsBelowMonos : (Nat → Nat) → List (Mono R) → Bool
  | _, [] => true
  | B, .mk p e :: rest =>
    (decide (e ≤ B 0) && expsBelow (fun k => B (k + 1)) p) && expsBelowMonos B rest
end

/-! ## Basic facts about the data model -/

set_option linter.unusedSectionVars false

section Basics
variable {R : Type} [CommRing R] [DecidableEq R]

@[simp] theorem Mono.p_mk (p : Poly R) (e : Nat) : (Mono.mk p e).p = p := rfl

@[simp] theorem Mono.exp_mk (p : Poly R) (e : Nat) : (Mono.mk p e).exp = e := rfl

@[simp] theorem Mono.mk_p_exp (m : Mono R) : Mono.mk m.p m.exp = m := by
  cases m; rfl

/-- Induction over a polynomial through the coefficients of its monomials. -/
theorem Poly.induct {P : Poly R → Prop} (hc : ∀ c, P (.coeff c))
    (ha : ∀ ms, (∀ m ∈ ms, P m.p) → P (.arr ms)) : ∀ p, P p := by
  intro p
  refine @Poly.rec R P (fun m => P m.p) (fun ms => ∀ m ∈ ms, P m.p) hc
    (fun ms ih => ha ms ih) (fun p e ih => ih) (by simp) ?_ p
  intro h t ih1 ih2 m hm
  rcases List.mem_cons.1 hm with rfl | hm
  · exact ih1
  · exact ih2 m hm

theorem sizeOf_p_lt_of_mem {m : Mono R} {ms : List (Mono R)} (h : m ∈ ms) :
    sizeOf m.p < sizeOf (Poly.arr ms) := by
  have h1 := List.sizeOf_lt_of_mem h
  cases m with
  | mk p e =>
    simp only [Mono.p_mk, Poly.arr.sizeOf_spec, Mono.mk.sizeOf_spec] at *
    omega

theorem cloneMonos_eq_of (ms : List (Mono R)) (h : ∀ m ∈ ms, PolyClone m.p = m.p) :
    cloneMonos ms = ms := by
  induction ms with
  | nil => rfl
  | cons m rest ih =>
    cases m with
    | mk p e =>
      have h1 := h (.mk p e) (by simp)
      simp only [Mono.p_mk] at h1
      rw [cloneMonos, h1, ih (fun m hm => h m (List.mem_cons_of_mem _ hm))]

@[simp] theorem PolyClone_eq (p : Poly R) : PolyClone p = p := by
  induction p using Poly.induct with
  | hc c => rfl
  | ha ms ih => rw [PolyClone, cloneMonos_eq_of ms ih]

@[simp] theorem cloneMonos_eq (ms : List (Mono R)) : cloneMonos ms = ms :=
  cloneMonos_eq_of ms (fun m _ => PolyClone_eq m.p)

@[simp] theorem MonoClone_eq (m : Mono R) : MonoClone m = m := by
  cases m; simp [MonoClone]

@[simp] theorem map_MonoClone (ms : List (Mono R)) : ms.map MonoClone = ms := by
  induction ms with
  | nil => rfl
  | cons m rest ih => simp [ih]

@[simp] theorem PolyIsZero_coeff (c : R) : PolyIsZero (Poly.coeff c) = decide (c = 0) := rfl

@[simp] theorem PolyIsZero_arr (ms : List (Mono R)) : PolyIsZero (Poly.arr ms) = false := rfl

theorem PolyIsZero_iff (p : Poly R) : PolyIsZero p = true ↔ p = Poly.coeff 0 := by
  cases p <;> simp

@[simp] theorem PolyIsCoeff_coeff (c : R) : PolyIsCoeff (Poly.coeff c) = true := rfl

@[simp] theorem PolyIsCoeff_arr (ms : List (Mono R)) : PolyIsCoeff (Poly.arr ms) = false := rfl

/-! ## The canonical form as properties of lists -/

theorem expsIncreasing_cons (m : Mono R) (l : List (Mono R)) :
    expsIncreasing (m :: l) = true ↔ (∀ m' ∈ l, m.exp < m'.exp) ∧ expsIncreasing l = true := by
  induction l generalizing m with
  | nil => simp [expsIncreasing]
  | cons b rest ih =>
    simp only [expsIncreasing, Bool.and_eq_true, decide_eq_true_eq, List.mem_cons, forall_eq_or_imp]
    rw [ih b]
    constructor
    · rintro ⟨h1, h2, h3⟩
      exact ⟨⟨h1, fun m' hm' => lt_trans h1 (h2 m' hm')⟩, h2, h3⟩
    · rintro ⟨⟨h1, _⟩, h2, h3⟩
      exact ⟨h1, h2, h3⟩

theorem coeffsCanonical_cons (m : Mono R) (l : List (Mono R)) :
    coeffsCanonical (m :: l) = true ↔
      (Canonical m.p = true ∧ PolyIsZero m.p = false) ∧ coeffsCanonical l = true := by
  cases m; simp [coeffsCanonical, and_assoc]

theorem coeffsCanonical_iff (l : List (Mono R)) :
    coeffsCanonical l = true ↔ ∀ m ∈ l, Canonical m.p = true ∧ PolyIsZero m.p = false := by
  induction l with
  | nil => simp [coeffsCanonical]
  | cons m rest ih => rw [coeffsCanonical_cons, ih]; simp

theorem Canonical_arr_iff (ms : List (Mono R)) :
    Canonical (Poly.arr ms) = true ↔
      ms ≠ [] ∧ expsIncreasing ms = true ∧ collapsible ms = false ∧ coeffsCanonical ms = true := by
  simp [Canonical, and_assoc]

@[simp] theorem Canonical_coeff (c : R) : Canonical (Poly.coeff c) = true := rfl

theorem collapsible_iff (ms : List (Mono R)) :
    collapsible ms = true ↔ ∃ c : R, ms = [Mono.mk (Poly.coeff c) 0] := by
  unfold collapsible
  split <;> simp_all

end Basics

/-! ## Addition keeps the canonical form -/

section AddCanonical
variable {R : Type} [CommRing R] [DecidableEq R]

@[simp] theorem addLoop_nil_left (qs : List (Mono R)) : addLoop [] qs = qs := by
  induction qs with
  | nil => rw [addLoop]
  | cons q rest ih => rw [addLoop, ih, MonoClone_eq]

@[simp] theorem addLoop_nil_right (ps : List (Mono R)) : addLoop ps [] = ps := by
  induction ps with
  | nil => rw [addLoop]
  | cons p rest ih => rw [addLoop, ih, MonoClone_eq]

/-- The final step of `PolyAdd`: a result that is a Constant, or a non-empty Sum with
increasing exponents and canonical non-zero coefficients, is canonical after the collapse. -/
theorem PolyAdd_canonical_of_result (p q : Poly R)
    (h : ∀ l, (if (PolyIsCoeff p || PolyIsCoeff q) = true then PolyAddCoeff p q
          else PolyAddNonCoeffs p q) = Poly.arr l →
        l ≠ [] ∧ expsIncreasing l = true ∧ coeffsCanonical l = true) :
    Canonical (PolyAdd p q) = true := by
  rw [PolyAdd.eq_1]
  split
  · rfl
  · rename_i r hr
    cases hres : (if (PolyIsCoeff p || PolyIsCoeff q) = true then PolyAddCoeff p q
          else PolyAddNonCoeffs p q) with
    | coeff c => rfl
    | arr l =>
      obtain ⟨h1, h2, h3⟩ := h l hres
      rw [Canonical_arr_iff]
      refine ⟨h1, h2, ?_, h3⟩
      cases hc : collapsible l with
      | false => rfl
      | true =>
        obtain ⟨c, rfl⟩ := (collapsible_iff l).1 hc
        exact absurd hres (hr c)

theorem addLoop_good (ps : List (Mono R)) :
    ∀ qs : List (Mono R),
      (∀ m ∈ ps, ∀ m' ∈ qs, Canonical (PolyAdd m.p m'.p) = true) →
      expsIncreasing ps = true → coeffsCanonical ps = true →
      expsIncreasing qs = true → coeffsCanonical qs = true →
      expsIncreasing (addLoop ps qs) = true ∧ coeffsCanonical (addLoop ps qs) = true ∧
        ∀ m ∈ addLoop ps qs, (∃ m' ∈ ps, m'.exp = m.exp) ∨ (∃ m' ∈ qs, m'.exp = m.exp) := by
  induction ps with
  | nil =>
    intro qs _ _ _ h3 h4
    simp only [addLoop_nil_left]
    exact ⟨h3, h4, fun m hm => Or.inr ⟨m, hm, rfl⟩⟩
  | cons p ps ihp =>
    intro qs
    induction qs with
    | nil =>
      intro _ h1 h2 _ _
      simp only [addLoop_nil_right]
      exact ⟨h1, h2, fun m hm => Or.inl ⟨m, hm, rfl⟩⟩
    | cons q qs ihq =>
      intro H h1 h2 h3 h4
      obtain ⟨pp, pe⟩ := p
      obtain ⟨qp, qe⟩ := q
      have h1c := (expsIncreasing_cons _ _).1 h1
      have h2c := (coeffsCanonical_cons _ _).1 h2
      have h3c := (expsIncreasing_cons _ _).1 h3
      have h4c := (coeffsCanonical_cons _ _).1 h4
      simp only [Mono.p_mk, Mono.exp_mk] at h1c h2c h3c h4c
      rw [addLoop.eq_4]
      by_cases hlt : pe < qe
      · rw [if_pos hlt, MonoClone_eq]
        obtain ⟨i1, i2, i3⟩ := ihp (Mono.mk qp qe :: qs)
          (fun m hm m' hm' => H m (List.mem_cons_of_mem _ hm) m' hm') h1c.2 h2c.2 h3 h4
        refine ⟨?_, ?_, ?_⟩
        · rw [expsIncreasing_cons]
          refine ⟨?_, i1⟩
          intro m hm
          rcases i3 m hm with ⟨m', hm', he⟩ | ⟨m', hm', he⟩
          · rw [← he]; exact h1c.1 m' hm'
          · rw [← he]
            rcases List.mem_cons.1 hm' with rfl | hm''
            · exact hlt
            · exact lt_trans hlt (h3c.1 m' hm'')
        · rw [coeffsCanonical_cons]; exact ⟨h2c.1, i2⟩
        · intro m hm
          rcases List.mem_cons.1 hm with rfl | hm
          · exact Or.inl ⟨_, List.mem_cons_self _ _, rfl⟩
          · rcases i3 m hm with ⟨m', hm', he⟩ | h
            · exact Or.inl ⟨m', List.mem_cons_of_mem _ hm', he⟩
            · exact Or.inr h
      · rw [if_neg hlt]
        by_cases hgt : pe > qe
        · rw [if_pos hgt, MonoClone_eq]
          obtain ⟨i1, i2, i3⟩ := ihq
            (fun m hm m' hm' => H m hm m' (List.mem_cons_of_mem _ hm')) h1 h2 h3c.2 h4c.2
          refine ⟨?_, ?_, ?_⟩
          · rw [expsIncreasing_cons]
            refine ⟨?_, i1⟩
            intro m hm
            rcases i3 m hm with ⟨m', hm', he⟩ | ⟨m', hm', he⟩
            · rw [← he]
              rcases List.mem_cons.1 hm' with rfl | hm''
              · exact hgt
              · exact lt_trans hgt (h1c.1 m' hm'')
            · rw [← he]; exact h3c.1 m' hm'
          · rw [coeffsCanonical_cons]; exact ⟨h4c.1, i2⟩
          · intro m hm
            rcases List.mem_cons.1 hm with rfl | hm
            · exact Or.inr ⟨_, List.mem_cons_self _ _, rfl⟩
            · rcases i3 m hm with h | ⟨m', hm', he⟩
              · exact Or.inl h
              · exact Or.inr ⟨m', List.mem_cons_of_mem _ hm', he⟩
        · rw [if_neg hgt]
          have heq : pe = qe := by omega
          subst heq
          obtain ⟨i1, i2, i3⟩ := ihp qs
            (fun m hm m' hm' => H m (List.mem_cons_of_mem _ hm) m' (List.mem_cons_of_mem _ hm'))
            h1c.2 h2c.2 h3c.2 h4c.2
          have i3' : ∀ m ∈ addLoop ps qs,
              (∃ m' ∈ Mono.mk pp pe :: ps, m'.exp = m.exp) ∨
                (∃ m' ∈ Mono.mk qp pe :: qs, m'.exp = m.exp) := by
            intro m hm
            rcases i3 m hm with ⟨m', hm', he⟩ | ⟨m', hm', he⟩
            · exact Or.inl ⟨m', List.mem_cons_of_mem _ hm', he⟩
            · exact Or.inr ⟨m', List.mem_cons_of_mem _ hm', he⟩
          have hsum := H (Mono.mk pp pe) (List.mem_cons_self _ _) (Mono.mk qp pe)
            (List.mem_cons_self _ _)
          simp only [Mono.p_mk] at hsum
          cases hz : PolyIsZero (PolyAdd pp qp) with
          | true =>
            simp only [hz, Bool.not_true, Bool.false_eq_true, if_false]
            exact ⟨i1, i2, i3'⟩
          | false =>
            simp only [hz, Bool.not_false, if_true, MonoFromPoly]
            refine ⟨?_, ?_, ?_⟩
            · rw [expsIncreasing_cons]
              refine ⟨?_, i1⟩
              intro m hm
              rcases i3 m hm with ⟨m', hm', he⟩ | ⟨m', hm', he⟩
              · rw [← he]; exact h1c.1 m' hm'
              · rw [← he]; exact h3c.1 m' hm'
            · rw [coeffsCanonical_cons]; exact ⟨⟨hsum, hz⟩, i2⟩
            · intro m hm
              rcases List.mem_cons.1 hm with rfl | hm
              · exact Or.inl ⟨_, List.mem_cons_self _ _, rfl⟩
              · exact i3' m hm

theorem PolyOfArr_eq_arr {l l' : List (Mono R)} (h : PolyOfArr l = Poly.arr l') :
    l = l' ∧ l ≠ [] := by
  cases l with
  | nil => simp [PolyOfArr] at h
  | cons m ms => simp only [PolyOfArr, Poly.arr.injEq] at h; exact ⟨h, by simp⟩

/-- The result of `PolyAddCoeff` on a canonical Sum and a Constant, before the collapse. -/
theorem PolyAddCoeff_arr_coeff_good (ps : List (Mono R)) (b : R)
    (hp : Canonical (Poly.arr ps) = true)
    (H : ∀ m ∈ ps, Canonical (PolyAdd m.p (Poly.coeff b)) = true) :
    ∀ l, PolyAddCoeff (Poly.arr ps) (Poly.coeff b) = Poly.arr l →
      l ≠ [] ∧ expsIncreasing l = true ∧ coeffsCanonical l = true := by
  obtain ⟨hne, hexp, -, hco⟩ := (Canonical_arr_iff ps).1 hp
  intro l hl
  by_cases hb : b = 0
  · have : PolyAddCoeff (Poly.arr ps) (Poly.coeff b) = Poly.arr ps := by
      cases ps with
      | nil => rw [PolyAddCoeff.eq_4 _ _ (by simp)]; simp [hb]
      | cons m rest =>
        obtain ⟨p0, e0⟩ := m
        cases e0 with
        | zero => rw [PolyAddCoeff.eq_3]; simp [hb]
        | succ e => rw [PolyAddCoeff.eq_4 _ _ (by simp)]; simp [hb]
    rw [this] at hl
    cases hl
    exact ⟨hne, hexp, hco⟩
  · cases ps with
    | nil => exact absurd rfl hne
    | cons m rest =>
      obtain ⟨p0, e0⟩ := m
      have hexpc := (expsIncreasing_cons _ _).1 hexp
      have hcoc := (coeffsCanonical_cons _ _).1 hco
      simp only [Mono.p_mk, Mono.exp_mk] at hexpc hcoc
      cases e0 with
      | zero =>
        rw [PolyAddCoeff.eq_3] at hl
        simp only [PolyIsZero_coeff, hb, decide_False, Bool.false_eq_true, if_false,
          cloneMonos_eq] at hl
        have hsum := H (Mono.mk p0 0) (List.mem_cons_self _ _)
        simp only [Mono.p_mk] at hsum
        cases hz : PolyIsZero (PolyAdd p0 (Poly.coeff b)) with
        | true =>
          rw [hz] at hl
          simp only [if_true] at hl
          obtain ⟨rfl, hne'⟩ := PolyOfArr_eq_arr hl
          exact ⟨hne', hexpc.2, hcoc.2⟩
        | false =>
          rw [hz] at hl
          simp only [Bool.false_eq_true, if_false, Poly.arr.injEq] at hl
          subst hl
          refine ⟨by simp, ?_, ?_⟩
          · rw [expsIncreasing_cons]; exact ⟨hexpc.1, hexpc.2⟩
          · rw [coeffsCanonical_cons]; exact ⟨⟨hsum, hz⟩, hcoc.2⟩
      | succ e =>
        rw [PolyAddCoeff.eq_4 _ _ (by simp)] at hl
        simp only [PolyIsZero_coeff, hb, decide_False, Bool.false_eq_true, if_false,
          cloneMonos_eq, MonoFromPoly, Poly.arr.injEq] at hl
        subst hl
        refine ⟨by simp, ?_, ?_⟩
        · rw [expsIncreasing_cons]
          refine ⟨?_, hexp⟩
          intro m hm
          rcases List.mem_cons.1 hm with rfl | hm
          · simp
          · exact lt_of_le_of_lt (Nat.zero_le _) (hexpc.1 m hm)
        · rw [coeffsCanonical_cons]
          exact ⟨⟨rfl, by simp [hb]⟩, hco⟩

/-- Addition keeps the canonical form (all three dispatch paths). -/
theorem PolyAdd_canonical_aux (n : Nat) :
    ∀ p q : Poly R, sizeOf p + sizeOf q ≤ n → Canonical p = true → Canonical q = true →
      Canonical (PolyAdd p q) = true := by
  induction n using Nat.strong_induction_on with
  | _ n ih =>
    intro p q hn hp hq
    apply PolyAdd_canonical_of_result
    cases p with
    | coeff a =>
      cases q with
      | coeff b =>
        intro l hl
        simp [PolyAddCoeff, PolyFromCoeff] at hl
      | arr qs =>
        simp only [PolyIsCoeff_coeff, Bool.true_or, if_true, PolyAddCoeff.eq_2]
        apply PolyAddCoeff_arr_coeff_good qs a hq
        intro m hm
        have hlt := sizeOf_p_lt_of_mem hm
        have hc := ((coeffsCanonical_iff qs).1 ((Canonical_arr_iff qs).1 hq).2.2.2 m hm).1
        refine ih (sizeOf m.p + sizeOf (Poly.coeff a)) ?_ m.p (Poly.coeff a) le_rfl hc rfl
        omega
    | arr ps =>
      cases q with
      | coeff b =>
        simp only [PolyIsCoeff_coeff, Bool.or_true, if_true]
        apply PolyAddCoeff_arr_coeff_good ps b hp
        intro m hm
        have hlt := sizeOf_p_lt_of_mem hm
        have hc := ((coeffsCanonical_iff ps).1 ((Canonical_arr_iff ps).1 hp).2.2.2 m hm).1
        refine ih (sizeOf m.p + sizeOf (Poly.coeff b)) ?_ m.p (Poly.coeff b) le_rfl hc rfl
        omega
      | arr qs =>
        simp only [PolyIsCoeff_arr, Bool.or_false, Bool.false_eq_true, if_false,
          PolyAddNonCoeffs.eq_1]
        intro l hl
        obtain ⟨rfl, hne⟩ := PolyOfArr_eq_arr hl
        obtain ⟨-, hpe, -, hpc⟩ := (Canonical_arr_iff ps).1 hp
        obtain ⟨-, hqe, -, hqc⟩ := (Canonical_arr_iff qs).1 hq
        have := addLoop_good ps qs ?_ hpe hpc hqe hqc
        · exact ⟨hne, this.1, this.2.1⟩
        · intro m hm m' hm'
          have h1 := sizeOf_p_lt_of_mem hm
          have h2 := sizeOf_p_lt_of_mem hm'
          refine ih (sizeOf m.p + sizeOf m'.p) ?_ m.p m'.p le_rfl
            ((coeffsCanonical_iff ps).1 hpc m hm).1 ((coeffsCanonical_iff qs).1 hqc m' hm').1
          omega

theorem PolyAdd_canonical (p q : Poly R) (hp : Canonical p = true) (hq : Canonical q = true) :
    Canonical (PolyAdd p q) = true :=
  PolyAdd_canonical_aux _ p q le_rfl hp hq

end AddCanonical

/-! ## Negation, normalisation and multiplication keep the canonical form -/

section NormCanonical
variable {R : Type} [CommRing R] [DecidableEq R]

theorem expsIncreasing_iff_sorted (l : List (Mono R)) :
    expsIncreasing l = true ↔ (l.map Mono.exp).Sorted (· < ·) := by
  induction l with
  | nil => simp [expsIncreasing]
  | cons m rest ih =>
    rw [expsIncreasing_cons, ih, List.map_cons, List.sorted_cons]
    simp

theorem negMonos_eq_map (ms : List (Mono R)) :
    negMonos ms = ms.map (fun m => Mono.mk (PolyNeg m.p) m.exp) := by
  induction ms with
  | nil => rfl
  | cons m rest ih => cases m; simp [negMonos, ih]

theorem PolyIsZero_PolyNeg (p : Poly R) : PolyIsZero (PolyNeg p) = PolyIsZero p := by
  cases p <;> simp [PolyNeg, PolyFromCoeff]

theorem PolyIsCoeff_PolyNeg (p : Poly R) : PolyIsCoeff (PolyNeg p) = PolyIsCoeff p := by
  cases p <;> simp [PolyNeg, PolyFromCoeff]

theorem collapsible_negMonos (ms : List (Mono R)) :
    collapsible (negMonos ms) = collapsible ms := by
  match ms with
  | [] => rfl
  | [.mk (.coeff c) 0] => rfl
  | [.mk (.coeff c) (e + 1)] => rfl
  | [.mk (.arr l) e] => cases e <;> rfl
  | _ :: _ :: _ => rw [negMonos_eq_map]; simp [collapsible]

theorem PolyNeg_canonical (p : Poly R) (hp : Canonical p = true) :
    Canonical (PolyNeg p) = true := by
  induction p using Poly.induct with
  | hc c => rfl
  | ha ms ih =>
    obtain ⟨hne, hexp, hcol, hco⟩ := (Canonical_arr_iff ms).1 hp
    rw [PolyNeg, Canonical_arr_iff, collapsible_negMonos]
    refine ⟨?_, ?_, hcol, ?_⟩
    · rw [negMonos_eq_map]; simpa using hne
    · rw [expsIncreasing_iff_sorted] at hexp ⊢
      rw [negMonos_eq_map, List.map_map]
      exact hexp
    · rw [coeffsCanonical_iff] at hco ⊢
      intro m hm
      rw [negMonos_eq_map] at hm
      obtain ⟨m', hm', rfl⟩ := List.mem_map.1 hm
      simp only [Mono.p_mk, PolyIsZero_PolyNeg]
      exact ⟨ih m' hm' (hco m' hm').1, (hco m' hm').2⟩

theorem PolySub_canonical (p q : Poly R) (hp : Canonical p = true) (hq : Canonical q = true) :
    Canonical (PolySub p q) = true :=
  PolyAdd_canonical p (PolyNeg q) hp (PolyNeg_canonical q hq)

/-- The loop of the normaliser writes monomials with increasing exponents, not below
`prevExp`, whose coefficients are canonical and not zero. -/
theorem ownLoop_good (rest : List (Mono R)) :
    ∀ (prevExp : Nat) (polySum : Poly R), Canonical polySum = true →
      (∀ m ∈ rest, Canonical m.p = true) →
      (prevExp :: rest.map Mono.exp).Sorted (· ≤ ·) →
      expsIncreasing (ownLoop prevExp polySum rest) = true ∧
        coeffsCanonical (ownLoop prevExp polySum rest) = true ∧
        ∀ m ∈ ownLoop prevExp polySum rest, prevExp ≤ m.exp := by
  induction rest with
  | nil =>
    intro prevExp polySum hc _ _
    cases hz : PolyIsZero polySum with
    | true => simp [ownLoop, hz, expsIncreasing, coeffsCanonical]
    | false => simp [ownLoop, hz, expsIncreasing, coeffsCanonical, MonoFromPoly, hc]
  | cons m rest ih =>
    intro prevExp polySum hc hrest hs
    obtain ⟨p, e⟩ := m
    have hp : Canonical p = true := hrest (Mono.mk p e) (List.mem_cons_self _ _)
    have hrest' : ∀ m ∈ rest, Canonical m.p = true :=
      fun m hm => hrest m (List.mem_cons_of_mem _ hm)
    rw [List.map_cons, Mono.exp_mk] at hs
    have hs' := (List.sorted_cons.1 hs).2
    have hle : prevExp ≤ e := (List.sorted_cons.1 hs).1 e (List.mem_cons_self _ _)
    rw [ownLoop]
    by_cases heq : prevExp = e
    · rw [if_pos heq]
      subst heq
      exact ih prevExp (PolyAdd polySum p) (PolyAdd_canonical _ _ hc hp) hrest' hs'
    · rw [if_neg heq]
      have hlt : prevExp < e := lt_of_le_of_ne hle heq
      obtain ⟨i1, i2, i3⟩ := ih e p hp hrest' hs'
      cases hz : PolyIsZero polySum with
      | true =>
        simp only [Bool.not_true, Bool.false_eq_true, if_false, List.nil_append]
        exact ⟨i1, i2, fun m hm => le_trans hle (i3 m hm)⟩
      | false =>
        simp only [Bool.not_false, if_true, List.singleton_append, MonoFromPoly]
        refine ⟨?_, ?_, ?_⟩
        · rw [expsIncreasing_cons]
          exact ⟨fun m hm => lt_of_lt_of_le hlt (i3 m hm), i1⟩
        · rw [coeffsCanonical_cons]; exact ⟨⟨hc, hz⟩, i2⟩
        · intro m hm
          rcases List.mem_cons.1 hm with rfl | hm
          · exact le_rfl
          · exact le_trans hle (i3 m hm)

theorem sortMonos_perm (ms : List (Mono R)) : (sortMonos ms).Perm ms :=
  List.perm_insertionSort _ ms

theorem sortMonos_sorted (ms : List (Mono R)) :
    ((sortMonos ms).map Mono.exp).Sorted (· ≤ ·) := by
  haveI : IsTotal (Mono R) (fun a b => a.exp ≤ b.exp) := ⟨fun a b => le_total a.exp b.exp⟩
  haveI : IsTrans (Mono R) (fun a b => a.exp ≤ b.exp) := ⟨fun _ _ _ h1 h2 => le_trans h1 h2⟩
  have h := List.sorted_insertionSort (fun a b : Mono R => a.exp ≤ b.exp) ms
  unfold sortMonos
  exact List.pairwise_map.2 h

/-- The part of the normaliser after the sort gives a canonical polynomial on every array
sorted by exponent whose coefficients are canonical. -/
theorem ownSorted_canonical (ms : List (Mono R)) (h : ∀ m ∈ ms, Canonical m.p = true)
    (hs : (ms.map Mono.exp).Sorted (· ≤ ·)) : Canonical (ownSorted ms) = true := by
  cases ms with
  | nil => rfl
  | cons m rest =>
    obtain ⟨p, e⟩ := m
    obtain ⟨i1, i2, -⟩ := ownLoop_good rest e p (h _ (List.mem_cons_self _ _))
      (fun m hm => h m (List.mem_cons_of_mem _ hm)) hs
    rw [ownSorted]
    split
    · rfl
    · rfl
    · rename_i m ms hne heq
      rw [heq] at i1 i2
      rw [Canonical_arr_iff]
      refine ⟨by simp, i1, ?_, i2⟩
      cases hc : collapsible (m :: ms) with
      | false => rfl
      | true =>
        obtain ⟨c, hc'⟩ := (collapsible_iff _).1 hc
        injection hc' with h1 h2
        exact (hne c h1 h2).elim

theorem PolyOwnMonos_eq (ms : List (Mono R)) : PolyOwnMonos ms = ownSorted (sortMonos ms) := by
  cases ms with
  | nil => rfl
  | cons m rest => rfl

theorem PolyOwnMonos_canonical (ms : List (Mono R)) (h : ∀ m ∈ ms, Canonical m.p = true) :
    Canonical (PolyOwnMonos ms) = true := by
  rw [PolyOwnMonos_eq]
  exact ownSorted_canonical _ (fun m hm => h m ((sortMonos_perm ms).mem_iff.1 hm))
    (sortMonos_sorted ms)

theorem PolyAddMonos_eq (ms : List (Mono R)) : PolyAddMonos ms = PolyOwnMonos ms := by
  cases ms <;> rfl

theorem PolyCloneMonos_eq (ms : List (Mono R)) : PolyCloneMonos ms = PolyOwnMonos ms := by
  cases ms with
  | nil => rfl
  | cons m rest => simp only [PolyCloneMonos, map_MonoClone]

theorem mulCoeffLoop_eq_map (ps : List (Mono R)) (q : Poly R) :
    mulCoeffLoop ps q = ps.map (fun m => Mono.mk (PolyMul m.p q) m.exp) := by
  induction ps with
  | nil => rw [mulCoeffLoop]; rfl
  | cons m rest ih => cases m; rw [mulCoeffLoop, ih]; rfl

theorem mulInner_eq_map (c : Poly R) (e : Nat) (qs : List (Mono R)) :
    mulInner c e qs = qs.map (fun m => Mono.mk (PolyMul c m.p) (e + m.exp)) := by
  induction qs with
  | nil => rw [mulInner]; rfl
  | cons m rest ih => cases m; rw [mulInner, ih]; rfl

theorem mulLoop_eq_flatMap (ps qs : List (Mono R)) :
    mulLoop ps qs =
      ps.flatMap (fun pm => qs.map (fun m => Mono.mk (PolyMul pm.p m.p) (pm.exp + m.exp))) := by
  induction ps with
  | nil => rw [mulLoop]; rfl
  | cons m rest ih => cases m; rw [mulLoop, ih, mulInner_eq_map]; rfl

theorem PolyMul_canonical_aux (n : Nat) :
    ∀ p q : Poly R, sizeOf p + sizeOf q ≤ n → Canonical p = true → Canonical q = true →
      Canonical (PolyMul p q) = true := by
  induction n using Nat.strong_induction_on with
  | _ n ih =>
    intro p q hn hp hq
    have key : ∀ (ps : List (Mono R)) (b : R), Canonical (Poly.arr ps) = true →
        sizeOf (Poly.arr ps) + sizeOf (Poly.coeff b) ≤ n →
        Canonical (PolyMul (Poly.arr ps) (Poly.coeff b)) = true := by
      intro ps b hps hsz
      rw [PolyMul.eq_3]
      apply PolyOwnMonos_canonical
      intro m hm
      rw [mulCoeffLoop_eq_map] at hm
      obtain ⟨m', hm', rfl⟩ := List.mem_map.1 hm
      have hlt := sizeOf_p_lt_of_mem hm'
      have hc := ((coeffsCanonical_iff ps).1 ((Canonical_arr_iff ps).1 hps).2.2.2 m' hm').1
      refine ih (sizeOf m'.p + sizeOf (Poly.coeff b)) ?_ m'.p (Poly.coeff b) le_rfl hc rfl
      omega
    cases p with
    | coeff a =>
      cases q with
      | coeff b => rw [PolyMul.eq_1]; rfl
      | arr qs =>
        rw [PolyMul.eq_2]
        exact key qs a hq (by omega)
    | arr ps =>
      cases q with
      | coeff b => exact key ps b hp hn
      | arr qs =>
        rw [PolyMul.eq_4]
        apply PolyOwnMonos_canonical
        intro m hm
        rw [mulLoop_eq_flatMap] at hm
        obtain ⟨pm, hpm, hm⟩ := List.mem_flatMap.1 hm
        obtain ⟨qm, hqm, rfl⟩ := List.mem_map.1 hm
        have h1 := sizeOf_p_lt_of_mem hpm
        have h2 := sizeOf_p_lt_of_mem hqm
        refine ih (sizeOf pm.p + sizeOf qm.p) ?_ pm.p qm.p le_rfl
          ((coeffsCanonical_iff ps).1 ((Canonical_arr_iff ps).1 hp).2.2.2 pm hpm).1
          ((coeffsCanonical_iff qs).1 ((Canonical_arr_iff qs).1 hq).2.2.2 qm hqm).1
        omega

theorem PolyMul_canonical (p q : Poly R) (hp : Canonical p = true) (hq : Canonical q = true) :
    Canonical (PolyMul p q) = true :=
  PolyMul_canonical_aux _ p q le_rfl hp hq

end NormCanonical

/-! ## The value of sums, normal forms and products -/

section Semantics
variable {R : Type} [CommRing R] [DecidableEq R]

@[simp] theorem val_coeff (c : R) (v : Nat → R) : val (Poly.coeff c) v = c := rfl

@[simp] theorem val_arr (ms : List (Mono R)) (v : Nat → R) :
    val (Poly.arr ms) v = valMonos ms v := rfl

@[simp] theorem valMonos_nil (v : Nat → R) : valMonos ([] : List (Mono R)) v = 0 := rfl

@[simp] theorem valMonos_cons (m : Mono R) (ms : List (Mono R)) (v : Nat → R) :
    valMonos (m :: ms) v = val m.p (tailV v) * v 0 ^ m.exp + valMonos ms v := by
  cases m; rfl

@[simp] theorem valMonos_append (l l' : List (Mono R)) (v : Nat → R) :
    valMonos (l ++ l') v = valMonos l v + valMonos l' v := by
  induction l with
  | nil => simp
  | cons m rest ih => simp [ih, add_assoc]

theorem valMonos_perm {l l' : List (Mono R)} (h : l.Perm l') (v : Nat → R) :
    valMonos l v = valMonos l' v := by
  induction h with
  | nil => rfl
  | cons m _ ih => simp [ih]
  | swap a b l => simp only [valMonos_cons]; ring
  | trans _ _ ih1 ih2 => rw [ih1, ih2]

@[simp] theorem val_PolyOfArr (l : List (Mono R)) (v : Nat → R) :
    val (PolyOfArr l) v = valMonos l v := by
  cases l <;> rfl

theorem val_eq_zero_of_isZero {p : Poly R} (h : PolyIsZero p = true) (v : Nat → R) :
    val p v = 0 := by
  rw [(PolyIsZero_iff p).1 h]; rfl

theorem val_addLoop (ps : List (Mono R)) :
    ∀ qs : List (Mono R),
      (∀ m ∈ ps, ∀ m' ∈ qs, ∀ v : Nat → R,
        val (PolyAdd m.p m'.p) v = val m.p v + val m'.p v) →
      ∀ v : Nat → R, valMonos (addLoop ps qs) v = valMonos ps v + valMonos qs v := by
  induction ps with
  | nil => intro qs _ v; simp
  | cons p ps ihp =>
    intro qs
    induction qs with
    | nil => intro _ v; simp
    | cons q qs ihq =>
      intro H v
      obtain ⟨pp, pe⟩ := p
      obtain ⟨qp, qe⟩ := q
      rw [addLoop.eq_4]
      by_cases hlt : pe < qe
      · rw [if_pos hlt, MonoClone_eq, valMonos_cons,
          ihp _ (fun m hm m' hm' => H m (List.mem_cons_of_mem _ hm) m' hm') v]
        simp only [valMonos_cons]; ring
      · rw [if_neg hlt]
        by_cases hgt : pe > qe
        · rw [if_pos hgt, MonoClone_eq, valMonos_cons,
            ihq (fun m hm m' hm' => H m hm m' (List.mem_cons_of_mem _ hm')) v]
          simp only [valMonos_cons]; ring
        · rw [if_neg hgt]
          have heq : pe = qe := by omega
          subst heq
          have hsum := H (Mono.mk pp pe) (List.mem_cons_self _ _) (Mono.mk qp pe)
            (List.mem_cons_self _ _) (tailV v)
          simp only [Mono.p_mk] at hsum
          have hrec := ihp qs
            (fun m hm m' hm' => H m (List.mem_cons_of_mem _ hm) m' (List.mem_cons_of_mem _ hm')) v
          cases hz : PolyIsZero (PolyAdd pp qp) with
          | true =>
            simp only [hz, Bool.not_true, Bool.false_eq_true, if_false, valMonos_cons,
              Mono.p_mk, Mono.exp_mk]
            rw [hrec]
            have h0 := val_eq_zero_of_isZero hz (tailV v)
            rw [hsum] at h0
            linear_combination (- v 0 ^ pe) * h0
          | false =>
            simp only [hz, Bool.not_false, if_true, valMonos_cons, MonoFromPoly,
              Mono.p_mk, Mono.exp_mk]
            rw [hrec, hsum]; ring

theorem val_PolyAddCoeff_arr_coeff (ps : List (Mono R)) (b : R)
    (H : ∀ m ∈ ps, ∀ v : Nat → R, val (PolyAdd m.p (Poly.coeff b)) v = val m.p v + b)
    (v : Nat → R) :
    val (PolyAddCoeff (Poly.arr ps) (Poly.coeff b)) v = valMonos ps v + b := by
  by_cases hb : b = 0
  · have : PolyAddCoeff (Poly.arr ps) (Poly.coeff b) = Poly.arr ps := by
      cases ps with
      | nil => rw [PolyAddCoeff.eq_4 _ _ (by simp)]; simp [hb]
      | cons m rest =>
        obtain ⟨p0, e0⟩ := m
        cases e0 with
        | zero => rw [PolyAddCoeff.eq_3]; simp [hb]
        | succ e => rw [PolyAddCoeff.eq_4 _ _ (by simp)]; simp [hb]
    rw [this, hb]; simp
  · cases ps with
    | nil =>
      rw [PolyAddCoeff.eq_4 _ _ (by simp)]
      simp [hb, MonoFromPoly]
    | cons m rest =>
      obtain ⟨p0, e0⟩ := m
      cases e0 with
      | zero =>
        rw [PolyAddCoeff.eq_3]
        have hsum := H (Mono.mk p0 0) (List.mem_cons_self _ _) (tailV v)
        simp only [Mono.p_mk] at hsum
        simp only [PolyIsZero_coeff, hb, decide_False, Bool.false_eq_true, if_false,
          cloneMonos_eq]
        cases hz : PolyIsZero (PolyAdd p0 (Poly.coeff b)) with
        | true =>
          have h0 := val_eq_zero_of_isZero hz (tailV v)
          rw [hsum] at h0
          simp only [if_true, val_PolyOfArr, valMonos_cons, Mono.p_mk, Mono.exp_mk, pow_zero,
            mul_one]
          linear_combination -h0
        | false =>
          simp only [Bool.false_eq_true, if_false, val_arr, valMonos_cons, Mono.p_mk,
            Mono.exp_mk, pow_zero, mul_one]
          rw [hsum]; ring
      | succ e =>
        rw [PolyAddCoeff.eq_4 _ _ (by simp)]
        simp only [PolyIsZero_coeff, hb, decide_False, Bool.false_eq_true, if_false,
          cloneMonos_eq, MonoFromPoly, val_arr, valMonos_cons, Mono.p_mk, Mono.exp_mk,
          pow_zero, mul_one, val_coeff]
        ring

/-- The collapse at the end of `PolyAdd` does not change the value. -/
theorem val_PolyAdd_of_result (p q : Poly R) (v : Nat → R) :
    val (PolyAdd p q) v =
      val (if (PolyIsCoeff p || PolyIsCoeff q) = true then PolyAddCoeff p q
        else PolyAddNonCoeffs p q) v := by
  rw [PolyAdd.eq_1]
  split
  · rename_i c heq
    rw [heq]; simp
  · rfl

theorem val_PolyAdd_aux (n : Nat) :
    ∀ p q : Poly R, sizeOf p + sizeOf q ≤ n →
      ∀ v : Nat → R, val (PolyAdd p q) v = val p v + val q v := by
  induction n using Nat.strong_induction_on with
  | _ n ih =>
    intro p q hn v
    rw [val_PolyAdd_of_result]
    cases p with
    | coeff a =>
      cases q with
      | coeff b => simp [PolyAddCoeff, PolyFromCoeff]
      | arr qs =>
        simp only [PolyIsCoeff_coeff, Bool.true_or, if_true, PolyAddCoeff.eq_2]
        rw [val_PolyAddCoeff_arr_coeff qs a ?_ v]
        · simp [add_comm]
        · intro m hm v
          have hlt := sizeOf_p_lt_of_mem hm
          refine ih (sizeOf m.p + sizeOf (Poly.coeff a)) ?_ m.p (Poly.coeff a) le_rfl v
          omega
    | arr ps =>
      cases q with
      | coeff b =>
        simp only [PolyIsCoeff_coeff, Bool.or_true, if_true]
        rw [val_PolyAddCoeff_arr_coeff ps b ?_ v]
        · simp
        · intro m hm v
          have hlt := sizeOf_p_lt_of_mem hm
          refine ih (sizeOf m.p + sizeOf (Poly.coeff b)) ?_ m.p (Poly.coeff b) le_rfl v
          omega
      | arr qs =>
        simp only [PolyIsCoeff_arr, Bool.or_false, Bool.false_eq_true, if_false,
          PolyAddNonCoeffs.eq_1, val_PolyOfArr, val_arr]
        apply val_addLoop
        intro m hm m' hm' v
        have h1 := sizeOf_p_lt_of_mem hm
        have h2 := sizeOf_p_lt_of_mem hm'
        refine ih (sizeOf m.p + sizeOf m'.p) ?_ m.p m'.p le_rfl v
        omega

/-- The value of a sum is the sum of the values. -/
theorem val_PolyAdd (p q : Poly R) (v : Nat → R) :
    val (PolyAdd p q) v = val p v + val q v :=
  val_PolyAdd_aux _ p q le_rfl v

theorem val_ownLoop (rest : List (Mono R)) :
    ∀ (prevExp : Nat) (polySum : Poly R) (v : Nat → R),
      valMonos (ownLoop prevExp polySum rest) v =
        val polySum (tailV v) * v 0 ^ prevExp + valMonos rest v := by
  induction rest with
  | nil =>
    intro prevExp polySum v
    cases hz : PolyIsZero polySum with
    | true => simp [ownLoop, hz, val_eq_zero_of_isZero hz]
    | false => simp [ownLoop, hz, MonoFromPoly]
  | cons m rest ih =>
    intro prevExp polySum v
    obtain ⟨p, e⟩ := m
    rw [ownLoop]
    by_cases heq : prevExp = e
    · rw [if_pos heq, ih, val_PolyAdd]
      subst heq
      simp only [valMonos_cons, Mono.p_mk, Mono.exp_mk]; ring
    · rw [if_neg heq, valMonos_append, ih]
      cases hz : PolyIsZero polySum with
      | true => simp [val_eq_zero_of_isZero hz]
      | false => simp [MonoFromPoly, add_assoc]

theorem val_ownSorted (ms : List (Mono R)) (v : Nat → R) :
    val (ownSorted ms) v = valMonos ms v := by
  cases ms with
  | nil => rfl
  | cons m rest =>
    obtain ⟨p, e⟩ := m
    have h := val_ownLoop rest e p v
    rw [ownSorted]
    split
    · rename_i heq
      rw [heq] at h
      simp only [valMonos_cons, Mono.p_mk, Mono.exp_mk]
      rw [← h]; rfl
    · rename_i c heq
      rw [heq] at h
      simp only [valMonos_cons, Mono.p_mk, Mono.exp_mk]
      rw [← h]; simp
    · rename_i m ms _ heq
      rw [heq] at h
      simp only [valMonos_cons, Mono.p_mk, Mono.exp_mk, val_arr]
      rw [← h]; simp

/-- The value of the normaliser's result is the sum over all monomials handed in. -/
theorem val_PolyOwnMonos (ms : List (Mono R)) (v : Nat → R) :
    val (PolyOwnMonos ms) v = valMonos ms v := by
  rw [PolyOwnMonos_eq, val_ownSorted, valMonos_perm (sortMonos_perm ms)]

theorem val_PolyMul_aux (n : Nat) :
    ∀ p q : Poly R, sizeOf p + sizeOf q ≤ n →
      ∀ v : Nat → R, val (PolyMul p q) v = val p v * val q v := by
  induction n using Nat.strong_induction_on with
  | _ n ih =>
    intro p q hn v
    have key : ∀ (ps : List (Mono R)) (b : R),
        sizeOf (Poly.arr ps) + sizeOf (Poly.coeff b) ≤ n →
        val (PolyMul (Poly.arr ps) (Poly.coeff b)) v = valMonos ps v * b := by
      intro ps b hsz
      rw [PolyMul.eq_3, val_PolyOwnMonos, mulCoeffLoop_eq_map]
      have : ∀ l : List (Mono R), (∀ m ∈ l, m ∈ ps) →
          valMonos (l.map (fun m => Mono.mk (PolyMul m.p (Poly.coeff b)) m.exp)) v
            = valMonos l v * b := by
        intro l
        induction l with
        | nil => intro _; simp
        | cons m rest ihl =>
          intro hl
          have hm := hl m (List.mem_cons_self _ _)
          have hlt := sizeOf_p_lt_of_mem hm
          have hmul := ih (sizeOf m.p + sizeOf (Poly.coeff b)) (by omega) m.p (Poly.coeff b)
            le_rfl (tailV v)
          simp only [List.map_cons, valMonos_cons, Mono.p_mk, Mono.exp_mk]
          rw [ihl (fun m hm => hl m (List.mem_cons_of_mem _ hm)), hmul]
          simp only [val_coeff]; ring
      exact this ps (fun m hm => hm)
    cases p with
    | coeff a =>
      cases q with
      | coeff b => rw [PolyMul.eq_1]; rfl
      | arr qs =>
        rw [PolyMul.eq_2, key qs a (by omega)]
        simp [mul_comm]
    | arr ps =>
      cases q with
      | coeff b => rw [key ps b hn]; simp
      | arr qs =>
        rw [PolyMul.eq_4, val_PolyOwnMonos, mulLoop_eq_flatMap]
        have inner : ∀ (pm : Mono R), pm ∈ ps → ∀ l : List (Mono R), (∀ m ∈ l, m ∈ qs) →
            valMonos (l.map (fun m => Mono.mk (PolyMul pm.p m.p) (pm.exp + m.exp))) v
              = val pm.p (tailV v) * v 0 ^ pm.exp * valMonos l v := by
          intro pm hpm l
          induction l with
          | nil => intro _; simp
          | cons m rest ihl =>
            intro hl
            have hm := hl m (List.mem_cons_self _ _)
            have h1 := sizeOf_p_lt_of_mem hpm
            have h2 := sizeOf_p_lt_of_mem hm
            have hmul := ih (sizeOf pm.p + sizeOf m.p) (by omega) pm.p m.p le_rfl (tailV v)
            simp only [List.map_cons, valMonos_cons, Mono.p_mk, Mono.exp_mk]
            rw [ihl (fun m hm => hl m (List.mem_cons_of_mem _ hm)), hmul]
            ring
        have outer : ∀ l : List (Mono R), (∀ m ∈ l, m ∈ ps) →
            valMonos (l.flatMap (fun pm =>
              qs.map (fun m => Mono.mk (PolyMul pm.p m.p) (pm.exp + m.exp)))) v
              = valMonos l v * valMonos qs v := by
          intro l
          induction l with
          | nil => intro _; simp
          | cons pm rest ihl =>
            intro hl
            rw [List.flatMap_cons, valMonos_append,
              ihl (fun m hm => hl m (List.mem_cons_of_mem _ hm)),
              inner pm (hl pm (List.mem_cons_self _ _)) qs (fun m hm => hm)]
            simp only [valMonos_cons]; ring
        simpa using outer ps (fun m hm => hm)

/-- The value of a product is the product of the values. -/
theorem val_PolyMul (p q : Poly R) (v : Nat → R) :
    val (PolyMul p q) v = val p v * val q v :=
  val_PolyMul_aux _ p q le_rfl v

end Semantics

/-! ## Powers, evaluation at a point and composition -/

section EvalCompose
variable {R : Type} [CommRing R] [DecidableEq R]

theorem coeffExpLoop_eq (b : Nat) : ∀ result a : R, coeffExpLoop result a b = result * a ^ b := by
  induction b using Nat.strong_induction_on with
  | _ b ih =>
    intro result a
    rw [coeffExpLoop]
    by_cases hb : b = 0
    · simp [hb]
    · rw [if_neg hb, ih (b / 2) (by omega)]
      have hdiv := Nat.div_add_mod b 2
      by_cases hodd : b % 2 = 1
      · rw [if_pos hodd]
        have : b = 2 * (b / 2) + 1 := by omega
        conv_rhs => rw [this]
        rw [pow_succ, pow_mul, pow_two]; ring
      · rw [if_neg hodd]
        have : b = 2 * (b / 2) := by omega
        conv_rhs => rw [this]
        rw [pow_mul, pow_two]

/-- Function `CoeffExp` is the power. -/
theorem CoeffExp_eq (a : R) (b : Nat) : CoeffExp a b = a ^ b := by
  rw [CoeffExp, coeffExpLoop_eq]; simp

theorem val_polyExpLoop (e : Nat) : ∀ (result multiplier : Poly R) (v : Nat → R),
    val (polyExpLoop result multiplier e) v = val result v * val multiplier v ^ e := by
  induction e using Nat.strong_induction_on with
  | _ e ih =>
    intro result multiplier v
    rw [polyExpLoop]
    by_cases he : e = 0
    · simp [he]
    · rw [if_neg he, ih (e / 2) (by omega), val_PolyMul]
      by_cases hodd : e % 2 = 1
      · rw [if_pos hodd, val_PolyMul]
        have : e = 2 * (e / 2) + 1 := by omega
        conv_rhs => rw [this]
        rw [pow_succ, pow_mul, pow_two]; ring
      · rw [if_neg hodd]
        have : e = 2 * (e / 2) := by omega
        conv_rhs => rw [this]
        rw [pow_mul, pow_two]

/-- The value of a power is the power of the value. -/
theorem val_PolyExp (p : Poly R) (e : Nat) (v : Nat → R) :
    val (PolyExp p e) v = val p v ^ e := by
  rw [PolyExp, val_polyExpLoop]; simp [PolyFromCoeff]

@[simp] theorem tailV_consV (x : R) (v : Nat → R) : tailV (consV x v) = v := by
  funext i; rfl

@[simp] theorem consV_zero (x : R) (v : Nat → R) : consV x v 0 = x := rfl

theorem val_PolyAt_foldl (x : R) (v : Nat → R) (ms : List (Mono R)) :
    ∀ acc : Poly R,
      val (ms.foldl (fun polySum m =>
        PolyAdd polySum (PolyMul m.p (PolyFromCoeff (CoeffExp x m.exp)))) acc) v =
        val acc v + valMonos ms (consV x v) := by
  induction ms with
  | nil => intro acc; simp
  | cons m rest ih =>
    intro acc
    rw [List.foldl_cons, ih, val_PolyAdd, val_PolyMul, CoeffExp_eq]
    simp [PolyFromCoeff, add_assoc]

/-- Function `PolyAt` substitutes `x` for the outermost variable. -/
theorem val_PolyAt (p : Poly R) (x : R) (v : Nat → R) :
    val (PolyAt p x) v = val p (consV x v) := by
  cases p with
  | coeff c => rfl
  | arr ms =>
    have h := val_PolyAt_foldl x v ms PolyZero
    simp only [PolyAt, val_arr]
    rw [h]; simp [PolyZero, PolyFromCoeff]

/-- The assignment that composition substitutes: the value of `q i` for `i < k`, else 0. -/
theorem composeV_tail (k : Nat) (q : Nat → Poly R) (v : Nat → R) :
    tailV (fun i => if i < k then val (q i) v else 0) =
      fun i => if i < (if k = 0 then 0 else k - 1) then val (q (i + 1)) v else 0 := by
  funext i
  simp only [tailV]
  by_cases hk : k = 0
  · simp [hk]
  · simp only [if_neg hk]
    by_cases hi : i + 1 < k
    · rw [if_pos hi, if_pos (by omega)]
    · rw [if_neg hi, if_neg (by omega)]

theorem val_composeLoop (ms : List (Mono R)) (k : Nat) (q : Nat → Poly R) (v : Nat → R)
    (H : ∀ m ∈ ms, ∀ (k : Nat) (q : Nat → Poly R),
      val (PolyCompose m.p k q) v = val m.p (fun i => if i < k then val (q i) v else 0))
    (hs : expsIncreasing ms = true) :
    ∀ result : Poly R, val (composeLoop ms k q result) v =
      val result v + valMonos ms (fun i => if i < k then val (q i) v else 0) := by
  induction ms with
  | nil => intro result; simp [composeLoop]
  | cons m rest ih =>
    intro result
    obtain ⟨c, e⟩ := m
    have hs' := (expsIncreasing_cons _ _).1 hs
    simp only [Mono.exp_mk] at hs'
    have hc := H (Mono.mk c e) (List.mem_cons_self _ _) (if k = 0 then 0 else k - 1)
      (fun i => q (i + 1))
    simp only [Mono.p_mk] at hc
    rw [← composeV_tail] at hc
    rw [composeLoop]
    by_cases hbr : e ≠ 0 ∧ k = 0
    · rw [if_pos hbr]
      obtain ⟨he, hk⟩ := hbr
      subst hk
      have hz : ∀ l : List (Mono R), (∀ m ∈ l, m.exp ≠ 0) →
          valMonos l (fun i => if i < 0 then val (q i) v else 0) = 0 := by
        intro l
        induction l with
        | nil => intro _; rfl
        | cons m l ihl =>
          intro hl
          rw [valMonos_cons, ihl (fun m hm => hl m (List.mem_cons_of_mem _ hm))]
          simp [hl m (List.mem_cons_self _ _)]
      rw [hz]
      · simp
      · intro m hm
        rcases List.mem_cons.1 hm with rfl | hm
        · exact he
        · have := hs'.1 m hm
          omega
    · rw [if_neg hbr]
      rw [ih (fun m hm => H m (List.mem_cons_of_mem _ hm)) hs'.2, val_PolyAdd, val_PolyMul, hc,
        valMonos_cons]
      simp only [Mono.p_mk, Mono.exp_mk]
      by_cases he : e = 0
      · simp [he, PolyFromCoeff, add_assoc]
      · have hk : 0 < k := by
          rcases Nat.eq_zero_or_pos k with h | h
          · exact absurd ⟨he, h⟩ hbr
          · exact h
        rw [if_neg he, val_PolyExp]
        simp only [hk, if_true]
        ring

/-- Composition evaluates `p` at the values of the substitutions, and at 0 for the
variables from `k` on. -/
theorem val_PolyCompose (p : Poly R) :
    Canonical p = true → ∀ (v : Nat → R) (k : Nat) (q : Nat → Poly R),
      val (PolyCompose p k q) v = val p (fun i => if i < k then val (q i) v else 0) := by
  induction p using Poly.induct with
  | hc c => intro _ v k q; rfl
  | ha ms ih =>
    intro hp v k q
    obtain ⟨-, hexp, -, hco⟩ := (Canonical_arr_iff ms).1 hp
    rw [PolyCompose, val_composeLoop ms k q v ?_ hexp]
    · simp [PolyZero, PolyFromCoeff]
    · intro m hm k q
      exact ih m hm ((coeffsCanonical_iff ms).1 hco m hm).1 v k q

theorem composeLoop_congr (ms : List (Mono R))
    (H : ∀ m ∈ ms, ∀ (k : Nat) (q q' : Nat → Poly R), (∀ i, i < k → q i = q' i) →
      PolyCompose m.p k q = PolyCompose m.p k q')
    (k : Nat) (q q' : Nat → Poly R) (hq : ∀ i, i < k → q i = q' i) :
    ∀ result : Poly R, composeLoop ms k q result = composeLoop ms k q' result := by
  induction ms with
  | nil => intro result; rfl
  | cons m rest ih =>
    intro result
    obtain ⟨c, e⟩ := m
    have hc := H (Mono.mk c e) (List.mem_cons_self _ _) (if k = 0 then 0 else k - 1)
      (fun i => q (i + 1)) (fun i => q' (i + 1))
      (by
        intro i hi
        by_cases hk : k = 0
        · simp [hk] at hi
        · rw [if_neg hk] at hi
          exact hq (i + 1) (by omega))
    simp only [Mono.p_mk] at hc
    rw [composeLoop, composeLoop]
    by_cases hbr : e ≠ 0 ∧ k = 0
    · rw [if_pos hbr, if_pos hbr]
    · rw [if_neg hbr, if_neg hbr, hc]
      by_cases he : e = 0
      · simp only [he, if_true]
        exact ih (fun m hm => H m (List.mem_cons_of_mem _ hm)) _
      · have hk : 0 < k := by
          rcases Nat.eq_zero_or_pos k with h | h
          · exact absurd ⟨he, h⟩ hbr
          · exact h
        rw [hq 0 hk]
        exact ih (fun m hm => H m (List.mem_cons_of_mem _ hm)) _

/-- The result of composition depends on `q[0 .. k)` only. -/
theorem PolyCompose_congr (p : Poly R) :
    ∀ (k : Nat) (q q' : Nat → Poly R), (∀ i, i < k → q i = q' i) →
      PolyCompose p k q = PolyCompose p k q' := by
  induction p using Poly.induct with
  | hc c => intro k q q' _; rfl
  | ha ms ih =>
    intro k q q' hq
    rw [PolyCompose, PolyCompose]
    exact composeLoop_congr ms ih k q q' hq _

theorem PolyAdd_coeff_coeff (a b : R) :
    PolyAdd (Poly.coeff a) (Poly.coeff b) = Poly.coeff (a + b) := by
  rw [PolyAdd.eq_1]
  simp [PolyAddCoeff, PolyFromCoeff]

theorem composeLoop_zero_isCoeff (ms : List (Mono R))
    (H : ∀ m ∈ ms, ∀ q : Nat → Poly R, ∃ c : R, PolyCompose m.p 0 q = Poly.coeff c)
    (q : Nat → Poly R) :
    ∀ r : R, ∃ c : R, composeLoop ms 0 q (Poly.coeff r) = Poly.coeff c := by
  induction ms with
  | nil => intro r; exact ⟨r, rfl⟩
  | cons m rest ih =>
    intro r
    obtain ⟨c, e⟩ := m
    rw [composeLoop]
    by_cases he : e = 0
    · obtain ⟨c', hc'⟩ := H (Mono.mk c e) (List.mem_cons_self _ _) (fun i => q (i + 1))
      simp only [Mono.p_mk] at hc'
      simp only [he, ne_eq, not_true_eq_false, false_and, if_false, if_true, hc',
        PolyFromCoeff, PolyMul.eq_1, PolyAdd_coeff_coeff]
      exact ih (fun m hm => H m (List.mem_cons_of_mem _ hm)) _
    · rw [if_pos ⟨he, rfl⟩]
      exact ⟨r, rfl⟩

/-- With no substitution the result of composition is a Constant. -/
theorem PolyCompose_zero_isCoeff (p : Poly R) :
    ∀ q : Nat → Poly R, ∃ c : R, PolyCompose p 0 q = Poly.coeff c := by
  induction p using Poly.induct with
  | hc c => intro q; exact ⟨c, rfl⟩
  | ha ms ih =>
    intro q
    rw [PolyCompose]
    exact composeLoop_zero_isCoeff ms ih q 0

end EvalCompose

/-! ## `PolyIsEq` is structural equality -/

section IsEq
variable {R : Type} [CommRing R] [DecidableEq R]

theorem isEqLoop_iff (ps : List (Mono R))
    (H : ∀ m ∈ ps, ∀ q : Poly R, PolyIsEq m.p q = true ↔ m.p = q) :
    ∀ qs : List (Mono R), ps.length = qs.length → (isEqLoop ps qs = true ↔ ps = qs) := by
  induction ps with
  | nil =>
    intro qs hlen
    cases qs with
    | nil => simp [isEqLoop]
    | cons q qs => simp at hlen
  | cons p ps ih =>
    intro qs hlen
    cases qs with
    | nil => simp at hlen
    | cons q qs =>
      obtain ⟨pp, pe⟩ := p
      obtain ⟨qp, qe⟩ := q
      have hp := H (Mono.mk pp pe) (List.mem_cons_self _ _) qp
      simp only [Mono.p_mk] at hp
      have hrec := ih (fun m hm => H m (List.mem_cons_of_mem _ hm)) qs (by simpa using hlen)
      rw [isEqLoop]
      by_cases hc : (decide (pe = qe) && PolyIsEq pp qp) = true
      · rw [if_pos hc, hrec]
        simp only [Bool.and_eq_true, decide_eq_true_eq] at hc
        obtain ⟨h1, h2⟩ := hc
        rw [hp] at h2
        subst h1 h2
        simp
      · rw [if_neg hc]
        simp only [Bool.and_eq_true, decide_eq_true_eq, not_and] at hc
        constructor
        · intro h; cases h
        · intro h
          injection h with h1 h2
          injection h1 with h3 h4
          exact absurd (hp.2 h3) (hc h4)

/-- Function `PolyIsEq` holds exactly of two equal trees. -/
theorem PolyIsEq_iff_eq (p : Poly R) : ∀ q : Poly R, PolyIsEq p q = true ↔ p = q := by
  induction p using Poly.induct with
  | hc a =>
    intro q
    cases q with
    | coeff b => simp [PolyIsEq]
    | arr qs => simp [PolyIsEq]
  | ha ms ih =>
    intro q
    cases q with
    | coeff b => simp [PolyIsEq]
    | arr qs =>
      rw [PolyIsEq]
      by_cases hlen : ms.length = qs.length
      · rw [if_neg (by simpa using hlen), isEqLoop_iff ms ih qs hlen]
        simp
      · rw [if_pos hlen]
        constructor
        · intro h; cases h
        · intro h
          injection h with h1
          exact absurd (congrArg List.length h1) hlen

end IsEq

/-! ## The canonical form is unique -/

section Unique
variable {R : Type} [CommRing R] [DecidableEq R]

theorem consV_tailV (v : Nat → R) : consV (v 0) (tailV v) = v := by
  funext i
  cases i <;> rfl

theorem uni_eval (ms : List (Mono R)) (t : Nat → R) (x : R) :
    Polynomial.eval x
      (ms.map (fun m => Polynomial.C (val m.p t) * Polynomial.X ^ m.exp)).sum =
      valMonos ms (consV x t) := by
  induction ms with
  | nil => simp
  | cons m rest ih => simp [ih]

theorem uni_coeff_of_not_mem (ms : List (Mono R)) (t : Nat → R) (n : Nat)
    (h : ∀ m ∈ ms, m.exp ≠ n) :
    Polynomial.coeff
      (ms.map (fun m => Polynomial.C (val m.p t) * Polynomial.X ^ m.exp)).sum n = 0 := by
  induction ms with
  | nil => simp
  | cons m rest ih =>
    have h1 : n ≠ m.exp := fun e => h m (List.mem_cons_self _ _) e.symm
    simp [ih (fun m hm => h m (List.mem_cons_of_mem _ hm)), Polynomial.coeff_C_mul_X_pow, h1]

theorem uni_coeff_of_mem (ms : List (Mono R)) (t : Nat → R) (hs : expsIncreasing ms = true)
    (m : Mono R) (hm : m ∈ ms) :
    Polynomial.coeff
      (ms.map (fun m => Polynomial.C (val m.p t) * Polynomial.X ^ m.exp)).sum m.exp =
      val m.p t := by
  induction ms with
  | nil => simp at hm
  | cons m0 rest ih =>
    obtain ⟨h1, h2⟩ := (expsIncreasing_cons _ _).1 hs
    simp only [List.map_cons, List.sum_cons, Polynomial.coeff_add,
      Polynomial.coeff_C_mul_X_pow]
    rcases List.mem_cons.1 hm with rfl | hm'
    · rw [uni_coeff_of_not_mem rest t m.exp (fun m' hm' => (ne_of_lt (h1 m' hm')).symm)]
      simp
    · rw [ih h2 hm', if_neg (ne_of_lt (h1 m hm')).symm]
      simp

end Unique

section UniqueDomain
variable {R : Type} [CommRing R] [DecidableEq R] [IsDomain R] [Infinite R]

theorem uni_eq_of_val_eq (ms ms' : List (Mono R))
    (h : ∀ v : Nat → R, valMonos ms v = valMonos ms' v) (t : Nat → R) :
    (ms.map (fun m => Polynomial.C (val m.p t) * Polynomial.X ^ m.exp)).sum =
      (ms'.map (fun m => Polynomial.C (val m.p t) * Polynomial.X ^ m.exp)).sum := by
  apply Polynomial.funext
  intro x
  rw [uni_eval, uni_eval, h]

/-- A canonical polynomial whose value is the same constant everywhere is that Constant. -/
theorem eq_coeff_of_val_const (p : Poly R) :
    Canonical p = true → ∀ c : R, (∀ v : Nat → R, val p v = c) → p = Poly.coeff c := by
  induction p using Poly.induct with
  | hc a =>
    intro _ c h
    have := h (fun _ => 0)
    simp only [val_coeff] at this
    rw [this]
  | ha ms ih =>
    intro hp c h
    exfalso
    obtain ⟨hne, hexp, hcol, hco⟩ := (Canonical_arr_iff ms).1 hp
    have hco' := (coeffsCanonical_iff ms).1 hco
    have huni : ∀ t : Nat → R,
        (ms.map (fun m => Polynomial.C (val m.p t) * Polynomial.X ^ m.exp)).sum =
          Polynomial.C c := by
      intro t
      apply Polynomial.funext
      intro x
      rw [uni_eval, Polynomial.eval_C]
      exact h _
    have hexp0 : ∀ m ∈ ms, m.exp = 0 := by
      intro m hm
      by_contra hne0
      have hz : ∀ v : Nat → R, val m.p v = 0 := by
        intro t
        rw [← uni_coeff_of_mem ms t hexp m hm, huni t, Polynomial.coeff_C, if_neg hne0]
      have := ih m hm (hco' m hm).1 0 hz
      have h2 := (hco' m hm).2
      rw [this] at h2
      simp at h2
    cases ms with
    | nil => exact hne rfl
    | cons m0 rest =>
      obtain ⟨h1, h2⟩ := (expsIncreasing_cons _ _).1 hexp
      cases rest with
      | cons m1 rest' =>
        have e0 := hexp0 m0 (List.mem_cons_self _ _)
        have e1 := hexp0 m1 (List.mem_cons_of_mem _ (List.mem_cons_self _ _))
        have := h1 m1 (List.mem_cons_self _ _)
        omega
      | nil =>
        have e0 := hexp0 m0 (List.mem_cons_self _ _)
        have hv : ∀ v : Nat → R, val m0.p v = c := by
          intro t
          rw [← uni_coeff_of_mem [m0] t hexp m0 (List.mem_cons_self _ _), huni t,
            Polynomial.coeff_C, if_pos e0]
        have hm0 := ih m0 (List.mem_cons_self _ _) (hco' m0 (List.mem_cons_self _ _)).1 c hv
        obtain ⟨p0, e⟩ := m0
        simp only [Mono.p_mk, Mono.exp_mk] at hm0 e0
        subst hm0 e0
        simp [collapsible] at hcol

/-- Two canonical polynomials with the same value under every assignment are equal. -/
theorem eq_of_val_eq (p : Poly R) :
    Canonical p = true → ∀ q : Poly R, Canonical q = true →
      (∀ v : Nat → R, val p v = val q v) → p = q := by
  induction p using Poly.induct with
  | hc a =>
    intro _ q hq h
    exact (eq_coeff_of_val_const q hq a (fun v => (h v).symm)).symm
  | ha ms ih =>
    intro hp q hq h
    cases q with
    | coeff b => exact eq_coeff_of_val_const _ hp b h
    | arr ms' =>
      obtain ⟨-, hexp, -, hco⟩ := (Canonical_arr_iff ms).1 hp
      obtain ⟨-, hexp', -, hco'⟩ := (Canonical_arr_iff ms').1 hq
      have hc := (coeffsCanonical_iff ms).1 hco
      have hc' := (coeffsCanonical_iff ms').1 hco'
      have huni := uni_eq_of_val_eq ms ms' h
      -- every monomial of one list has a partner with the same exponent in the other
      have partner : ∀ (l l' : List (Mono R)), expsIncreasing l = true →
          (∀ m ∈ l, Canonical m.p = true ∧ PolyIsZero m.p = false) →
          (∀ t : Nat → R,
            (l.map (fun m => Polynomial.C (val m.p t) * Polynomial.X ^ m.exp)).sum =
              (l'.map (fun m => Polynomial.C (val m.p t) * Polynomial.X ^ m.exp)).sum) →
          ∀ m ∈ l, ∃ m' ∈ l', m'.exp = m.exp := by
        intro l l' hl hcl hu m hm
        by_contra hno
        have hno' : ∀ m' ∈ l', m'.exp ≠ m.exp := fun m' hm' he => hno ⟨m', hm', he⟩
        have hz : ∀ v : Nat → R, val m.p v = 0 := by
          intro t
          rw [← uni_coeff_of_mem l t hl m hm, hu t, uni_coeff_of_not_mem l' t m.exp hno']
        have := eq_coeff_of_val_const m.p (hcl m hm).1 0 hz
        have h2 := (hcl m hm).2
        rw [this] at h2
        simp at h2
      have same : ∀ m ∈ ms, ∀ m' ∈ ms', m'.exp = m.exp → m = m' := by
        intro m hm m' hm' he
        have hv : ∀ v : Nat → R, val m.p v = val m'.p v := by
          intro t
          rw [← uni_coeff_of_mem ms t hexp m hm, huni t, ← he,
            uni_coeff_of_mem ms' t hexp' m' hm']
        have hpq := ih m hm (hc m hm).1 m'.p (hc' m' hm').1 hv
        obtain ⟨a, b⟩ := m
        obtain ⟨a', b'⟩ := m'
        simp only [Mono.p_mk, Mono.exp_mk] at hpq he
        rw [hpq, he]
      have hmem : ∀ m, m ∈ ms ↔ m ∈ ms' := by
        intro m
        constructor
        · intro hm
          obtain ⟨m', hm', he⟩ := partner ms ms' hexp hc huni m hm
          rw [same m hm m' hm' he]; exact hm'
        · intro hm'
          obtain ⟨m0, hm0, he⟩ := partner ms' ms hexp' hc' (fun t => (huni t).symm) m hm'
          rw [← same m0 hm0 m hm' he.symm]; exact hm0
      have hs : ms.Sorted (fun a b => a.exp < b.exp) :=
        List.pairwise_map.1 ((expsIncreasing_iff_sorted ms).1 hexp)
      have hs' : ms'.Sorted (fun a b => a.exp < b.exp) :=
        List.pairwise_map.1 ((expsIncreasing_iff_sorted ms').1 hexp')
      haveI : IsIrrefl (Mono R) (fun a b => a.exp < b.exp) := ⟨fun a => lt_irrefl a.exp⟩
      haveI : IsAntisymm (Mono R) (fun a b => a.exp < b.exp) :=
        ⟨fun a b h1 h2 => absurd h1 (lt_asymm h2)⟩
      have hperm : ms.Perm ms' := (List.perm_ext_iff_of_nodup hs.nodup hs'.nodup).2 hmem
      rw [List.eq_of_perm_of_sorted hperm hs hs']

/-- On canonical polynomials `PolyIsEq` decides equality of the values. -/
theorem PolyIsEq_iff_val_eq (p q : Poly R) (hp : Canonical p = true) (hq : Canonical q = true) :
    PolyIsEq p q = true ↔ ∀ v : Nat → R, val p v = val q v := by
  rw [PolyIsEq_iff_eq]
  constructor
  · intro h v; rw [h]
  · exact eq_of_val_eq p hp q hq

end UniqueDomain

/-! ## Further facts used by the statements below -/

section Further
variable {R : Type} [CommRing R] [DecidableEq R]

theorem valMonos_eq_sum (ms : List (Mono R)) (v : Nat → R) :
    valMonos ms v = (ms.map (fun m => val m.p (tailV v) * v 0 ^ m.exp)).sum := by
  induction ms with
  | nil => rfl
  | cons m rest ih => simp [ih]

theorem mulLoop_length (ps qs : List (Mono R)) :
    (mulLoop ps qs).length = ps.length * qs.length := by
  rw [mulLoop_eq_flatMap]
  induction ps with
  | nil => simp
  | cons m rest ih =>
    rw [List.flatMap_cons, List.length_append, ih, List.length_map, List.length_cons]
    ring

end Further

/-! ## The statements of the specification -/

section Claims
variable {R : Type} [CommRing R] [DecidableEq R]

/-- C1: for every finite sequence of monomials (in any order, with repeated exponents and
zero coefficients allowed) whose coefficient polynomials are canonical, `PolyOwnMonos`,
`PolyAddMonos` and `PolyCloneMonos` return a canonical polynomial: strictly increasing
exponents at every level, no monomial with the Constant 0 as coefficient, no Sum made of a
single exponent-0 monomial with a Constant coefficient, and never an empty Sum. This holds
for every coefficient ring. -/
theorem claim_C1_normalise_canonical (ms : List (Mono R))
    (h : ∀ m ∈ ms, Canonical m.p = true) :
    Canonical (PolyOwnMonos ms) = true ∧ Canonical (PolyAddMonos ms) = true ∧
      Canonical (PolyCloneMonos ms) = true ∧ PolyOwnMonos ms ≠ Poly.arr [] := by
  refine ⟨PolyOwnMonos_canonical ms h, ?_, ?_, ?_⟩
  · rw [PolyAddMonos_eq]; exact PolyOwnMonos_canonical ms h
  · rw [PolyCloneMonos_eq]; exact PolyOwnMonos_canonical ms h
  · intro he
    have := PolyOwnMonos_canonical ms h
    rw [he] at this
    simp [Canonical] at this

/-- The statement of C1 on the sequence `(0,1), (5,2), (-5,2), ((2,1),0), (7,0)`, written
as (coefficient, exponent). -/
theorem claim_C1_witness :
    Canonical (PolyOwnMonos [Mono.mk (Poly.coeff (0 : ℤ)) 1, .mk (.coeff 5) 2,
        .mk (.coeff (-5)) 2, .mk (.arr [.mk (.coeff 2) 1]) 0, .mk (.coeff 7) 0]) = true ∧
      Canonical (PolyAddMonos [Mono.mk (Poly.coeff (0 : ℤ)) 1, .mk (.coeff 5) 2,
        .mk (.coeff (-5)) 2, .mk (.arr [.mk (.coeff 2) 1]) 0, .mk (.coeff 7) 0]) = true ∧
      Canonical (PolyCloneMonos [Mono.mk (Poly.coeff (0 : ℤ)) 1, .mk (.coeff 5) 2,
        .mk (.coeff (-5)) 2, .mk (.arr [.mk (.coeff 2) 1]) 0, .mk (.coeff 7) 0]) = true ∧
      PolyOwnMonos [Mono.mk (Poly.coeff (0 : ℤ)) 1, .mk (.coeff 5) 2,
        .mk (.coeff (-5)) 2, .mk (.arr [.mk (.coeff 2) 1]) 0, .mk (.coeff 7) 0] ≠ Poly.arr [] :=
  claim_C1_normalise_canonical _ (by decide)

/-- C2: for all canonical polynomials `p` and `q`, `PolyAdd p q` and `PolySub p q` are
canonical in the sense of invariant (a)-(e), whichever of the three dispatch paths
(Constant+Constant, Constant+Sum in either order, Sum+Sum) is taken. This holds for every
coefficient ring. -/
theorem claim_C2_add_canonical (p q : Poly R) (hp : Canonical p = true)
    (hq : Canonical q = true) :
    Canonical (PolyAdd p q) = true ∧ Canonical (PolySub p q) = true :=
  ⟨PolyAdd_canonical p q hp hq, PolySub_canonical p q hp hq⟩

/-- The statement of C2 on `p = 3x^2 + (2y)x^0` and `q = x^2`. -/
theorem claim_C2_witness :
    Canonical (PolyAdd (Poly.arr [.mk (.arr [.mk (.coeff (2 : ℤ)) 1]) 0, .mk (.coeff 3) 2])
        (Poly.arr [.mk (.coeff 1) 2])) = true ∧
      Canonical (PolySub (Poly.arr [.mk (.arr [.mk (.coeff (2 : ℤ)) 1]) 0, .mk (.coeff 3) 2])
        (Poly.arr [.mk (.coeff 1) 2])) = true :=
  claim_C2_add_canonical _ _ (by decide) (by decide)

/-- C4: with `val (Const c) v = c` and `val (Sum ms) v` the sum over the monomials `(e, c)`
of `val c (tail v) * v 0 ^ e` in exact integer arithmetic, `val (PolyAdd p q) v =
val p v + val q v` for all `p`, `q` (canonical or not) and every assignment `v`; and
`p = 3x^2 + (2y)x^0`, `q = x^2` give `Sum[(0, Sum[(1,2)]), (2, 4)]`. -/
theorem claim_C4_add_value :
    (∀ (c : ℤ) (v : Nat → ℤ), val (Poly.coeff c) v = c) ∧
    (∀ (ms : List (Mono ℤ)) (v : Nat → ℤ),
      val (Poly.arr ms) v = (ms.map (fun m => val m.p (tailV v) * v 0 ^ m.exp)).sum) ∧
    (∀ (p q : Poly ℤ) (v : Nat → ℤ), val (PolyAdd p q) v = val p v + val q v) ∧
    PolyAdd (Poly.arr [.mk (.arr [.mk (.coeff (2 : ℤ)) 1]) 0, .mk (.coeff 3) 2])
        (Poly.arr [.mk (.coeff 1) 2]) =
      Poly.arr [.mk (.arr [.mk (.coeff 2) 1]) 0, .mk (.coeff 4) 2] := by
  refine ⟨fun c v => rfl, fun ms v => valMonos_eq_sum ms v, fun p q v => val_PolyAdd p q v, ?_⟩
  simp [PolyAdd, PolyAddCoeff, PolyAddNonCoeffs, addLoop, PolyOfArr, MonoFromPoly,
    PolyFromCoeff]

/-- C6: the canonical form is unique and `PolyIsEq` decides semantic equality: for
canonical `p` and `q` with integer coefficients, `PolyIsEq p q` is true iff `p` and `q` have
the same value under every assignment, and then `p` and `q` are the same tree; two
Constants are equal iff their numbers match, and a Constant is never equal to a Sum. -/
theorem claim_C6_iseq_semantic (p q : Poly ℤ) (hp : Canonical p = true)
    (hq : Canonical q = true) :
    (PolyIsEq p q = true ↔ ∀ v : Nat → ℤ, val p v = val q v) ∧
    ((∀ v : Nat → ℤ, val p v = val q v) → p = q) ∧
    (∀ a b : ℤ, PolyIsEq (Poly.coeff a) (Poly.coeff b) = true ↔ a = b) ∧
    (∀ (c : ℤ) (ms : List (Mono ℤ)),
      PolyIsEq (Poly.coeff c) (Poly.arr ms) = false ∧
        PolyIsEq (Poly.arr ms) (Poly.coeff c) = false) := by
  refine ⟨PolyIsEq_iff_val_eq p q hp hq, eq_of_val_eq p hp q hq, ?_, ?_⟩
  · intro a b; simp [PolyIsEq]
  · intro c ms; simp [PolyIsEq]

/-- The statement of C6 on `p = 3x^2 + (2y)x^0` and `q = x^2`, whose values at the
assignment of 1 to every variable are 5 and 1: `PolyIsEq p q` is false. -/
theorem claim_C6_witness :
    PolyIsEq (Poly.arr [.mk (.arr [.mk (.coeff (2 : ℤ)) 1]) 0, .mk (.coeff 3) 2])
        (Poly.arr [.mk (.coeff 1) 2]) = false ∧
      val (Poly.arr [.mk (.arr [.mk (.coeff (2 : ℤ)) 1]) 0, .mk (.coeff 3) 2]) (fun _ => 1) = 5 ∧
      val (Poly.arr [.mk (.coeff (1 : ℤ)) 2]) (fun _ => 1) = 1 := by
  have h := (claim_C6_iseq_semantic
    (Poly.arr [.mk (.arr [.mk (.coeff (2 : ℤ)) 1]) 0, .mk (.coeff 3) 2])
    (Poly.arr [.mk (.coeff 1) 2]) (by decide) (by decide)).1
  have h5 : val (Poly.arr [.mk (.arr [.mk (.coeff (2 : ℤ)) 1]) 0, .mk (.coeff 3) 2])
      (fun _ => 1) = 5 := by decide
  have h1 : val (Poly.arr [.mk (.coeff (1 : ℤ)) 2]) (fun _ => 1) = 1 := by decide
  refine ⟨?_, h5, h1⟩
  cases hb : PolyIsEq (Poly.arr [.mk (.arr [.mk (.coeff (2 : ℤ)) 1]) 0, .mk (.coeff 3) 2])
      (Poly.arr [.mk (.coeff 1) 2]) with
  | false => rfl
  | true =>
    have := h.1 hb (fun _ => 1)
    rw [h5, h1] at this
    exact absurd this (by decide)

/-- C8: `PolyAt` substitutes the outermost variable only: in exact integer arithmetic
`val (PolyAt p x) v = val p (x :: v)` for every `p`, `x` and `v`, where the power is
`CoeffExp x e = x ^ e` with `0 ^ 0 = 1`; `PolyAt` of a Constant is that Constant; and
`p = Sum[(0, Sum[(1,2)]), (2, 3)]`, `x = 2` give `Sum[(0, 12), (1, 2)]`. -/
theorem claim_C8_at_value :
    (∀ (p : Poly ℤ) (x : ℤ) (v : Nat → ℤ), val (PolyAt p x) v = val p (consV x v)) ∧
    (∀ (x : ℤ) (e : Nat), CoeffExp x e = x ^ e) ∧ CoeffExp (0 : ℤ) 0 = 1 ∧
    (∀ c x : ℤ, PolyAt (Poly.coeff c) x = Poly.coeff c) ∧
    PolyAt (Poly.arr [.mk (.arr [.mk (.coeff (2 : ℤ)) 1]) 0, .mk (.coeff 3) 2]) 2 =
      Poly.arr [.mk (.coeff 12) 0, .mk (.coeff 2) 1] := by
  refine ⟨fun p x v => val_PolyAt p x v, fun x e => CoeffExp_eq x e, ?_, fun c x => rfl, ?_⟩
  · rw [CoeffExp_eq]; rfl
  · simp [PolyAt, CoeffExp_eq, PolyMul, mulCoeffLoop, PolyOwnMonos, sortMonos, ownSorted,
      ownLoop, PolyFromCoeff, PolyZero, PolyAdd, PolyAddCoeff, PolyAddNonCoeffs, addLoop,
      PolyOfArr, MonoFromPoly]

/-- C9, at the input `p = Sum[(1, Sum[(1, 1)])]` (the polynomial `x * y`, canonical) and
`x = 0`: `PolyAtInPlace` returns `Sum[(1, Const 0)]`, which is not canonical and which
`PolyIsEq` does not equate with the result `Const 0` of `PolyAt`. -/
theorem claim_C9_atInPlace_zero :
    Canonical (Poly.arr [.mk (.arr [.mk (.coeff (1 : ℤ)) 1]) 1]) = true ∧
    PolyAtInPlace (Poly.arr [.mk (.arr [.mk (.coeff (1 : ℤ)) 1]) 1]) 0 =
      Poly.arr [.mk (.coeff 0) 1] ∧
    PolyAt (Poly.arr [.mk (.arr [.mk (.coeff (1 : ℤ)) 1]) 1]) 0 = Poly.coeff 0 ∧
    PolyIsEq (PolyAtInPlace (Poly.arr [.mk (.arr [.mk (.coeff (1 : ℤ)) 1]) 1]) 0)
      (PolyAt (Poly.arr [.mk (.arr [.mk (.coeff (1 : ℤ)) 1]) 1]) 0) = false ∧
    Canonical (PolyAtInPlace (Poly.arr [.mk (.arr [.mk (.coeff (1 : ℤ)) 1]) 1]) 0) = false := by
  have h1 : PolyAtInPlace (Poly.arr [.mk (.arr [.mk (.coeff (1 : ℤ)) 1]) 1]) 0 =
      Poly.arr [.mk (.coeff 0) 1] := by
    simp [PolyAtInPlace, PolyMulByCoeffInPlace, mulByCoeffMonos, CoeffExp_eq]
  have h2 : PolyAt (Poly.arr [.mk (.arr [.mk (.coeff (1 : ℤ)) 1]) 1]) 0 = Poly.coeff 0 := by
    simp [PolyAt, CoeffExp_eq, PolyMul, mulCoeffLoop, PolyOwnMonos, sortMonos, ownSorted,
      ownLoop, PolyFromCoeff, PolyZero, PolyAdd_coeff_coeff]
  refine ⟨by decide, h1, h2, ?_, ?_⟩
  · rw [h1, h2]; decide
  · rw [h1]; decide

end Claims

/-! ## Powers, evaluation and composition keep the canonical form -/

section DerivedCanonical
variable {R : Type} [CommRing R] [DecidableEq R]

theorem polyExpLoop_canonical (e : Nat) : ∀ result multiplier : Poly R,
    Canonical result = true → Canonical multiplier = true →
      Canonical (polyExpLoop result multiplier e) = true := by
  induction e using Nat.strong_induction_on with
  | _ e ih =>
    intro result multiplier hr hm
    rw [polyExpLoop]
    by_cases he : e = 0
    · rw [if_pos he]; exact hr
    · rw [if_neg he]
      apply ih (e / 2) (by omega)
      · by_cases hodd : e % 2 = 1
        · rw [if_pos hodd]; exact PolyMul_canonical _ _ hr hm
        · rw [if_neg hodd]; exact hr
      · exact PolyMul_canonical _ _ hm hm

theorem PolyExp_canonical (p : Poly R) (e : Nat) (hp : Canonical p = true) :
    Canonical (PolyExp p e) = true := by
  rw [PolyExp, PolyClone_eq]
  exact polyExpLoop_canonical e _ _ rfl hp

theorem PolyExp_zero (p : Poly R) : PolyExp p 0 = Poly.coeff 1 := by
  rw [PolyExp, polyExpLoop]; rfl

theorem PolyAt_foldl_canonical (x : R) (ms : List (Mono R))
    (h : ∀ m ∈ ms, Canonical m.p = true) :
    ∀ acc : Poly R, Canonical acc = true →
      Canonical (ms.foldl (fun polySum m =>
        PolyAdd polySum (PolyMul m.p (PolyFromCoeff (CoeffExp x m.exp)))) acc) = true := by
  induction ms with
  | nil => intro acc hacc; exact hacc
  | cons m rest ih =>
    intro acc hacc
    rw [List.foldl_cons]
    apply ih (fun m hm => h m (List.mem_cons_of_mem _ hm))
    exact PolyAdd_canonical _ _ hacc
      (PolyMul_canonical _ _ (h m (List.mem_cons_self _ _)) rfl)

theorem PolyAt_canonical (p : Poly R) (x : R) (hp : Canonical p = true) :
    Canonical (PolyAt p x) = true := by
  cases p with
  | coeff c => rfl
  | arr ms =>
    have hco := (coeffsCanonical_iff ms).1 ((Canonical_arr_iff ms).1 hp).2.2.2
    simp only [PolyAt]
    exact PolyAt_foldl_canonical x ms (fun m hm => (hco m hm).1) _ rfl

theorem composeLoop_canonical (ms : List (Mono R)) (k : Nat) (q : Nat → Poly R)
    (hq : ∀ i, i < k → Canonical (q i) = true)
    (H : ∀ m ∈ ms, ∀ (k : Nat) (q : Nat → Poly R), (∀ i, i < k → Canonical (q i) = true) →
      Canonical (PolyCompose m.p k q) = true) :
    ∀ result : Poly R, Canonical result = true →
      Canonical (composeLoop ms k q result) = true := by
  induction ms with
  | nil => intro result hr; exact hr
  | cons m rest ih =>
    intro result hr
    obtain ⟨c, e⟩ := m
    rw [composeLoop]
    by_cases hbr : e ≠ 0 ∧ k = 0
    · rw [if_pos hbr]; exact hr
    · rw [if_neg hbr]
      apply ih (fun m hm => H m (List.mem_cons_of_mem _ hm))
      apply PolyAdd_canonical _ _ hr
      apply PolyMul_canonical
      · have := H (Mono.mk c e) (List.mem_cons_self _ _) (if k = 0 then 0 else k - 1)
          (fun i => q (i + 1))
        apply this
        intro i hi
        by_cases hk : k = 0
        · simp [hk] at hi
        · rw [if_neg hk] at hi
          exact hq (i + 1) (by omega)
      · by_cases he : e = 0
        · rw [if_pos he]; rfl
        · rw [if_neg he]
          have hk : 0 < k := by
            rcases Nat.eq_zero_or_pos k with h | h
            · exact absurd ⟨he, h⟩ hbr
            · exact h
          exact PolyExp_canonical _ _ (hq 0 hk)

theorem PolyCompose_canonical (p : Poly R) :
    Canonical p = true → ∀ (k : Nat) (q : Nat → Poly R),
      (∀ i, i < k → Canonical (q i) = true) → Canonical (PolyCompose p k q) = true := by
  induction p using Poly.induct with
  | hc c => intro _ k q _; rfl
  | ha ms ih =>
    intro hp k q hq
    have hco := (coeffsCanonical_iff ms).1 ((Canonical_arr_iff ms).1 hp).2.2.2
    rw [PolyCompose]
    exact composeLoop_canonical ms k q hq
      (fun m hm k q hq => ih m hm (hco m hm).1 k q hq) _ rfl

end DerivedCanonical

/-! ## Identity, inverse and commutativity of addition as equalities of trees -/

section AddLaws
variable {R : Type} [CommRing R] [DecidableEq R]

theorem PolyAddCoeff_arr_zero (ps : List (Mono R)) :
    PolyAddCoeff (Poly.arr ps) (Poly.coeff 0) = Poly.arr ps := by
  cases ps with
  | nil => rw [PolyAddCoeff.eq_4 _ _ (by simp)]; simp
  | cons m rest =>
    obtain ⟨p0, e0⟩ := m
    cases e0 with
    | zero => rw [PolyAddCoeff.eq_3]; simp
    | succ e => rw [PolyAddCoeff.eq_4 _ _ (by simp)]; simp

/-- The collapse at the end of `PolyAdd` leaves a canonical result as it is. -/
theorem PolyAdd_eq_of_result_canonical (p q r : Poly R)
    (h : (if (PolyIsCoeff p || PolyIsCoeff q) = true then PolyAddCoeff p q
          else PolyAddNonCoeffs p q) = r) (hr : Canonical r = true) :
    PolyAdd p q = r := by
  rw [PolyAdd.eq_1, h]
  split
  · rename_i c
    simp [Canonical, collapsible, expsIncreasing] at hr
  · rfl

theorem PolyAdd_zero_right (p : Poly R) (hp : Canonical p = true) :
    PolyAdd p PolyZero = p := by
  cases p with
  | coeff a => simp [PolyZero, PolyFromCoeff, PolyAdd_coeff_coeff]
  | arr ps =>
    apply PolyAdd_eq_of_result_canonical _ _ _ _ hp
    simp [PolyZero, PolyFromCoeff, PolyAddCoeff_arr_zero]

theorem PolyAdd_zero_left (p : Poly R) (hp : Canonical p = true) :
    PolyAdd PolyZero p = p := by
  cases p with
  | coeff a => simp [PolyZero, PolyFromCoeff, PolyAdd_coeff_coeff]
  | arr ps =>
    apply PolyAdd_eq_of_result_canonical _ _ _ _ hp
    simp [PolyZero, PolyFromCoeff, PolyAddCoeff.eq_2, PolyAddCoeff_arr_zero]

theorem addLoop_negMonos (ps : List (Mono R))
    (H : ∀ m ∈ ps, PolyAdd m.p (PolyNeg m.p) = Poly.coeff 0) :
    addLoop ps (negMonos ps) = [] := by
  induction ps with
  | nil => simp [negMonos]
  | cons m rest ih =>
    obtain ⟨pp, pe⟩ := m
    have h := H (Mono.mk pp pe) (List.mem_cons_self _ _)
    simp only [Mono.p_mk] at h
    rw [negMonos, addLoop.eq_4]
    simp only [lt_irrefl, gt_iff_lt, if_false, h, PolyIsZero_coeff, decide_True, Bool.not_true,
      Bool.false_eq_true]
    exact ih (fun m hm => H m (List.mem_cons_of_mem _ hm))

/-- A polynomial plus its negation is the Constant 0. -/
theorem PolyAdd_PolyNeg (p : Poly R) : PolyAdd p (PolyNeg p) = Poly.coeff 0 := by
  induction p using Poly.induct with
  | hc a => simp [PolyNeg, PolyFromCoeff, PolyAdd_coeff_coeff]
  | ha ms ih =>
    apply PolyAdd_eq_of_result_canonical _ _ (Poly.coeff 0) _ rfl
    simp [PolyNeg, PolyAddNonCoeffs.eq_1, addLoop_negMonos ms ih, PolyOfArr]

theorem addLoop_comm (ps : List (Mono R)) :
    ∀ qs : List (Mono R),
      (∀ m ∈ ps, ∀ m' ∈ qs, PolyAdd m.p m'.p = PolyAdd m'.p m.p) →
      addLoop ps qs = addLoop qs ps := by
  induction ps with
  | nil => intro qs _; simp
  | cons p ps ihp =>
    intro qs
    induction qs with
    | nil => intro _; simp
    | cons q qs ihq =>
      intro H
      obtain ⟨pp, pe⟩ := p
      obtain ⟨qp, qe⟩ := q
      have h1 := ihp (Mono.mk qp qe :: qs)
        (fun m hm m' hm' => H m (List.mem_cons_of_mem _ hm) m' hm')
      have h2 := ihq (fun m hm m' hm' => H m hm m' (List.mem_cons_of_mem _ hm'))
      have h3 := ihp qs
        (fun m hm m' hm' => H m (List.mem_cons_of_mem _ hm) m' (List.mem_cons_of_mem _ hm'))
      have h4 := H (Mono.mk pp pe) (List.mem_cons_self _ _) (Mono.mk qp qe)
        (List.mem_cons_self _ _)
      simp only [Mono.p_mk] at h4
      rw [addLoop.eq_4, addLoop.eq_4 qp qe qs pp pe ps]
      rcases Nat.lt_trichotomy pe qe with hlt | heq | hgt
      · rw [if_pos hlt, if_neg (by omega), if_pos (by omega), h1]
      · subst heq
        simp only [lt_irrefl, gt_iff_lt, if_false, h4, h3]
      · rw [if_neg (by omega), if_pos hgt, if_pos (by omega), h2]

theorem PolyAdd_comm_aux (n : Nat) :
    ∀ p q : Poly R, sizeOf p + sizeOf q ≤ n → PolyAdd p q = PolyAdd q p := by
  induction n using Nat.strong_induction_on with
  | _ n ih =>
    intro p q hn
    rw [PolyAdd.eq_1 p q, PolyAdd.eq_1 q p]
    cases p with
    | coeff a =>
      cases q with
      | coeff b => simp [PolyAddCoeff, add_comm]
      | arr qs => simp [PolyAddCoeff.eq_2]
    | arr ps =>
      cases q with
      | coeff b => simp [PolyAddCoeff.eq_2]
      | arr qs =>
        simp only [PolyIsCoeff_arr, Bool.or_false, Bool.false_eq_true, if_false,
          PolyAddNonCoeffs.eq_1]
        rw [addLoop_comm ps qs]
        intro m hm m' hm'
        have h1 := sizeOf_p_lt_of_mem hm
        have h2 := sizeOf_p_lt_of_mem hm'
        exact ih (sizeOf m.p + sizeOf m'.p) (by omega) m.p m'.p le_rfl

/-- Addition gives the same tree in both orders of the operands. -/
theorem PolyAdd_comm (p q : Poly R) : PolyAdd p q = PolyAdd q p :=
  PolyAdd_comm_aux _ p q le_rfl

@[simp] theorem PolyIsEq_self (p : Poly R) : PolyIsEq p p = true :=
  (PolyIsEq_iff_eq p p).2 rfl

end AddLaws

/-! ## Polynomials in one variable and the identity substitution -/

section Laws
variable {R : Type} [CommRing R] [DecidableEq R]

theorem valMonos_oneVariable (ms : List (Mono R))
    (h : ∀ m ∈ ms, PolyIsCoeff m.p = true) (v w : Nat → R) (h0 : v 0 = w 0) :
    valMonos ms v = valMonos ms w := by
  induction ms with
  | nil => rfl
  | cons m rest ih =>
    obtain ⟨c, e⟩ := m
    have hc := h (Mono.mk c e) (List.mem_cons_self _ _)
    simp only [Mono.p_mk] at hc
    cases c with
    | arr l => simp at hc
    | coeff a =>
      simp only [valMonos_cons, Mono.p_mk, Mono.exp_mk, val_coeff, h0,
        ih (fun m hm => h m (List.mem_cons_of_mem _ hm))]

/-- The value of a polynomial in the outermost variable depends on that variable only. -/
theorem val_oneVariable (p : Poly R) (h : oneVariable p = true) (v w : Nat → R)
    (h0 : v 0 = w 0) : val p v = val p w := by
  cases p with
  | coeff c => rfl
  | arr ms =>
    simp only [oneVariable, List.all_eq_true] at h
    exact valMonos_oneVariable ms h v w h0

/-- The value of the composition with one substitution, the identity polynomial: the
variables below the outermost one are set to 0. -/
theorem val_PolyCompose_identity (p : Poly R) (hp : Canonical p = true) (q : Nat → Poly R)
    (hq : q 0 = Poly.arr [Mono.mk (Poly.coeff 1) 1]) (v : Nat → R) :
    val (PolyCompose p 1 q) v = val p (fun i => if i = 0 then v 0 else 0) := by
  rw [val_PolyCompose p hp]
  congr 1
  funext i
  by_cases hi : i = 0
  · subst hi
    simp [hq]
  · have : ¬ i < 1 := by omega
    simp [hi, this]

end Laws

/-! ## The value in a ring that receives the coefficients -/

section ValueIn
variable {R : Type} [CommRing R] [DecidableEq R] {A : Type} [CommRing A] {f : R →+* A}

@[simp] theorem valIn_coeff (c : R) (v : Nat → A) : valIn f (Poly.coeff c) v = f c := rfl

@[simp] theorem valIn_arr (ms : List (Mono R)) (v : Nat → A) :
    valIn f (Poly.arr ms) v = valMonosIn f ms v := rfl

@[simp] theorem valMonosIn_nil (v : Nat → A) : valMonosIn f ([] : List (Mono R)) v = 0 := rfl

@[simp] theorem valMonosIn_cons (m : Mono R) (ms : List (Mono R)) (v : Nat → A) :
    valMonosIn f (m :: ms) v = valIn f m.p (tailV v) * v 0 ^ m.exp + valMonosIn f ms v := by
  cases m; rfl

@[simp] theorem valMonosIn_append (l l' : List (Mono R)) (v : Nat → A) :
    valMonosIn f (l ++ l') v = valMonosIn f l v + valMonosIn f l' v := by
  induction l with
  | nil => simp
  | cons m rest ih => simp [ih, add_assoc]

theorem valMonosIn_perm {l l' : List (Mono R)} (h : l.Perm l') (v : Nat → A) :
    valMonosIn f l v = valMonosIn f l' v := by
  induction h with
  | nil => rfl
  | cons m _ ih => simp [ih]
  | swap a b l => simp only [valMonosIn_cons]; ring
  | trans _ _ ih1 ih2 => rw [ih1, ih2]

@[simp] theorem valIn_PolyOfArr (l : List (Mono R)) (v : Nat → A) :
    valIn f (PolyOfArr l) v = valMonosIn f l v := by
  cases l with
  | nil => simp [PolyOfArr]
  | cons m ms => rfl

theorem valIn_eq_zero_of_isZero {p : Poly R} (h : PolyIsZero p = true) (v : Nat → A) :
    valIn f p v = 0 := by
  rw [(PolyIsZero_iff p).1 h]; simp

theorem valIn_addLoop (ps : List (Mono R)) :
    ∀ qs : List (Mono R),
      (∀ m ∈ ps, ∀ m' ∈ qs, ∀ v : Nat → A,
        valIn f (PolyAdd m.p m'.p) v = valIn f m.p v + valIn f m'.p v) →
      ∀ v : Nat → A, valMonosIn f (addLoop ps qs) v = valMonosIn f ps v + valMonosIn f qs v := by
  induction ps with
  | nil => intro qs _ v; simp
  | cons p ps ihp =>
    intro qs
    induction qs with
    | nil => intro _ v; simp
    | cons q qs ihq =>
      intro H v
      obtain ⟨pp, pe⟩ := p
      obtain ⟨qp, qe⟩ := q
      rw [addLoop.eq_4]
      by_cases hlt : pe < qe
      · rw [if_pos hlt, MonoClone_eq, valMonosIn_cons,
          ihp _ (fun m hm m' hm' => H m (List.mem_cons_of_mem _ hm) m' hm') v]
        simp only [valMonosIn_cons]; ring
      · rw [if_neg hlt]
        by_cases hgt : pe > qe
        · rw [if_pos hgt, MonoClone_eq, valMonosIn_cons,
            ihq (fun m hm m' hm' => H m hm m' (List.mem_cons_of_mem _ hm')) v]
          simp only [valMonosIn_cons]; ring
        · rw [if_neg hgt]
          have heq : pe = qe := by omega
          subst heq
          have hsum := H (Mono.mk pp pe) (List.mem_cons_self _ _) (Mono.mk qp pe)
            (List.mem_cons_self _ _) (tailV v)
          simp only [Mono.p_mk] at hsum
          have hrec := ihp qs
            (fun m hm m' hm' => H m (List.mem_cons_of_mem _ hm) m' (List.mem_cons_of_mem _ hm')) v
          cases hz : PolyIsZero (PolyAdd pp qp) with
          | true =>
            simp only [hz, Bool.not_true, Bool.false_eq_true, if_false, valMonosIn_cons,
              Mono.p_mk, Mono.exp_mk]
            rw [hrec]
            have h0 := valIn_eq_zero_of_isZero (f := f) hz (tailV v)
            rw [hsum] at h0
            linear_combination (- v 0 ^ pe) * h0
          | false =>
            simp only [hz, Bool.not_false, if_true, valMonosIn_cons, MonoFromPoly,
              Mono.p_mk, Mono.exp_mk]
            rw [hrec, hsum]; ring

theorem valIn_PolyAddCoeff_arr_coeff (ps : List (Mono R)) (b : R)
    (H : ∀ m ∈ ps, ∀ v : Nat → A,
      valIn f (PolyAdd m.p (Poly.coeff b)) v = valIn f m.p v + f b)
    (v : Nat → A) :
    valIn f (PolyAddCoeff (Poly.arr ps) (Poly.coeff b)) v = valMonosIn f ps v + f b := by
  by_cases hb : b = 0
  · have : PolyAddCoeff (Poly.arr ps) (Poly.coeff b) = Poly.arr ps := by
      cases ps with
      | nil => rw [PolyAddCoeff.eq_4 _ _ (by simp)]; simp [hb]
      | cons m rest =>
        obtain ⟨p0, e0⟩ := m
        cases e0 with
        | zero => rw [PolyAddCoeff.eq_3]; simp [hb]
        | succ e => rw [PolyAddCoeff.eq_4 _ _ (by simp)]; simp [hb]
    rw [this, hb]; simp
  · cases ps with
    | nil =>
      rw [PolyAddCoeff.eq_4 _ _ (by simp)]
      simp [hb, MonoFromPoly]
    | cons m rest =>
      obtain ⟨p0, e0⟩ := m
      cases e0 with
      | zero =>
        rw [PolyAddCoeff.eq_3]
        have hsum := H (Mono.mk p0 0) (List.mem_cons_self _ _) (tailV v)
        simp only [Mono.p_mk] at hsum
        simp only [PolyIsZero_coeff, hb, decide_False, Bool.false_eq_true, if_false,
          cloneMonos_eq]
        cases hz : PolyIsZero (PolyAdd p0 (Poly.coeff b)) with
        | true =>
          have h0 := valIn_eq_zero_of_isZero (f := f) hz (tailV v)
          rw [hsum] at h0
          simp only [if_true, valIn_PolyOfArr, valMonosIn_cons, Mono.p_mk, Mono.exp_mk, pow_zero,
            mul_one]
          linear_combination -h0
        | false =>
          simp only [Bool.false_eq_true, if_false, valIn_arr, valMonosIn_cons, Mono.p_mk,
            Mono.exp_mk, pow_zero, mul_one]
          rw [hsum]; ring
      | succ e =>
        rw [PolyAddCoeff.eq_4 _ _ (by simp)]
        simp only [PolyIsZero_coeff, hb, decide_False, Bool.false_eq_true, if_false,
          cloneMonos_eq, MonoFromPoly, valIn_arr, valMonosIn_cons, Mono.p_mk, Mono.exp_mk,
          pow_zero, mul_one, valIn_coeff]
        ring

/-- The collapse at the end of `PolyAdd` does not change the value. -/
theorem valIn_PolyAdd_of_result (p q : Poly R) (v : Nat → A) :
    valIn f (PolyAdd p q) v =
      valIn f (if (PolyIsCoeff p || PolyIsCoeff q) = true then PolyAddCoeff p q
        else PolyAddNonCoeffs p q) v := by
  rw [PolyAdd.eq_1]
  split
  · rename_i c heq
    rw [heq]; simp
  · rfl

theorem valIn_PolyAdd_aux (n : Nat) :
    ∀ p q : Poly R, sizeOf p + sizeOf q ≤ n →
      ∀ v : Nat → A, valIn f (PolyAdd p q) v = valIn f p v + valIn f q v := by
  induction n using Nat.strong_induction_on with
  | _ n ih =>
    intro p q hn v
    rw [valIn_PolyAdd_of_result]
    cases p with
    | coeff a =>
      cases q with
      | coeff b => simp [PolyAddCoeff, PolyFromCoeff]
      | arr qs =>
        simp only [PolyIsCoeff_coeff, Bool.true_or, if_true, PolyAddCoeff.eq_2]
        rw [valIn_PolyAddCoeff_arr_coeff qs a ?_ v]
        · simp [add_comm]
        · intro m hm v
          have hlt := sizeOf_p_lt_of_mem hm
          refine ih (sizeOf m.p + sizeOf (Poly.coeff a)) ?_ m.p (Poly.coeff a) le_rfl v
          omega
    | arr ps =>
      cases q with
      | coeff b =>
        simp only [PolyIsCoeff_coeff, Bool.or_true, if_true]
        rw [valIn_PolyAddCoeff_arr_coeff ps b ?_ v]
        · simp
        · intro m hm v
          have hlt := sizeOf_p_lt_of_mem hm
          refine ih (sizeOf m.p + sizeOf (Poly.coeff b)) ?_ m.p (Poly.coeff b) le_rfl v
          omega
      | arr qs =>
        simp only [PolyIsCoeff_arr, Bool.or_false, Bool.false_eq_true, if_false,
          PolyAddNonCoeffs.eq_1, valIn_PolyOfArr, valIn_arr]
        apply valIn_addLoop
        intro m hm m' hm' v
        have h1 := sizeOf_p_lt_of_mem hm
        have h2 := sizeOf_p_lt_of_mem hm'
        refine ih (sizeOf m.p + sizeOf m'.p) ?_ m.p m'.p le_rfl v
        omega

/-- The value of a sum is the sum of the values. -/
theorem valIn_PolyAdd (p q : Poly R) (v : Nat → A) :
    valIn f (PolyAdd p q) v = valIn f p v + valIn f q v :=
  valIn_PolyAdd_aux _ p q le_rfl v

theorem valIn_ownLoop (rest : List (Mono R)) :
    ∀ (prevExp : Nat) (polySum : Poly R) (v : Nat → A),
      valMonosIn f (ownLoop prevExp polySum rest) v =
        valIn f polySum (tailV v) * v 0 ^ prevExp + valMonosIn f rest v := by
  induction rest with
  | nil =>
    intro prevExp polySum v
    cases hz : PolyIsZero polySum with
    | true => simp [ownLoop, hz, valIn_eq_zero_of_isZero (f := f) hz]
    | false => simp [ownLoop, hz, MonoFromPoly]
  | cons m rest ih =>
    intro prevExp polySum v
    obtain ⟨p, e⟩ := m
    rw [ownLoop]
    by_cases heq : prevExp = e
    · rw [if_pos heq, ih, valIn_PolyAdd]
      subst heq
      simp only [valMonosIn_cons, Mono.p_mk, Mono.exp_mk]; ring
    · rw [if_neg heq, valMonosIn_append, ih]
      cases hz : PolyIsZero polySum with
      | true => simp [valIn_eq_zero_of_isZero (f := f) hz]
      | false => simp [MonoFromPoly, add_assoc]

theorem valIn_ownSorted (ms : List (Mono R)) (v : Nat → A) :
    valIn f (ownSorted ms) v = valMonosIn f ms v := by
  cases ms with
  | nil => simp [ownSorted, PolyZero, PolyFromCoeff]
  | cons m rest =>
    obtain ⟨p, e⟩ := m
    have h := valIn_ownLoop (f := f) rest e p v
    rw [ownSorted]
    split
    · rename_i heq
      rw [heq] at h
      simp only [valMonosIn_cons, Mono.p_mk, Mono.exp_mk]
      rw [← h]; simp [PolyZero, PolyFromCoeff]
    · rename_i c heq
      rw [heq] at h
      simp only [valMonosIn_cons, Mono.p_mk, Mono.exp_mk]
      rw [← h]; simp
    · rename_i m ms _ heq
      rw [heq] at h
      simp only [valMonosIn_cons, Mono.p_mk, Mono.exp_mk, valIn_arr]
      rw [← h]; simp

/-- The value of the normaliser's result is the sum over all monomials handed in. -/
theorem valIn_PolyOwnMonos (ms : List (Mono R)) (v : Nat → A) :
    valIn f (PolyOwnMonos ms) v = valMonosIn f ms v := by
  rw [PolyOwnMonos_eq, valIn_ownSorted, valMonosIn_perm (sortMonos_perm ms)]

theorem valIn_PolyMul_aux (n : Nat) :
    ∀ p q : Poly R, sizeOf p + sizeOf q ≤ n →
      ∀ v : Nat → A, valIn f (PolyMul p q) v = valIn f p v * valIn f q v := by
  induction n using Nat.strong_induction_on with
  | _ n ih =>
    intro p q hn v
    have key : ∀ (ps : List (Mono R)) (b : R),
        sizeOf (Poly.arr ps) + sizeOf (Poly.coeff b) ≤ n →
        valIn f (PolyMul (Poly.arr ps) (Poly.coeff b)) v = valMonosIn f ps v * f b := by
      intro ps b hsz
      rw [PolyMul.eq_3, valIn_PolyOwnMonos, mulCoeffLoop_eq_map]
      have : ∀ l : List (Mono R), (∀ m ∈ l, m ∈ ps) →
          valMonosIn f (l.map (fun m => Mono.mk (PolyMul m.p (Poly.coeff b)) m.exp)) v
            = valMonosIn f l v * f b := by
        intro l
        induction l with
        | nil => intro _; simp
        | cons m rest ihl =>
          intro hl
          have hm := hl m (List.mem_cons_self _ _)
          have hlt := sizeOf_p_lt_of_mem hm
          have hmul := ih (sizeOf m.p + sizeOf (Poly.coeff b)) (by omega) m.p (Poly.coeff b)
            le_rfl (tailV v)
          simp only [List.map_cons, valMonosIn_cons, Mono.p_mk, Mono.exp_mk]
          rw [ihl (fun m hm => hl m (List.mem_cons_of_mem _ hm)), hmul]
          simp only [valIn_coeff]; ring
      exact this ps (fun m hm => hm)
    cases p with
    | coeff a =>
      cases q with
      | coeff b => rw [PolyMul.eq_1]; simp [PolyFromCoeff]
      | arr qs =>
        rw [PolyMul.eq_2, key qs a (by omega)]
        simp [mul_comm]
    | arr ps =>
      cases q with
      | coeff b => rw [key ps b hn]; simp
      | arr qs =>
        rw [PolyMul.eq_4, valIn_PolyOwnMonos, mulLoop_eq_flatMap]
        have inner : ∀ (pm : Mono R), pm ∈ ps → ∀ l : List (Mono R), (∀ m ∈ l, m ∈ qs) →
            valMonosIn f (l.map (fun m => Mono.mk (PolyMul pm.p m.p) (pm.exp + m.exp))) v
              = valIn f pm.p (tailV v) * v 0 ^ pm.exp * valMonosIn f l v := by
          intro pm hpm l
          induction l with
          | nil => intro _; simp
          | cons m rest ihl =>
            intro hl
            have hm := hl m (List.mem_cons_self _ _)
            have h1 := sizeOf_p_lt_of_mem hpm
            have h2 := sizeOf_p_lt_of_mem hm
            have hmul := ih (sizeOf pm.p + sizeOf m.p) (by omega) pm.p m.p le_rfl (tailV v)
            simp only [List.map_cons, valMonosIn_cons, Mono.p_mk, Mono.exp_mk]
            rw [ihl (fun m hm => hl m (List.mem_cons_of_mem _ hm)), hmul]
            ring
        have outer : ∀ l : List (Mono R), (∀ m ∈ l, m ∈ ps) →
            valMonosIn f (l.flatMap (fun pm =>
              qs.map (fun m => Mono.mk (PolyMul pm.p m.p) (pm.exp + m.exp)))) v
              = valMonosIn f l v * valMonosIn f qs v := by
          intro l
          induction l with
          | nil => intro _; simp
          | cons pm rest ihl =>
            intro hl
            rw [List.flatMap_cons, valMonosIn_append,
              ihl (fun m hm => hl m (List.mem_cons_of_mem _ hm)),
              inner pm (hl pm (List.mem_cons_self _ _)) qs (fun m hm => hm)]
            simp only [valMonosIn_cons]; ring
        simpa using outer ps (fun m hm => hm)

/-- The value of a product is the product of the values. -/
theorem valIn_PolyMul (p q : Poly R) (v : Nat → A) :
    valIn f (PolyMul p q) v = valIn f p v * valIn f q v :=
  valIn_PolyMul_aux _ p q le_rfl v


theorem valIn_polyExpLoop (e : Nat) : ∀ (result multiplier : Poly R) (v : Nat → A),
    valIn f (polyExpLoop result multiplier e) v = valIn f result v * valIn f multiplier v ^ e := by
  induction e using Nat.strong_induction_on with
  | _ e ih =>
    intro result multiplier v
    rw [polyExpLoop]
    by_cases he : e = 0
    · simp [he]
    · rw [if_neg he, ih (e / 2) (by omega), valIn_PolyMul]
      by_cases hodd : e % 2 = 1
      · rw [if_pos hodd, valIn_PolyMul]
        have : e = 2 * (e / 2) + 1 := by omega
        conv_rhs => rw [this]
        rw [pow_succ, pow_mul, pow_two]; ring
      · rw [if_neg hodd]
        have : e = 2 * (e / 2) := by omega
        conv_rhs => rw [this]
        rw [pow_mul, pow_two]

/-- The value of a power is the power of the value. -/
theorem valIn_PolyExp (p : Poly R) (e : Nat) (v : Nat → A) :
    valIn f (PolyExp p e) v = valIn f p v ^ e := by
  rw [PolyExp, valIn_polyExpLoop]; simp [PolyFromCoeff]


/-- The assignment that composition substitutes: the value of `q i` for `i < k`, else 0. -/
theorem composeVIn_tail (k : Nat) (q : Nat → Poly R) (v : Nat → A) :
    tailV (fun i => if i < k then valIn f (q i) v else 0) =
      fun i => if i < (if k = 0 then 0 else k - 1) then valIn f (q (i + 1)) v else 0 := by
  funext i
  simp only [tailV]
  by_cases hk : k = 0
  · simp [hk]
  · simp only [if_neg hk]
    by_cases hi : i + 1 < k
    · rw [if_pos hi, if_pos (by omega)]
    · rw [if_neg hi, if_neg (by omega)]

theorem valIn_composeLoop (ms : List (Mono R)) (k : Nat) (q : Nat → Poly R) (v : Nat → A)
    (H : ∀ m ∈ ms, ∀ (k : Nat) (q : Nat → Poly R),
      valIn f (PolyCompose m.p k q) v = valIn f m.p (fun i => if i < k then valIn f (q i) v else 0))
    (hs : expsIncreasing ms = true) :
    ∀ result : Poly R, valIn f (composeLoop ms k q result) v =
      valIn f result v + valMonosIn f ms (fun i => if i < k then valIn f (q i) v else 0) := by
  induction ms with
  | nil => intro result; simp [composeLoop]
  | cons m rest ih =>
    intro result
    obtain ⟨c, e⟩ := m
    have hs' := (expsIncreasing_cons _ _).1 hs
    simp only [Mono.exp_mk] at hs'
    have hc := H (Mono.mk c e) (List.mem_cons_self _ _) (if k = 0 then 0 else k - 1)
      (fun i => q (i + 1))
    simp only [Mono.p_mk] at hc
    rw [← composeVIn_tail] at hc
    rw [composeLoop]
    by_cases hbr : e ≠ 0 ∧ k = 0
    · rw [if_pos hbr]
      obtain ⟨he, hk⟩ := hbr
      subst hk
      have hz : ∀ l : List (Mono R), (∀ m ∈ l, m.exp ≠ 0) →
          valMonosIn f l (fun i => if i < 0 then valIn f (q i) v else 0) = 0 := by
        intro l
        induction l with
        | nil => intro _; rfl
        | cons m l ihl =>
          intro hl
          rw [valMonosIn_cons, ihl (fun m hm => hl m (List.mem_cons_of_mem _ hm))]
          simp [hl m (List.mem_cons_self _ _)]
      rw [hz]
      · simp
      · intro m hm
        rcases List.mem_cons.1 hm with rfl | hm
        · exact he
        · have := hs'.1 m hm
          omega
    · rw [if_neg hbr]
      rw [ih (fun m hm => H m (List.mem_cons_of_mem _ hm)) hs'.2, valIn_PolyAdd, valIn_PolyMul, hc,
        valMonosIn_cons]
      simp only [Mono.p_mk, Mono.exp_mk]
      by_cases he : e = 0
      · simp [he, PolyFromCoeff, add_assoc]
      · have hk : 0 < k := by
          rcases Nat.eq_zero_or_pos k with h | h
          · exact absurd ⟨he, h⟩ hbr
          · exact h
        rw [if_neg he, valIn_PolyExp]
        simp only [hk, if_true]
        ring

/-- Composition evaluates `p` at the values of the substitutions, and at 0 for the
variables from `k` on. -/
theorem valIn_PolyCompose (p : Poly R) :
    Canonical p = true → ∀ (v : Nat → A) (k : Nat) (q : Nat → Poly R),
      valIn f (PolyCompose p k q) v = valIn f p (fun i => if i < k then valIn f (q i) v else 0) := by
  induction p using Poly.induct with
  | hc c => intro _ v k q; rfl
  | ha ms ih =>
    intro hp v k q
    obtain ⟨-, hexp, -, hco⟩ := (Canonical_arr_iff ms).1 hp
    rw [PolyCompose, valIn_composeLoop ms k q v ?_ hexp]
    · simp [PolyZero, PolyFromCoeff]
    · intro m hm k q
      exact ih m hm ((coeffsCanonical_iff ms).1 hco m hm).1 v k q

end ValueIn

/-! ## The canonical form is unique over every commutative ring

The polynomial that a tree denotes is its value in `MvPolynomial ℕ R` at the variables
themselves. Two canonical trees that denote the same polynomial are equal. -/

section FormalUnique
variable {R : Type} [CommRing R] [DecidableEq R]

theorem valIn_id (p : Poly R) (v : Nat → R) : valIn (fun c => c) p v = val p v := by
  induction p using Poly.induct generalizing v with
  | hc c => rfl
  | ha ms ih =>
    simp only [valIn, val]
    induction ms with
    | nil => rfl
    | cons m rest ihr =>
      obtain ⟨p, e⟩ := m
      have h1 := ih (Mono.mk p e) (List.mem_cons_self _ _) (tailV v)
      simp only [Mono.p_mk] at h1
      simp only [valMonosIn, valMonos, h1,
        ihr (fun m hm => ih m (List.mem_cons_of_mem _ hm))]

/-- A ring homomorphism commutes with the value. -/
theorem map_valIn {A B : Type} [CommRing A] [CommRing B] (f : R → A) (g : A →+* B)
    (p : Poly R) :
    ∀ v : Nat → A, g (valIn f p v) = valIn (fun c => g (f c)) p (fun i => g (v i)) := by
  induction p using Poly.induct with
  | hc c => intro v; rfl
  | ha ms ih =>
    intro v
    simp only [valIn]
    induction ms with
    | nil => simp [valMonosIn]
    | cons m rest ihr =>
      obtain ⟨p, e⟩ := m
      have h1 := ih (Mono.mk p e) (List.mem_cons_self _ _) (tailV v)
      simp only [Mono.p_mk] at h1
      simp only [valMonosIn, map_add, map_mul, map_pow, h1,
        ihr (fun m hm => ih m (List.mem_cons_of_mem _ hm))]
      rfl

theorem uniG_coeff_of_not_mem {A : Type} [CommRing A] (g : Mono R → A) (ms : List (Mono R))
    (n : Nat) (h : ∀ m ∈ ms, m.exp ≠ n) :
    Polynomial.coeff (ms.map (fun m => Polynomial.C (g m) * Polynomial.X ^ m.exp)).sum n = 0 := by
  induction ms with
  | nil => simp
  | cons m rest ih =>
    have h1 : n ≠ m.exp := fun e => h m (List.mem_cons_self _ _) e.symm
    simp [ih (fun m hm => h m (List.mem_cons_of_mem _ hm)), Polynomial.coeff_C_mul_X_pow, h1]

theorem uniG_coeff_of_mem {A : Type} [CommRing A] (g : Mono R → A) (ms : List (Mono R))
    (hs : expsIncreasing ms = true) (m : Mono R) (hm : m ∈ ms) :
    Polynomial.coeff (ms.map (fun m => Polynomial.C (g m) * Polynomial.X ^ m.exp)).sum m.exp =
      g m := by
  induction ms with
  | nil => simp at hm
  | cons m0 rest ih =>
    obtain ⟨h1, h2⟩ := (expsIncreasing_cons _ _).1 hs
    simp only [List.map_cons, List.sum_cons, Polynomial.coeff_add,
      Polynomial.coeff_C_mul_X_pow]
    rcases List.mem_cons.1 hm with rfl | hm'
    · rw [uniG_coeff_of_not_mem g rest m.exp (fun m' hm' => (ne_of_lt (h1 m' hm')).symm)]
      simp
    · rw [ih h2 hm', if_neg (ne_of_lt (h1 m hm')).symm]
      simp

/-- Separation of the outermost variable: a ring homomorphism from the polynomials in the
variables `0, 1, 2, ...` to the univariate polynomials over them that sends the polynomial
of a Sum to the univariate polynomial whose coefficients are the polynomials of the
coefficients, and fixes the constants. -/
theorem exists_separation (R : Type) [CommRing R] [DecidableEq R] :
    ∃ φ : MvPolynomial ℕ R →+* Polynomial (MvPolynomial ℕ R),
      (∀ c : R, φ (MvPolynomial.C c) = Polynomial.C (MvPolynomial.C c)) ∧
      ∀ ms : List (Mono R),
        φ (valMonosIn (MvPolynomial.C : R →+* MvPolynomial ℕ R) ms MvPolynomial.X) =
          (ms.map (fun m => Polynomial.C
            (valIn (MvPolynomial.C : R →+* MvPolynomial ℕ R) m.p MvPolynomial.X) *
              Polynomial.X ^ m.exp)).sum := by
  refine ⟨MvPolynomial.eval₂Hom
    ((Polynomial.C : MvPolynomial ℕ R →+* Polynomial (MvPolynomial ℕ R)).comp MvPolynomial.C)
    (fun i => Nat.casesOn i Polynomial.X (fun j => Polynomial.C (MvPolynomial.X j))), ?_, ?_⟩
  · intro c
    simp
  · intro ms
    induction ms with
    | nil => simp [valMonosIn]
    | cons m rest ih =>
      obtain ⟨p, e⟩ := m
      simp only [valMonosIn, map_add, map_mul, map_pow, ih, List.map_cons, List.sum_cons,
        Mono.p_mk, Mono.exp_mk, MvPolynomial.coe_eval₂Hom, MvPolynomial.eval₂_X]
      congr 2
      have h1 := map_valIn (MvPolynomial.C : R →+* MvPolynomial ℕ R)
        (MvPolynomial.eval₂Hom
          ((Polynomial.C : MvPolynomial ℕ R →+* Polynomial (MvPolynomial ℕ R)).comp
            MvPolynomial.C)
          (fun i => Nat.casesOn i Polynomial.X (fun j => Polynomial.C (MvPolynomial.X j))))
        p (tailV MvPolynomial.X)
      have h2 := map_valIn (MvPolynomial.C : R →+* MvPolynomial ℕ R)
        (Polynomial.C : MvPolynomial ℕ R →+* Polynomial (MvPolynomial ℕ R)) p MvPolynomial.X
      simp only [MvPolynomial.coe_eval₂Hom] at h1
      rw [h1, h2]
      congr 1
      · funext c; simp
      · funext i; simp [tailV]

end FormalUnique

section FormalUniqueMain
variable {R : Type} [CommRing R] [DecidableEq R]

/-- A canonical tree that denotes a constant polynomial is that Constant. -/
theorem eq_coeff_of_formal_const (p : Poly R) :
    Canonical p = true → ∀ c : R,
      valIn (MvPolynomial.C : R →+* MvPolynomial ℕ R) p MvPolynomial.X = MvPolynomial.C c →
      p = Poly.coeff c := by
  obtain ⟨φ, hφC, hφ⟩ := exists_separation R
  induction p using Poly.induct with
  | hc a =>
    intro _ c h
    simp only [valIn] at h
    rw [MvPolynomial.C_injective ℕ R h]
  | ha ms ih =>
    intro hp c h
    exfalso
    obtain ⟨hne, hexp, hcol, hco⟩ := (Canonical_arr_iff ms).1 hp
    have hco' := (coeffsCanonical_iff ms).1 hco
    have huni : (ms.map (fun m => Polynomial.C
          (valIn (MvPolynomial.C : R →+* MvPolynomial ℕ R) m.p MvPolynomial.X) *
            Polynomial.X ^ m.exp)).sum = Polynomial.C (MvPolynomial.C c) := by
      rw [← hφ ms, ← hφC c]
      exact congrArg φ h
    have hexp0 : ∀ m ∈ ms, m.exp = 0 := by
      intro m hm
      by_contra hne0
      have hz : valIn (MvPolynomial.C : R →+* MvPolynomial ℕ R) m.p MvPolynomial.X =
          MvPolynomial.C 0 := by
        rw [← uniG_coeff_of_mem
          (fun m => valIn (MvPolynomial.C : R →+* MvPolynomial ℕ R) m.p MvPolynomial.X)
          ms hexp m hm, huni, Polynomial.coeff_C, if_neg hne0, map_zero]
      have := ih m hm (hco' m hm).1 0 hz
      have h2 := (hco' m hm).2
      rw [this] at h2
      simp at h2
    cases ms with
    | nil => exact hne rfl
    | cons m0 rest =>
      obtain ⟨h1, h2⟩ := (expsIncreasing_cons _ _).1 hexp
      cases rest with
      | cons m1 rest' =>
        have e0 := hexp0 m0 (List.mem_cons_self _ _)
        have e1 := hexp0 m1 (List.mem_cons_of_mem _ (List.mem_cons_self _ _))
        have := h1 m1 (List.mem_cons_self _ _)
        omega
      | nil =>
        have e0 := hexp0 m0 (List.mem_cons_self _ _)
        have hv : valIn (MvPolynomial.C : R →+* MvPolynomial ℕ R) m0.p MvPolynomial.X =
            MvPolynomial.C c := by
          rw [← uniG_coeff_of_mem
            (fun m => valIn (MvPolynomial.C : R →+* MvPolynomial ℕ R) m.p MvPolynomial.X)
            [m0] hexp m0 (List.mem_cons_self _ _), huni, Polynomial.coeff_C, if_pos e0]
        have hm0 := ih m0 (List.mem_cons_self _ _) (hco' m0 (List.mem_cons_self _ _)).1 c hv
        obtain ⟨p0, e⟩ := m0
        simp only [Mono.p_mk, Mono.exp_mk] at hm0 e0
        subst hm0 e0
        simp [collapsible] at hcol

/-- Two canonical trees that denote the same polynomial are equal, over every commutative
ring. -/
theorem eq_of_formal_eq (p : Poly R) :
    Canonical p = true → ∀ q : Poly R, Canonical q = true →
      valIn (MvPolynomial.C : R →+* MvPolynomial ℕ R) p MvPolynomial.X =
        valIn (MvPolynomial.C : R →+* MvPolynomial ℕ R) q MvPolynomial.X →
      p = q := by
  obtain ⟨φ, hφC, hφ⟩ := exists_separation R
  induction p using Poly.induct with
  | hc a =>
    intro _ q hq h
    exact (eq_coeff_of_formal_const q hq a h.symm).symm
  | ha ms ih =>
    intro hp q hq h
    cases q with
    | coeff b => exact eq_coeff_of_formal_const _ hp b h
    | arr ms' =>
      obtain ⟨-, hexp, -, hco⟩ := (Canonical_arr_iff ms).1 hp
      obtain ⟨-, hexp', -, hco'⟩ := (Canonical_arr_iff ms').1 hq
      have hc := (coeffsCanonical_iff ms).1 hco
      have hc' := (coeffsCanonical_iff ms').1 hco'
      have huni : (ms.map (fun m => Polynomial.C
            (valIn (MvPolynomial.C : R →+* MvPolynomial ℕ R) m.p MvPolynomial.X) *
              Polynomial.X ^ m.exp)).sum =
          (ms'.map (fun m => Polynomial.C
            (valIn (MvPolynomial.C : R →+* MvPolynomial ℕ R) m.p MvPolynomial.X) *
              Polynomial.X ^ m.exp)).sum := by
        rw [← hφ ms, ← hφ ms']
        exact congrArg φ h
      have partner : ∀ (l l' : List (Mono R)), expsIncreasing l = true →
          (∀ m ∈ l, Canonical m.p = true ∧ PolyIsZero m.p = false) →
          (l.map (fun m => Polynomial.C
            (valIn (MvPolynomial.C : R →+* MvPolynomial ℕ R) m.p MvPolynomial.X) *
              Polynomial.X ^ m.exp)).sum =
            (l'.map (fun m => Polynomial.C
              (valIn (MvPolynomial.C : R →+* MvPolynomial ℕ R) m.p MvPolynomial.X) *
                Polynomial.X ^ m.exp)).sum →
          ∀ m ∈ l, ∃ m' ∈ l', m'.exp = m.exp := by
        intro l l' hl hcl hu m hm
        by_contra hno
        have hno' : ∀ m' ∈ l', m'.exp ≠ m.exp := fun m' hm' he => hno ⟨m', hm', he⟩
        have hz : valIn (MvPolynomial.C : R →+* MvPolynomial ℕ R) m.p MvPolynomial.X =
            MvPolynomial.C 0 := by
          rw [← uniG_coeff_of_mem
            (fun m => valIn (MvPolynomial.C : R →+* MvPolynomial ℕ R) m.p MvPolynomial.X)
            l hl m hm, hu, uniG_coeff_of_not_mem _ l' m.exp hno', map_zero]
        have := eq_coeff_of_formal_const m.p (hcl m hm).1 0 hz
        have h2 := (hcl m hm).2
        rw [this] at h2
        simp at h2
      have same : ∀ m ∈ ms, ∀ m' ∈ ms', m'.exp = m.exp → m = m' := by
        intro m hm m' hm' he
        have hv : valIn (MvPolynomial.C : R →+* MvPolynomial ℕ R) m.p MvPolynomial.X =
            valIn (MvPolynomial.C : R →+* MvPolynomial ℕ R) m'.p MvPolynomial.X := by
          rw [← uniG_coeff_of_mem
            (fun m => valIn (MvPolynomial.C : R →+* MvPolynomial ℕ R) m.p MvPolynomial.X)
            ms hexp m hm, huni, ← he,
            uniG_coeff_of_mem
              (fun m => valIn (MvPolynomial.C : R →+* MvPolynomial ℕ R) m.p MvPolynomial.X)
              ms' hexp' m' hm']
        have hpq := ih m hm (hc m hm).1 m'.p (hc' m' hm').1 hv
        obtain ⟨a, b⟩ := m
        obtain ⟨a', b'⟩ := m'
        simp only [Mono.p_mk, Mono.exp_mk] at hpq he
        rw [hpq, he]
      have hmem : ∀ m, m ∈ ms ↔ m ∈ ms' := by
        intro m
        constructor
        · intro hm
          obtain ⟨m', hm', he⟩ := partner ms ms' hexp hc huni m hm
          rw [same m hm m' hm' he]; exact hm'
        · intro hm'
          obtain ⟨m0, hm0, he⟩ := partner ms' ms hexp' hc' huni.symm m hm'
          rw [← same m0 hm0 m hm' he.symm]; exact hm0
      have hs : ms.Sorted (fun a b => a.exp < b.exp) :=
        List.pairwise_map.1 ((expsIncreasing_iff_sorted ms).1 hexp)
      have hs' : ms'.Sorted (fun a b => a.exp < b.exp) :=
        List.pairwise_map.1 ((expsIncreasing_iff_sorted ms').1 hexp')
      haveI : IsIrrefl (Mono R) (fun a b => a.exp < b.exp) := ⟨fun a => lt_irrefl a.exp⟩
      haveI : IsAntisymm (Mono R) (fun a b => a.exp < b.exp) :=
        ⟨fun a b h1 h2 => absurd h1 (lt_asymm h2)⟩
      have hperm : ms.Perm ms' := (List.perm_ext_iff_of_nodup hs.nodup hs'.nodup).2 hmem
      rw [List.eq_of_perm_of_sorted hperm hs hs']

/-! ## Algebraic laws over every commutative ring -/

theorem PolyAdd_assoc_ring (p q r : Poly R) (hp : Canonical p = true)
    (hq : Canonical q = true) (hr : Canonical r = true) :
    PolyAdd (PolyAdd p q) r = PolyAdd p (PolyAdd q r) := by
  apply eq_of_formal_eq _ (PolyAdd_canonical _ _ (PolyAdd_canonical _ _ hp hq) hr) _
    (PolyAdd_canonical _ _ hp (PolyAdd_canonical _ _ hq hr))
  simp only [valIn_PolyAdd]; ring

theorem PolyMul_comm_ring (p q : Poly R) (hp : Canonical p = true) (hq : Canonical q = true) :
    PolyMul p q = PolyMul q p := by
  apply eq_of_formal_eq _ (PolyMul_canonical _ _ hp hq) _ (PolyMul_canonical _ _ hq hp)
  simp only [valIn_PolyMul]; ring

theorem PolyMul_PolyAdd_ring (p q r : Poly R) (hp : Canonical p = true)
    (hq : Canonical q = true) (hr : Canonical r = true) :
    PolyMul p (PolyAdd q r) = PolyAdd (PolyMul p q) (PolyMul p r) := by
  apply eq_of_formal_eq _ (PolyMul_canonical _ _ hp (PolyAdd_canonical _ _ hq hr)) _
    (PolyAdd_canonical _ _ (PolyMul_canonical _ _ hp hq) (PolyMul_canonical _ _ hp hr))
  simp only [valIn_PolyMul, valIn_PolyAdd]; ring

theorem valMonosIn_oneVariable {A : Type} [CommRing A] (f : R → A) (ms : List (Mono R))
    (h : ∀ m ∈ ms, PolyIsCoeff m.p = true) (v w : Nat → A) (h0 : v 0 = w 0) :
    valMonosIn f ms v = valMonosIn f ms w := by
  induction ms with
  | nil => rfl
  | cons m rest ih =>
    obtain ⟨c, e⟩ := m
    have hc := h (Mono.mk c e) (List.mem_cons_self _ _)
    simp only [Mono.p_mk] at hc
    cases c with
    | arr l => simp at hc
    | coeff a =>
      simp only [valMonosIn, valIn, h0, ih (fun m hm => h m (List.mem_cons_of_mem _ hm))]

theorem PolyCompose_identity_ring [Nontrivial R] (p : Poly R) (hp : Canonical p = true)
    (h1 : oneVariable p = true) (q : Nat → Poly R)
    (hq : q 0 = Poly.arr [Mono.mk (Poly.coeff 1) 1]) :
    PolyCompose p 1 q = p := by
  have hx : Canonical (Poly.arr [Mono.mk (Poly.coeff (1 : R)) 1]) = true := by
    simp [Canonical, expsIncreasing, collapsible, coeffsCanonical]
  apply eq_of_formal_eq _ (PolyCompose_canonical p hp 1 q ?_) _ hp
  · rw [valIn_PolyCompose p hp]
    cases p with
    | coeff c => rfl
    | arr ms =>
      simp only [oneVariable, List.all_eq_true] at h1
      simp only [valIn]
      apply valMonosIn_oneVariable _ ms h1
      simp [hq, valIn, valMonosIn]
  · intro i hi
    have : i = 0 := by omega
    subst this
    rw [hq]; exact hx

end FormalUniqueMain

/-! ## The statements of the specification on composition, the derived operations and the
algebraic laws -/

section ClaimsLaws
variable {R : Type} [CommRing R] [DecidableEq R]

/-- C11, as stated, fails at `p = Sum[(1, Sum[(1, 1)])]` (the canonical polynomial `x * y`):
with the single substitution `x = Sum[(1, Const 1)]` the inner variable has no substitution
and is replaced by 0, so `PolyCompose p 1 [x]` is the Constant 0, which `PolyIsEq` does not
equate with `p`. -/
theorem claim_C11_counterexample :
    Canonical (Poly.arr [.mk (.arr [.mk (.coeff (1 : ℤ)) 1]) 1]) = true ∧
    PolyCompose (Poly.arr [.mk (.arr [.mk (.coeff (1 : ℤ)) 1]) 1]) 1
      (fun _ => Poly.arr [.mk (.coeff 1) 1]) = Poly.coeff 0 ∧
    PolyIsEq (PolyCompose (Poly.arr [.mk (.arr [.mk (.coeff (1 : ℤ)) 1]) 1]) 1
      (fun _ => Poly.arr [.mk (.coeff 1) 1]))
      (Poly.arr [.mk (.arr [.mk (.coeff (1 : ℤ)) 1]) 1]) = false := by
  have h : PolyCompose (Poly.arr [.mk (.arr [.mk (.coeff (1 : ℤ)) 1]) 1]) 1
      (fun _ => Poly.arr [.mk (.coeff 1) 1]) = Poly.coeff 0 := by
    simp [PolyCompose, composeLoop, PolyExp, polyExpLoop, PolyMul, mulCoeffLoop, PolyOwnMonos,
      sortMonos, ownSorted, ownLoop, PolyFromCoeff, PolyZero, PolyAdd_coeff_coeff,
      MonoFromPoly]
  refine ⟨by decide, h, ?_⟩
  rw [h]; decide

/-- C11, amended: for every canonical polynomial `p` and the single substitution
`x = Sum[(1, Const 1)]`, the value of `PolyCompose p 1 [x]` is the value of `p` with every
variable below the outermost one set to 0; and when `p` is a polynomial in one variable
(a Constant, or a Sum whose coefficients are all Constants), `PolyCompose p 1 [x]` is
`PolyIsEq`-equal to `p`. This holds for every coefficient ring with `1 ≠ 0`, the integers
and the integers modulo `2 ^ 64` included. -/
theorem claim_C11_compose_identity [Nontrivial R] (p : Poly R) (hp : Canonical p = true)
    (q : Nat → Poly R) (hq : q 0 = Poly.arr [Mono.mk (Poly.coeff 1) 1]) :
    (∀ v : Nat → R,
      val (PolyCompose p 1 q) v = val p (fun i => if i = 0 then v 0 else 0)) ∧
    (oneVariable p = true → PolyIsEq (PolyCompose p 1 q) p = true) := by
  refine ⟨fun v => val_PolyCompose_identity p hp q hq v, fun h1 => ?_⟩
  rw [PolyCompose_identity_ring p hp h1 q hq]
  exact PolyIsEq_self p

/-- The amended statement of C11 on `p = 1 + 3x^2`. -/
theorem claim_C11_witness :
    PolyIsEq (PolyCompose (Poly.arr [.mk (.coeff (1 : ℤ)) 0, .mk (.coeff 3) 2]) 1
        (fun _ => Poly.arr [.mk (.coeff 1) 1]))
      (Poly.arr [.mk (.coeff (1 : ℤ)) 0, .mk (.coeff 3) 2]) = true :=
  (claim_C11_compose_identity (Poly.arr [.mk (.coeff (1 : ℤ)) 0, .mk (.coeff 3) 2])
    (by decide) (fun _ => Poly.arr [.mk (.coeff 1) 1]) rfl).2 (by decide)

/-- C13: additive identity: for every canonical polynomial `p`, `PolyAdd p PolyZero` and
`PolyAdd PolyZero p` are `PolyIsEq`-equal to `p` (they are the tree `p`). This holds for
every coefficient ring. -/
theorem claim_C13_add_zero (p : Poly R) (hp : Canonical p = true) :
    PolyIsEq (PolyAdd p PolyZero) p = true ∧ PolyIsEq (PolyAdd PolyZero p) p = true ∧
      PolyAdd p PolyZero = p ∧ PolyAdd PolyZero p = p := by
  rw [PolyAdd_zero_right p hp, PolyAdd_zero_left p hp]
  exact ⟨PolyIsEq_self p, PolyIsEq_self p, rfl, rfl⟩

/-- The statement of C13 on `p = 3x^2 + (2y)x^0`. -/
theorem claim_C13_witness :
    PolyIsEq (PolyAdd (Poly.arr [.mk (.arr [.mk (.coeff (2 : ℤ)) 1]) 0, .mk (.coeff 3) 2])
        PolyZero) (Poly.arr [.mk (.arr [.mk (.coeff (2 : ℤ)) 1]) 0, .mk (.coeff 3) 2]) = true ∧
      PolyIsEq (PolyAdd PolyZero
        (Poly.arr [.mk (.arr [.mk (.coeff (2 : ℤ)) 1]) 0, .mk (.coeff 3) 2]))
        (Poly.arr [.mk (.arr [.mk (.coeff (2 : ℤ)) 1]) 0, .mk (.coeff 3) 2]) = true :=
  have h := claim_C13_add_zero
    (Poly.arr [.mk (.arr [.mk (.coeff (2 : ℤ)) 1]) 0, .mk (.coeff 3) 2]) (by decide)
  ⟨h.1, h.2.1⟩

/-- C14: additive inverse: for every polynomial `p` (canonical or not),
`PolyAdd p (PolyNeg p)` is the Constant 0, so `PolyIsZero` holds of it and `PolySub p p` is
the Constant 0; the Sum+Sum merge in which every monomial cancels gives the Constant 0,
not an empty Sum. This holds for every coefficient ring. -/
theorem claim_C14_add_neg (p : Poly R) :
    PolyAdd p (PolyNeg p) = Poly.coeff 0 ∧ PolyIsZero (PolyAdd p (PolyNeg p)) = true ∧
      PolySub p p = Poly.coeff 0 ∧
      ∀ ps : List (Mono R),
        PolyAddNonCoeffs (Poly.arr ps) (PolyNeg (Poly.arr ps)) = Poly.coeff 0 := by
  refine ⟨PolyAdd_PolyNeg p, ?_, PolyAdd_PolyNeg p, ?_⟩
  · rw [PolyAdd_PolyNeg]; simp
  · intro ps
    rw [PolyNeg, PolyAddNonCoeffs.eq_1,
      addLoop_negMonos ps (fun m _ => PolyAdd_PolyNeg m.p)]
    rfl

/-- C15: addition is commutative up to `PolyIsEq`: for all polynomials `p` and `q`
(canonical or not), `PolyAdd p q` and `PolyAdd q p` are the same tree, so `PolyIsEq` holds
of them, the mixed Constant/Sum cases included. This holds for every coefficient ring. -/
theorem claim_C15_add_comm (p q : Poly R) :
    PolyIsEq (PolyAdd p q) (PolyAdd q p) = true ∧ PolyAdd p q = PolyAdd q p :=
  ⟨(PolyIsEq_iff_eq _ _).2 (PolyAdd_comm p q), PolyAdd_comm p q⟩

/-- C16: addition is associative up to `PolyIsEq`: for all canonical `p`, `q` and `r`,
`PolyIsEq (PolyAdd (PolyAdd p q) r) (PolyAdd p (PolyAdd q r))` is true. This holds for
every coefficient ring, the integers and the integers modulo `2 ^ 64` included. -/
theorem claim_C16_add_assoc (p q r : Poly R) (hp : Canonical p = true)
    (hq : Canonical q = true) (hr : Canonical r = true) :
    PolyIsEq (PolyAdd (PolyAdd p q) r) (PolyAdd p (PolyAdd q r)) = true :=
  (PolyIsEq_iff_eq _ _).2 (PolyAdd_assoc_ring p q r hp hq hr)

/-- The statement of C16 on `p = 3x^2 + (2y)x^0`, `q = x^2` and `r = -3x^2 + 1`. -/
theorem claim_C16_witness :
    PolyIsEq
      (PolyAdd (PolyAdd (Poly.arr [.mk (.arr [.mk (.coeff (2 : ℤ)) 1]) 0, .mk (.coeff 3) 2])
        (Poly.arr [.mk (.coeff 1) 2])) (Poly.arr [.mk (.coeff 1) 0, .mk (.coeff (-3)) 2]))
      (PolyAdd (Poly.arr [.mk (.arr [.mk (.coeff (2 : ℤ)) 1]) 0, .mk (.coeff 3) 2])
        (PolyAdd (Poly.arr [.mk (.coeff 1) 2])
          (Poly.arr [.mk (.coeff 1) 0, .mk (.coeff (-3)) 2]))) = true :=
  claim_C16_add_assoc _ _ _ (by decide) (by decide) (by decide)

/-- C19: zero exponent: for every polynomial `p`, canonical or not and the Constant 0
included, `PolyExp p 0` is the Constant 1. This holds for every coefficient ring. -/
theorem claim_C19_exp_zero (p : Poly R) :
    PolyExp p 0 = Poly.coeff 1 ∧ PolyExp (PolyZero : Poly R) 0 = Poly.coeff 1 :=
  ⟨PolyExp_zero p, PolyExp_zero _⟩

end ClaimsLaws

/-! ## Degrees -/

section Degrees
variable {R : Type} [CommRing R] [DecidableEq R]

theorem ExpMax_eq_max (a b : Int) : ExpMax a b = max a b := by
  unfold ExpMax
  by_cases h : a > b
  · rw [if_pos h, max_eq_left (le_of_lt h)]
  · rw [if_neg h, max_eq_right (not_lt.1 h)]

/-- A running maximum is at least its start value and every term, and it is the start
value or one of the terms. -/
theorem foldl_max_spec {α : Type} (t : α → Int) (l : List α) :
    ∀ r : Int,
      r ≤ l.foldl (fun acc a => max acc (t a)) r ∧
      (∀ a ∈ l, t a ≤ l.foldl (fun acc a => max acc (t a)) r) ∧
      (l.foldl (fun acc a => max acc (t a)) r = r ∨
        ∃ a ∈ l, l.foldl (fun acc a => max acc (t a)) r = t a) := by
  induction l with
  | nil => intro r; simp
  | cons x rest ih =>
    intro r
    obtain ⟨h1, h2, h3⟩ := ih (max r (t x))
    rw [List.foldl_cons]
    refine ⟨le_trans (le_max_left _ _) h1, ?_, ?_⟩
    · intro a ha
      rcases List.mem_cons.1 ha with rfl | ha
      · exact le_trans (le_max_right _ _) h1
      · exact h2 a ha
    · rcases h3 with h3 | ⟨a, ha, h3⟩
      · rcases max_choice r (t x) with hm | hm
        · left; rw [h3, hm]
        · right; exact ⟨x, List.mem_cons_self _ _, by rw [h3, hm]⟩
      · right; exact ⟨a, List.mem_cons_of_mem _ ha, h3⟩

theorem wrapExp_of_range (z : Int) (h1 : -2147483648 ≤ z) (h2 : z ≤ 2147483647) :
    wrapExp z = z := by
  unfold wrapExp
  omega

theorem wrapExp_le (z : Int) : wrapExp z ≤ 2147483647 := by
  unfold wrapExp
  omega

theorem degLoop_eq_foldl (ms : List (Mono R)) :
    ∀ r : Int, degLoop ms r =
      ms.foldl (fun acc m => max acc (wrapExp (PolyDeg m.p + (m.exp : Int)))) r := by
  induction ms with
  | nil => intro r; rfl
  | cons m rest ih =>
    intro r
    obtain ⟨p, e⟩ := m
    rw [degLoop, ih, ExpMax_eq_max]
    rfl

theorem degByLoop_eq_foldl (ms : List (Mono R)) (k : Nat) :
    ∀ r : Int, degByLoop ms k r =
      ms.foldl (fun acc m =>
        max acc (if k = 0 then (m.exp : Int) else PolyDegBy m.p (k - 1))) r := by
  induction ms with
  | nil => intro r; rfl
  | cons m rest ih =>
    intro r
    obtain ⟨p, e⟩ := m
    rw [degByLoop, ih, ExpMax_eq_max]
    rfl

theorem PolyDeg_nonneg (p : Poly R) (h : PolyIsZero p = false) : 0 ≤ PolyDeg p := by
  cases p with
  | coeff c => rw [PolyDeg, h]; simp
  | arr ms =>
    rw [PolyDeg, degLoop_eq_foldl]
    exact (foldl_max_spec _ ms 0).1

theorem PolyDegBy_nonneg (p : Poly R) (k : Nat) (h : PolyIsZero p = false) :
    0 ≤ PolyDegBy p k := by
  cases p with
  | coeff c => rw [PolyDegBy, h]; simp
  | arr ms =>
    rw [PolyDegBy, degByLoop_eq_foldl]
    exact (foldl_max_spec _ ms 0).1

/-- The maximum of non-negative terms over a non-empty list, started at 0, is one of the
terms. -/
theorem foldl_max_zero_attained {α : Type} (t : α → Int) (l : List α) (hne : l ≠ [])
    (ht : ∀ a ∈ l, 0 ≤ t a) :
    ∃ a ∈ l, l.foldl (fun acc a => max acc (t a)) 0 = t a := by
  obtain ⟨-, h2, h3⟩ := foldl_max_spec t l 0
  rcases h3 with h3 | h3
  · cases l with
    | nil => exact absurd rfl hne
    | cons x rest =>
      refine ⟨x, List.mem_cons_self _ _, ?_⟩
      have hx := h2 x (List.mem_cons_self _ _)
      have hx0 := ht x (List.mem_cons_self _ _)
      rw [h3] at hx ⊢
      omega
  · exact h3

theorem exp_le_getLast (ms : List (Mono R)) (hs : expsIncreasing ms = true) (hne : ms ≠ []) :
    ∀ m ∈ ms, m.exp ≤ (ms.getLast hne).exp := by
  induction ms with
  | nil => exact absurd rfl hne
  | cons x rest ih =>
    obtain ⟨h1, h2⟩ := (expsIncreasing_cons _ _).1 hs
    cases rest with
    | nil =>
      intro m hm
      rcases List.mem_cons.1 hm with rfl | hm
      · exact le_rfl
      · simp at hm
    | cons y rest' =>
      intro m hm
      have hl : (x :: y :: rest').getLast hne = (y :: rest').getLast (by simp) := by
        simp [List.getLast_cons]
      rw [hl]
      rcases List.mem_cons.1 hm with rfl | hm
      · exact le_trans (le_of_lt (h1 y (List.mem_cons_self _ _)))
          (ih h2 (by simp) y (List.mem_cons_self _ _))
      · exact ih h2 (by simp) m hm

/-- The total degree is a `poly_exp_t`: it never exceeds `2^31 - 1`. -/
theorem PolyDeg_le_max (p : Poly R) : PolyDeg p ≤ POLY_EXP_T_MAX := by
  unfold POLY_EXP_T_MAX
  cases p with
  | coeff c =>
    rw [PolyDeg]
    split <;> omega
  | arr ms =>
    rw [PolyDeg, degLoop_eq_foldl]
    rcases (foldl_max_spec (fun m : Mono R => wrapExp (PolyDeg m.p + (m.exp : Int))) ms 0).2.2
      with h | ⟨m, -, h⟩
    · rw [h]; omega
    · rw [h]; exact wrapExp_le _

/-- The total degree of a canonical Sum is the maximum over its monomials of the exponent
plus the degree of the coefficient, provided that none of these sums leaves the range of
`poly_exp_t`. -/
theorem PolyDeg_arr_max (ms : List (Mono R)) (hp : Canonical (Poly.arr ms) = true)
    (hfit : ∀ m ∈ ms, (m.exp : Int) + PolyDeg m.p ≤ POLY_EXP_T_MAX) :
    (∀ m ∈ ms, (m.exp : Int) + PolyDeg m.p ≤ PolyDeg (Poly.arr ms)) ∧
      ∃ m ∈ ms, PolyDeg (Poly.arr ms) = (m.exp : Int) + PolyDeg m.p := by
  obtain ⟨hne, -, -, hco⟩ := (Canonical_arr_iff ms).1 hp
  have hco' := (coeffsCanonical_iff ms).1 hco
  have hw : ∀ m ∈ ms, wrapExp (PolyDeg m.p + (m.exp : Int)) = (m.exp : Int) + PolyDeg m.p := by
    intro m hm
    have h1 := PolyDeg_nonneg m.p (hco' m hm).2
    have h2 : (0 : Int) ≤ (m.exp : Int) := Int.natCast_nonneg _
    have h3 := hfit m hm
    unfold POLY_EXP_T_MAX at h3
    rw [wrapExp_of_range _ (by omega) (by omega), add_comm]
  rw [PolyDeg, degLoop_eq_foldl]
  constructor
  · intro m hm
    have := (foldl_max_spec (fun m : Mono R => wrapExp (PolyDeg m.p + (m.exp : Int))) ms
      0).2.1 m hm
    rw [← hw m hm]; exact this
  · obtain ⟨m, hm, h⟩ := foldl_max_zero_attained
      (fun m : Mono R => wrapExp (PolyDeg m.p + (m.exp : Int))) ms hne
      (fun m hm => by
        have := PolyDeg_nonneg m.p (hco' m hm).2
        have h2 : (0 : Int) ≤ (m.exp : Int) := Int.natCast_nonneg _
        show 0 ≤ wrapExp (PolyDeg m.p + (m.exp : Int))
        rw [hw m hm]
        omega)
    exact ⟨m, hm, by rw [h, hw m hm]⟩

theorem PolyDegBy_arr_zero (ms : List (Mono R)) (hp : Canonical (Poly.arr ms) = true) :
    (∀ m ∈ ms, (m.exp : Int) ≤ PolyDegBy (Poly.arr ms) 0) ∧
      ∃ hne : ms ≠ [], PolyDegBy (Poly.arr ms) 0 = ((ms.getLast hne).exp : Int) := by
  obtain ⟨hne, hexp, -, -⟩ := (Canonical_arr_iff ms).1 hp
  rw [PolyDegBy, degByLoop_eq_foldl]
  simp only [if_true]
  have hspec := foldl_max_spec (fun m : Mono R => (m.exp : Int)) ms 0
  refine ⟨fun m hm => hspec.2.1 m hm, hne, ?_⟩
  obtain ⟨m, hm, h⟩ := foldl_max_zero_attained (fun m : Mono R => (m.exp : Int)) ms hne
    (fun m _ => Int.natCast_nonneg _)
  have hlast := hspec.2.1 (ms.getLast hne) (List.getLast_mem hne)
  have hle := exp_le_getLast ms hexp hne m hm
  rw [h] at hlast ⊢
  have : ((m.exp : Int)) ≤ ((ms.getLast hne).exp : Int) := by exact_mod_cast hle
  omega

theorem PolyDegBy_arr_succ (ms : List (Mono R)) (hp : Canonical (Poly.arr ms) = true)
    (k : Nat) :
    (∀ m ∈ ms, PolyDegBy m.p k ≤ PolyDegBy (Poly.arr ms) (k + 1)) ∧
      ∃ m ∈ ms, PolyDegBy (Poly.arr ms) (k + 1) = PolyDegBy m.p k := by
  obtain ⟨hne, -, -, hco⟩ := (Canonical_arr_iff ms).1 hp
  have hco' := (coeffsCanonical_iff ms).1 hco
  rw [PolyDegBy, degByLoop_eq_foldl]
  simp only [Nat.succ_ne_zero, if_false, Nat.add_sub_cancel]
  exact ⟨fun m hm => (foldl_max_spec (fun m : Mono R => PolyDegBy m.p k) ms 0).2.1 m hm,
    foldl_max_zero_attained (fun m : Mono R => PolyDegBy m.p k) ms hne
      (fun m hm => PolyDegBy_nonneg m.p k (hco' m hm).2)⟩

end Degrees

/-! ## Operations on the leaves: negation and scaling in place -/

section Leaves
variable {R : Type} [CommRing R] [DecidableEq R]

theorem mapLeavesMonos_eq_map (f : R → R) (ms : List (Mono R)) :
    mapLeavesMonos f ms = ms.map (fun m => Mono.mk (mapLeaves f m.p) m.exp) := by
  induction ms with
  | nil => rfl
  | cons m rest ih => cases m; simp [mapLeavesMonos, ih]

theorem mapLeavesMonos_exp (f : R → R) (ms : List (Mono R)) :
    (mapLeavesMonos f ms).map Mono.exp = ms.map Mono.exp := by
  rw [mapLeavesMonos_eq_map, List.map_map]; rfl

theorem PolyNeg_eq_mapLeaves (p : Poly R) : PolyNeg p = mapLeaves (fun c => -c) p := by
  induction p using Poly.induct with
  | hc c => rfl
  | ha ms ih =>
    rw [PolyNeg, mapLeaves, negMonos_eq_map, mapLeavesMonos_eq_map]
    congr 1
    apply List.map_congr_left
    intro m hm
    rw [ih m hm]

theorem negInPlaceMonos_eq_map (ms : List (Mono R)) :
    negInPlaceMonos ms = ms.map (fun m => Mono.mk (PolyNegInPlace m.p) m.exp) := by
  induction ms with
  | nil => rfl
  | cons m rest ih => cases m; simp [negInPlaceMonos, ih]

theorem PolyNegInPlace_eq (p : Poly R) : PolyNegInPlace p = PolyNeg p := by
  induction p using Poly.induct with
  | hc c => rfl
  | ha ms ih =>
    rw [PolyNegInPlace, PolyNeg, negInPlaceMonos_eq_map, negMonos_eq_map]
    congr 1
    apply List.map_congr_left
    intro m hm
    rw [ih m hm]

theorem mulByCoeffMonos_eq_map (ms : List (Mono R)) (c : R) :
    mulByCoeffMonos ms c = ms.map (fun m => Mono.mk (PolyMulByCoeffInPlace m.p c) m.exp) := by
  induction ms with
  | nil => rfl
  | cons m rest ih => cases m; simp [mulByCoeffMonos, ih]

theorem PolyMulByCoeffInPlace_eq_mapLeaves (p : Poly R) (c : R) :
    PolyMulByCoeffInPlace p c = mapLeaves (fun a => a * c) p := by
  induction p using Poly.induct with
  | hc a => rfl
  | ha ms ih =>
    rw [PolyMulByCoeffInPlace, mapLeaves, mulByCoeffMonos_eq_map, mapLeavesMonos_eq_map]
    congr 1
    apply List.map_congr_left
    intro m hm
    rw [ih m hm]

theorem PolyIsCoeff_mapLeaves (f : R → R) (p : Poly R) :
    PolyIsCoeff (mapLeaves f p) = PolyIsCoeff p := by
  cases p <;> rfl

theorem collapsible_mapLeavesMonos (f : R → R) (ms : List (Mono R)) :
    collapsible (mapLeavesMonos f ms) = collapsible ms := by
  match ms with
  | [] => rfl
  | [.mk (.coeff c) 0] => rfl
  | [.mk (.coeff c) (e + 1)] => rfl
  | [.mk (.arr l) e] => cases e <;> rfl
  | _ :: _ :: _ => rw [mapLeavesMonos_eq_map]; simp [collapsible]

/-- A map of the leaves that sends no non-zero coefficient to 0 keeps the canonical form. -/
theorem Canonical_mapLeaves (f : R → R) (hf : ∀ a : R, f a = 0 → a = 0) (p : Poly R)
    (hp : Canonical p = true) : Canonical (mapLeaves f p) = true := by
  induction p using Poly.induct with
  | hc c => rfl
  | ha ms ih =>
    obtain ⟨hne, hexp, hcol, hco⟩ := (Canonical_arr_iff ms).1 hp
    rw [mapLeaves, Canonical_arr_iff, collapsible_mapLeavesMonos]
    refine ⟨?_, ?_, hcol, ?_⟩
    · rw [mapLeavesMonos_eq_map]; simpa using hne
    · rw [expsIncreasing_iff_sorted] at hexp ⊢
      rw [mapLeavesMonos_exp]
      exact hexp
    · rw [coeffsCanonical_iff] at hco ⊢
      intro m hm
      rw [mapLeavesMonos_eq_map] at hm
      obtain ⟨m', hm', rfl⟩ := List.mem_map.1 hm
      simp only [Mono.p_mk]
      refine ⟨ih m' hm' (hco m' hm').1, ?_⟩
      have hz := (hco m' hm').2
      cases hmp : m'.p with
      | arr l => rfl
      | coeff a =>
        rw [hmp] at hz
        simp only [PolyIsZero_coeff, decide_eq_false_iff_not] at hz
        simp only [mapLeaves, PolyIsZero_coeff, decide_eq_false_iff_not]
        exact fun h => hz (hf a h)

end Leaves

/-! ## Normalisation: order, zero terms, single monomials -/

section NormaliseLaws
variable {R : Type} [CommRing R] [DecidableEq R]

/-- The normaliser returns a canonical Sum as it is. -/
theorem PolyOwnMonos_of_canonical (l : List (Mono R)) (h : Canonical (Poly.arr l) = true) :
    PolyOwnMonos l = Poly.arr l := by
  have hco := (coeffsCanonical_iff l).1 ((Canonical_arr_iff l).1 h).2.2.2
  apply eq_of_formal_eq _ (PolyOwnMonos_canonical l (fun m hm => (hco m hm).1)) _ h
  rw [valIn_PolyOwnMonos]; rfl

/-- The normaliser gives the same tree on every arrangement of its input. -/
theorem PolyOwnMonos_perm (ms ms' : List (Mono R)) (h : ∀ m ∈ ms, Canonical m.p = true)
    (hperm : ms'.Perm ms) : PolyOwnMonos ms' = PolyOwnMonos ms := by
  apply eq_of_formal_eq _
    (PolyOwnMonos_canonical ms' (fun m hm => h m (hperm.mem_iff.1 hm))) _
    (PolyOwnMonos_canonical ms h)
  rw [valIn_PolyOwnMonos, valIn_PolyOwnMonos, valMonosIn_perm hperm]

/-- Whatever sorted arrangement the sort produces, the result is the same tree. -/
theorem ownSorted_eq_PolyOwnMonos (ms s : List (Mono R)) (h : ∀ m ∈ ms, Canonical m.p = true)
    (hperm : s.Perm ms) (hs : (s.map Mono.exp).Sorted (· ≤ ·)) :
    ownSorted s = PolyOwnMonos ms := by
  apply eq_of_formal_eq _
    (ownSorted_canonical s (fun m hm => h m (hperm.mem_iff.1 hm)) hs) _
    (PolyOwnMonos_canonical ms h)
  rw [valIn_ownSorted, valIn_PolyOwnMonos, valMonosIn_perm hperm]

theorem PolyOwnMonos_insert_zero (l1 l2 : List (Mono R)) (e : Nat)
    (h : ∀ m ∈ l1 ++ l2, Canonical m.p = true) :
    PolyOwnMonos (l1 ++ Mono.mk (Poly.coeff 0) e :: l2) = PolyOwnMonos (l1 ++ l2) := by
  apply eq_of_formal_eq _ (PolyOwnMonos_canonical _ ?_) _ (PolyOwnMonos_canonical _ h)
  · rw [valIn_PolyOwnMonos, valIn_PolyOwnMonos]
    simp
  · intro m hm
    rcases List.mem_append.1 hm with hm | hm
    · exact h m (List.mem_append_left _ hm)
    · rcases List.mem_cons.1 hm with rfl | hm
      · rfl
      · exact h m (List.mem_append_right _ hm)

/-- A sequence whose monomials add up to the zero polynomial is normalised to the
Constant 0. -/
theorem PolyOwnMonos_of_sum_zero (ms : List (Mono R)) (h : ∀ m ∈ ms, Canonical m.p = true)
    (hz : valMonosIn (MvPolynomial.C : R →+* MvPolynomial ℕ R) ms MvPolynomial.X = 0) :
    PolyOwnMonos ms = Poly.coeff 0 := by
  apply eq_coeff_of_formal_const _ (PolyOwnMonos_canonical ms h)
  rw [valIn_PolyOwnMonos, hz, map_zero]

theorem PolyOwnMonos_single (p : Poly R) (e : Nat) :
    PolyOwnMonos [Mono.mk p e] =
      if PolyIsZero p then Poly.coeff 0
      else if e = 0 ∧ PolyIsCoeff p = true then p
      else Poly.arr [Mono.mk p e] := by
  cases hz : PolyIsZero p with
  | true => simp [PolyOwnMonos, sortMonos, ownSorted, ownLoop, hz, PolyZero, PolyFromCoeff]
  | false =>
    cases p with
    | arr l =>
      simp [PolyOwnMonos, sortMonos, ownSorted, ownLoop, MonoFromPoly]
    | coeff c =>
      cases e with
      | zero => simp [PolyOwnMonos, sortMonos, ownSorted, ownLoop, hz, MonoFromPoly]
      | succ n => simp [PolyOwnMonos, sortMonos, ownSorted, ownLoop, hz, MonoFromPoly]

end NormaliseLaws

/-! ## Multiplication by a Constant -/

section MulCoeff
variable {R : Type} [CommRing R] [DecidableEq R]

/-- When no non-zero coefficient times `c` is 0, the product of a canonical polynomial with
the Constant `c` is the tree with every leaf multiplied by `c`: no monomial is dropped. -/
theorem PolyMul_coeff_eq_mapLeaves (c : R) (hc : ∀ a : R, a * c = 0 → a = 0) (p : Poly R) :
    Canonical p = true → PolyMul p (Poly.coeff c) = mapLeaves (fun a => a * c) p := by
  induction p using Poly.induct with
  | hc a => intro _; rw [PolyMul.eq_1]; rfl
  | ha ms ih =>
    intro hp
    have hco := (coeffsCanonical_iff ms).1 ((Canonical_arr_iff ms).1 hp).2.2.2
    have hcan := Canonical_mapLeaves (fun a => a * c) hc _ hp
    rw [mapLeaves] at hcan ⊢
    rw [PolyMul.eq_3, mulCoeffLoop_eq_map, ← PolyOwnMonos_of_canonical _ hcan,
      mapLeavesMonos_eq_map]
    congr 1
    apply List.map_congr_left
    intro m hm
    rw [ih m hm (hco m hm).1]

/-- The product with the Constant 0 is the Constant 0. -/
theorem PolyMul_coeff_zero (p : Poly R) : PolyMul p (Poly.coeff 0) = Poly.coeff 0 := by
  induction p using Poly.induct with
  | hc a => rw [PolyMul.eq_1]; simp [PolyFromCoeff]
  | ha ms ih =>
    rw [PolyMul.eq_3, mulCoeffLoop_eq_map]
    apply PolyOwnMonos_of_sum_zero
    · intro m hm
      obtain ⟨m', hm', rfl⟩ := List.mem_map.1 hm
      simp only [Mono.p_mk, ih m' hm']; rfl
    · have : ∀ l : List (Mono R), (∀ m ∈ l, m ∈ ms) →
          valMonosIn (MvPolynomial.C : R →+* MvPolynomial ℕ R)
            (l.map (fun m => Mono.mk (PolyMul m.p (Poly.coeff 0)) m.exp)) MvPolynomial.X = 0 := by
        intro l
        induction l with
        | nil => intro _; rfl
        | cons m rest ihl =>
          intro hl
          simp only [List.map_cons, valMonosIn_cons, Mono.p_mk, Mono.exp_mk,
            ih m (hl m (List.mem_cons_self _ _)),
            ihl (fun m hm => hl m (List.mem_cons_of_mem _ hm))]
          simp
      exact this ms (fun m hm => hm)

end MulCoeff

/-! ## The sortedness check -/

section Sortedness
variable {R : Type} [CommRing R] [DecidableEq R]

theorem expsIncreasing_head (p q : Poly R) (e : Nat) (rest : List (Mono R)) :
    expsIncreasing (Mono.mk p e :: rest) = expsIncreasing (Mono.mk q e :: rest) := by
  cases rest <;> rfl

theorem isSortedLoop_eq (rest : List (Mono R))
    (H : ∀ m ∈ rest, PolyIsSorted m.p = sortedEveryLevel m.p) :
    ∀ (prevExp : Nat) (result : Bool) (q : Poly R),
      isSortedLoop prevExp result rest =
        (result && expsIncreasing (Mono.mk q prevExp :: rest) && coeffsSorted rest) := by
  induction rest with
  | nil => intro prevExp result q; simp [isSortedLoop, expsIncreasing, coeffsSorted]
  | cons m rest ih =>
    intro prevExp result q
    obtain ⟨p, e⟩ := m
    have hp := H (Mono.mk p e) (List.mem_cons_self _ _)
    simp only [Mono.p_mk] at hp
    rw [isSortedLoop, ih (fun m hm => H m (List.mem_cons_of_mem _ hm)) e _ p, hp]
    simp only [expsIncreasing, coeffsSorted, Mono.exp_mk]
    cases result <;> cases decide (prevExp < e) <;> cases sortedEveryLevel p <;>
      cases expsIncreasing (Mono.mk p e :: rest) <;> cases coeffsSorted rest <;> rfl

/-- The check of the source is the check of strictly increasing exponents at every level,
and nothing more. -/
theorem PolyIsSorted_eq (p : Poly R) : PolyIsSorted p = sortedEveryLevel p := by
  induction p using Poly.induct with
  | hc c => rfl
  | ha ms ih =>
    cases ms with
    | nil => rfl
    | cons m rest =>
      obtain ⟨p0, e0⟩ := m
      have hp := ih (Mono.mk p0 e0) (List.mem_cons_self _ _)
      simp only [Mono.p_mk] at hp
      rw [PolyIsSorted, isSortedLoop_eq rest (fun m hm => ih m (List.mem_cons_of_mem _ hm))
        e0 _ p0, hp, sortedEveryLevel, coeffsSorted]
      cases sortedEveryLevel p0 <;> cases expsIncreasing (Mono.mk p0 e0 :: rest) <;>
        cases coeffsSorted rest <;> rfl

theorem coeffsSorted_iff (l : List (Mono R)) :
    coeffsSorted l = true ↔ ∀ m ∈ l, sortedEveryLevel m.p = true := by
  induction l with
  | nil => simp [coeffsSorted]
  | cons m rest ih => cases m; simp [coeffsSorted, ih]

theorem sortedEveryLevel_of_canonical (p : Poly R) (hp : Canonical p = true) :
    sortedEveryLevel p = true := by
  induction p using Poly.induct with
  | hc c => rfl
  | ha ms ih =>
    obtain ⟨-, hexp, -, hco⟩ := (Canonical_arr_iff ms).1 hp
    have hco' := (coeffsCanonical_iff ms).1 hco
    rw [sortedEveryLevel, hexp, Bool.true_and, coeffsSorted_iff]
    exact fun m hm => ih m hm (hco' m hm).1

end Sortedness

/-! ## The statements of the specification on degrees, negation, normalisation, scaling
and the sortedness check -/

section ClaimsDegNorm
variable {R : Type} [CommRing R] [DecidableEq R]

/-- C21, as stated, fails at the canonical `p = ((1,2147483647),2147483647)`, the product
of the largest powers of two variables, whose numbers all fit the machine: for its single
monomial `e + PolyDeg c` is `4294967294`, which no `poly_exp_t` holds; the `int` addition
of `PolyDeg` wraps to `-2` and `PolyDeg p` is `0`. -/
theorem claim_C21_counterexample :
    Canonical (Poly.arr [.mk (.arr [.mk (.coeff (1 : ℤ)) 2147483647]) 2147483647]) = true ∧
    fitsMachine (Poly.arr [.mk (.arr [.mk (.coeff (1 : ℤ)) 2147483647]) 2147483647]) = true ∧
    PolyDeg (Poly.arr [.mk (.arr [.mk (.coeff (1 : ℤ)) 2147483647]) 2147483647]) = 0 ∧
    ((2147483647 : Nat) : Int) + PolyDeg (Poly.arr [.mk (.coeff (1 : ℤ)) 2147483647]) =
      4294967294 :=
  ⟨by decide, by decide, by decide, by decide⟩

/-- C21, amended: `PolyDeg (Const 0) = -1`; `PolyDeg (Const c) = 0` for every `c ≠ 0`; and
for every canonical Sum in which `e + PolyDeg c` is at most `2^31 - 1` for every monomial
`(e, c)`, `PolyDeg` is the maximum over its monomials of `e + PolyDeg c`: it bounds every
such term and is one of them. The condition cannot be dropped: when `PolyDeg` bounds every
term, every term is at most `2^31 - 1`. -/
theorem claim_C21_deg :
    PolyDeg (Poly.coeff (0 : R)) = -1 ∧
    (∀ c : R, c ≠ 0 → PolyDeg (Poly.coeff c) = 0) ∧
    ∀ ms : List (Mono R), Canonical (Poly.arr ms) = true →
      ((∀ m ∈ ms, (m.exp : Int) + PolyDeg m.p ≤ POLY_EXP_T_MAX) →
        (∀ m ∈ ms, (m.exp : Int) + PolyDeg m.p ≤ PolyDeg (Poly.arr ms)) ∧
          ∃ m ∈ ms, PolyDeg (Poly.arr ms) = (m.exp : Int) + PolyDeg m.p) ∧
      ((∀ m ∈ ms, (m.exp : Int) + PolyDeg m.p ≤ PolyDeg (Poly.arr ms)) →
        ∀ m ∈ ms, (m.exp : Int) + PolyDeg m.p ≤ POLY_EXP_T_MAX) := by
  refine ⟨by simp [PolyDeg], fun c hc => by simp [PolyDeg, hc], fun ms h => ⟨?_, ?_⟩⟩
  · exact fun hfit => PolyDeg_arr_max ms h hfit
  · exact fun hb m hm => le_trans (hb m hm) (PolyDeg_le_max _)

/-- The amended statement of C21 on `p = 3x^2 + (2y^5)x^0`: the degree is 5, and the term
of the monomial `(2, 3)` is below it. -/
theorem claim_C21_witness :
    PolyDeg (Poly.arr [.mk (.arr [.mk (.coeff (2 : ℤ)) 5]) 0, .mk (.coeff 3) 2]) = 5 ∧
      ((Mono.mk (Poly.coeff (3 : ℤ)) 2).exp : Int) + PolyDeg (Mono.mk (Poly.coeff (3 : ℤ)) 2).p ≤
        PolyDeg (Poly.arr [.mk (.arr [.mk (.coeff (2 : ℤ)) 5]) 0, .mk (.coeff 3) 2]) :=
  ⟨by decide,
    ((claim_C21_deg.2.2 [.mk (.arr [.mk (.coeff (2 : ℤ)) 5]) 0, .mk (.coeff 3) 2]
      (by decide)).1 (by decide)).1
      (Mono.mk (Poly.coeff (3 : ℤ)) 2) (by simp)⟩

/-- C22: degree by variable: `PolyDegBy (Const 0) k = -1` and `PolyDegBy (Const c) k = 0`
for `c ≠ 0` and every `k`; for every canonical Sum, `PolyDegBy p 0` is the largest
top-level exponent, which is the exponent of the last monomial, and `PolyDegBy p (k + 1)`
is the maximum over its monomials `(e, c)` of `PolyDegBy c k`. -/
theorem claim_C22_degBy :
    (∀ k : Nat, PolyDegBy (Poly.coeff (0 : R)) k = -1) ∧
    (∀ (c : R) (k : Nat), c ≠ 0 → PolyDegBy (Poly.coeff c) k = 0) ∧
    ∀ ms : List (Mono R), Canonical (Poly.arr ms) = true →
      (∀ m ∈ ms, (m.exp : Int) ≤ PolyDegBy (Poly.arr ms) 0) ∧
      (∃ hne : ms ≠ [], PolyDegBy (Poly.arr ms) 0 = ((ms.getLast hne).exp : Int)) ∧
      ∀ k : Nat,
        (∀ m ∈ ms, PolyDegBy m.p k ≤ PolyDegBy (Poly.arr ms) (k + 1)) ∧
          ∃ m ∈ ms, PolyDegBy (Poly.arr ms) (k + 1) = PolyDegBy m.p k := by
  refine ⟨fun k => by simp [PolyDegBy], fun c k hc => by simp [PolyDegBy, hc], fun ms h => ?_⟩
  exact ⟨(PolyDegBy_arr_zero ms h).1, (PolyDegBy_arr_zero ms h).2,
    fun k => PolyDegBy_arr_succ ms h k⟩

/-- The statement of C22 on `p = 3x^2 + (2y^5)x^0`: degree 2 in `x`, degree 5 in `y`, and
the exponent of the monomial `(2, 3)` is at most the degree in `x`. -/
theorem claim_C22_witness :
    PolyDegBy (Poly.arr [.mk (.arr [.mk (.coeff (2 : ℤ)) 5]) 0, .mk (.coeff 3) 2]) 0 = 2 ∧
    PolyDegBy (Poly.arr [.mk (.arr [.mk (.coeff (2 : ℤ)) 5]) 0, .mk (.coeff 3) 2]) 1 = 5 ∧
      ((Mono.mk (Poly.coeff (3 : ℤ)) 2).exp : Int) ≤
        PolyDegBy (Poly.arr [.mk (.arr [.mk (.coeff (2 : ℤ)) 5]) 0, .mk (.coeff 3) 2]) 0 :=
  ⟨by decide, by decide,
    (claim_C22_degBy.2.2 [.mk (.arr [.mk (.coeff (2 : ℤ)) 5]) 0, .mk (.coeff 3) 2]
      (by decide)).1 (Mono.mk (Poly.coeff (3 : ℤ)) 2) (by simp)⟩

/-- C23: negation only flips leaves: for every polynomial `p`, `PolyNeg p` is the tree `p`
with every Constant leaf `c` replaced by `-c`, with the same shape and the same exponent
sequence at every level; `PolyNeg` of a canonical polynomial is canonical; and
`PolyNegInPlace` leaves in `p` the value `PolyNeg p`. This holds for every coefficient
ring. -/
theorem claim_C23_neg_leaves (p : Poly R) :
    PolyNeg p = mapLeaves (fun c => -c) p ∧
    (∀ c : R, PolyNeg (Poly.coeff c) = Poly.coeff (-c)) ∧
    (∀ ms : List (Mono R),
      PolyNeg (Poly.arr ms) = Poly.arr (ms.map (fun m => Mono.mk (PolyNeg m.p) m.exp)) ∧
        (ms.map (fun m => Mono.mk (PolyNeg m.p) m.exp)).map Mono.exp = ms.map Mono.exp) ∧
    (Canonical p = true → Canonical (PolyNeg p) = true) ∧
    PolyNegInPlace p = PolyNeg p := by
  refine ⟨PolyNeg_eq_mapLeaves p, fun c => rfl, fun ms => ⟨?_, ?_⟩, PolyNeg_canonical p,
    PolyNegInPlace_eq p⟩
  · rw [PolyNeg, negMonos_eq_map]
  · rw [List.map_map]; rfl

/-- The statement of C23 on `p = 3x^2 + (2y)x^0`: the negation is canonical. -/
theorem claim_C23_witness :
    Canonical (PolyNeg (Poly.arr [.mk (.arr [.mk (.coeff (2 : ℤ)) 1]) 0, .mk (.coeff 3) 2]))
      = true :=
  (claim_C23_neg_leaves
    (Poly.arr [.mk (.arr [.mk (.coeff (2 : ℤ)) 1]) 0, .mk (.coeff 3) 2])).2.2.2.1 (by decide)

/-- C24: normalisation does not depend on the order of its input: for every sequence `ms`
of monomials with canonical coefficients and every permutation `ms'` of it,
`PolyOwnMonos ms'` is `PolyIsEq`-equal to `PolyOwnMonos ms`; and whatever arrangement `s`
sorted by exponent the sort leaves, the rest of the normaliser gives that same value. This
holds for every coefficient ring. -/
theorem claim_C24_normalise_perm (ms ms' : List (Mono R))
    (h : ∀ m ∈ ms, Canonical m.p = true) (hperm : ms'.Perm ms) :
    PolyIsEq (PolyOwnMonos ms') (PolyOwnMonos ms) = true ∧
      ∀ s : List (Mono R), s.Perm ms → (s.map Mono.exp).Sorted (· ≤ ·) →
        PolyIsEq (ownSorted s) (PolyOwnMonos ms) = true :=
  ⟨(PolyIsEq_iff_eq _ _).2 (PolyOwnMonos_perm ms ms' h hperm),
    fun s hs hsorted => (PolyIsEq_iff_eq _ _).2 (ownSorted_eq_PolyOwnMonos ms s h hs hsorted)⟩

/-- The statement of C24 on the sequence `(5,2), ((2y),2)` and its reversal. -/
theorem claim_C24_witness :
    PolyIsEq
      (PolyOwnMonos [Mono.mk (Poly.arr [.mk (.coeff (2 : ℤ)) 1]) 2, .mk (.coeff 5) 2])
      (PolyOwnMonos [Mono.mk (Poly.coeff (5 : ℤ)) 2, .mk (.arr [.mk (.coeff 2) 1]) 2]) = true :=
  (claim_C24_normalise_perm
    [Mono.mk (Poly.coeff (5 : ℤ)) 2, .mk (.arr [.mk (.coeff 2) 1]) 2]
    [Mono.mk (Poly.arr [.mk (.coeff (2 : ℤ)) 1]) 2, .mk (.coeff 5) 2]
    (by decide) (List.Perm.swap _ _ _)).1

/-- C25: zero-coefficient terms vanish: for every sequence `ms` of monomials with canonical
coefficients, normalising `ms` with one more monomial `(e, Const 0)` inserted at any
position gives a result `PolyIsEq`-equal to normalising `ms`; a sequence whose monomials
add up to the zero polynomial is normalised to the Constant 0; and so is the empty
sequence. This holds for every coefficient ring. -/
theorem claim_C25_zero_terms (ms : List (Mono R)) (h : ∀ m ∈ ms, Canonical m.p = true) :
    (∀ (l1 l2 : List (Mono R)) (e : Nat), ms = l1 ++ l2 →
      PolyIsEq (PolyOwnMonos (l1 ++ Mono.mk (Poly.coeff 0) e :: l2)) (PolyOwnMonos ms) = true) ∧
    (valMonosIn (MvPolynomial.C : R →+* MvPolynomial ℕ R) ms MvPolynomial.X = 0 →
      PolyOwnMonos ms = Poly.coeff 0) ∧
    PolyOwnMonos ([] : List (Mono R)) = Poly.coeff 0 := by
  refine ⟨fun l1 l2 e hms => ?_, PolyOwnMonos_of_sum_zero ms h, rfl⟩
  subst hms
  exact (PolyIsEq_iff_eq _ _).2 (PolyOwnMonos_insert_zero l1 l2 e h)

/-- The statement of C25 on the example of the specification:
`Normalize([(1, Const 0), (2, Const 5)]) == Normalize([(2, Const 5)])`. -/
theorem claim_C25_witness :
    PolyIsEq (PolyOwnMonos ([] ++ Mono.mk (Poly.coeff (0 : ℤ)) 1 :: [Mono.mk (Poly.coeff 5) 2]))
      (PolyOwnMonos [Mono.mk (Poly.coeff (5 : ℤ)) 2]) = true :=
  (claim_C25_zero_terms [Mono.mk (Poly.coeff (5 : ℤ)) 2] (by decide)).1 []
    [Mono.mk (Poly.coeff 5) 2] 1 rfl

/-- C26: collapse rule: for every `c`, `PolyOwnMonos [(0, Const c)]` is the Constant `c`;
and the collapse happens only then: for a coefficient that is a Sum,
`PolyOwnMonos [(0, q)]` is the Sum with the single monomial `(0, q)`, and for `e > 0` and
`c ≠ 0`, `PolyOwnMonos [(e, Const c)]` is the Sum `[(e, Const c)]`. This holds for every
coefficient ring. -/
theorem claim_C26_collapse :
    (∀ c : R, PolyOwnMonos [Mono.mk (Poly.coeff c) 0] = Poly.coeff c ∧
      PolyIsCoeff (PolyOwnMonos [Mono.mk (Poly.coeff c) 0]) = true) ∧
    (∀ l : List (Mono R),
      PolyOwnMonos [Mono.mk (Poly.arr l) 0] = Poly.arr [Mono.mk (Poly.arr l) 0]) ∧
    (∀ (e : Nat) (c : R), 0 < e → c ≠ 0 →
      PolyOwnMonos [Mono.mk (Poly.coeff c) e] = Poly.arr [Mono.mk (Poly.coeff c) e]) ∧
    PolyOwnMonos [Mono.mk (Poly.coeff (7 : ℤ)) 0] = Poly.coeff 7 := by
  have h1 : ∀ c : R, PolyOwnMonos [Mono.mk (Poly.coeff c) 0] = Poly.coeff c := by
    intro c
    rw [PolyOwnMonos_single]
    by_cases hc : c = 0
    · simp [hc]
    · simp [hc]
  refine ⟨fun c => ⟨h1 c, by rw [h1 c]; rfl⟩, fun l => ?_, fun e c he hc => ?_, by rw [PolyOwnMonos_single]; simp [PolyIsZero, PolyIsCoeff]⟩
  · rw [PolyOwnMonos_single]; simp
  · rw [PolyOwnMonos_single]
    have : e ≠ 0 := by omega
    simp [hc, this]

/-- The statement of C26 on the single monomials `(3, Const 5)` and `(0, Const 7)`: the
first stays a Sum, the second collapses. -/
theorem claim_C26_witness :
    PolyOwnMonos [Mono.mk (Poly.coeff (5 : ℤ)) 3] = Poly.arr [Mono.mk (Poly.coeff 5) 3] ∧
    PolyOwnMonos [Mono.mk (Poly.coeff (7 : ℤ)) 0] = Poly.coeff 7 :=
  ⟨(claim_C26_collapse (R := ℤ)).2.2.1 3 5 (by decide) (by decide),
    ((claim_C26_collapse (R := ℤ)).1 7).1⟩

/-- C30, as stated, fails at `Sum[(0, Const 7)]`, a collapsible Sum, and at
`Sum[(1, Const 0)]`, a Sum with the Constant 0 as coefficient: neither is canonical, and
`PolyIsSorted` returns true on both. -/
theorem claim_C30_counterexample :
    PolyIsSorted (Poly.arr [.mk (.coeff (7 : ℤ)) 0]) = true ∧
    Canonical (Poly.arr [.mk (.coeff (7 : ℤ)) 0]) = false ∧
    collapsible [Mono.mk (Poly.coeff (7 : ℤ)) 0] = true ∧
    PolyIsSorted (Poly.arr [.mk (.coeff (0 : ℤ)) 1]) = true ∧
    Canonical (Poly.arr [.mk (.coeff (0 : ℤ)) 1]) = false :=
  ⟨by decide, by decide, by decide, by decide, by decide⟩

/-- C30, amended: for every polynomial value `p`, `PolyIsSorted p` returns true exactly
when `p` has strictly increasing exponents at every nesting level; it holds of every
canonical polynomial, and it checks neither for coefficients that are the Constant 0 nor
for collapsible Sums. -/
theorem claim_C30_isSorted (p : Poly R) :
    (PolyIsSorted p = true ↔ sortedEveryLevel p = true) ∧
    (Canonical p = true → PolyIsSorted p = true) := by
  rw [PolyIsSorted_eq]
  exact ⟨Iff.rfl, sortedEveryLevel_of_canonical p⟩

/-- The amended statement of C30 on `p = 3x^2 + (2y)x^0`. -/
theorem claim_C30_witness :
    PolyIsSorted (Poly.arr [.mk (.arr [.mk (.coeff (2 : ℤ)) 1]) 0, .mk (.coeff 3) 2]) = true :=
  (claim_C30_isSorted
    (Poly.arr [.mk (.arr [.mk (.coeff (2 : ℤ)) 1]) 0, .mk (.coeff 3) 2])).2 (by decide)

end ClaimsDegNorm

/-! ## Reading back what was printed -/

section Decimal

theorem digitChar_spec : ∀ d : Nat, d < 10 →
    isDigit (Nat.digitChar d) = true ∧ (Nat.digitChar d).toNat - 48 = d := by
  decide

theorem peek_cons (c : Char) (s : List Char) : peek (c :: s) = c := rfl

theorem isDigit_peek_ne_nil {s : List Char} (h : isDigit (peek s) = true) : s ≠ [] := by
  intro hs
  subst hs
  revert h
  decide

theorem isDigit_excludes {c : Char} (h : isDigit c = true) :
    c ≠ '(' ∧ c ≠ '-' ∧ c ≠ '+' ∧ c ≠ ',' ∧ c ≠ ')' ∧ isspace c = false := by
  have h1 : 48 ≤ c.toNat ∧ c.toNat ≤ 57 := by
    simp only [isDigit, Bool.and_eq_true, decide_eq_true_eq] at h
    exact ⟨h.1, h.2⟩
  refine ⟨?_, ?_, ?_, ?_, ?_, ?_⟩
  · rintro rfl; revert h; decide
  · rintro rfl; revert h; decide
  · rintro rfl; revert h; decide
  · rintro rfl; revert h; decide
  · rintro rfl; revert h; decide
  · simp only [isspace, Bool.or_eq_false_iff, decide_eq_false_iff_not]
    refine ⟨⟨⟨⟨⟨?_, ?_⟩, ?_⟩, ?_⟩, ?_⟩, ?_⟩ <;> (rintro rfl; revert h; decide)

theorem strtolDigits_stop (s : List Char) (a : Nat) (h : isDigit (peek s) = false) :
    strtolDigits s a = (a, s) := by
  cases s with
  | nil => rfl
  | cons c t =>
    rw [peek_cons] at h
    simp [strtolDigits, h]

/-- The digits written for `n` start with a digit. -/
theorem toDigitsCore_head (fuel : Nat) : ∀ (n : Nat) (ds rest : List Char), n < fuel →
    isDigit (peek (Nat.toDigitsCore 10 fuel n ds ++ rest)) = true := by
  induction fuel with
  | zero => intro n ds rest h; omega
  | succ fuel ih =>
    intro n ds rest h
    rw [Nat.toDigitsCore]
    by_cases h0 : n / 10 = 0
    · simp only [h0, if_true, List.cons_append, peek_cons]
      exact (digitChar_spec _ (Nat.mod_lt _ (by decide))).1
    · simp only [h0, if_false]
      apply ih
      omega

/-- The digit loop of `strtol` reads back the digits written for `n`. -/
theorem strtolDigits_toDigitsCore (fuel : Nat) : ∀ (n : Nat) (ds rest : List Char), n < fuel →
    ∃ k : Nat, ∀ a : Nat, strtolDigits (Nat.toDigitsCore 10 fuel n ds ++ rest) a =
      strtolDigits (ds ++ rest) (a * 10 ^ k + n) := by
  induction fuel with
  | zero => intro n ds rest h; omega
  | succ fuel ih =>
    intro n ds rest h
    have hd := digitChar_spec (n % 10) (Nat.mod_lt _ (by decide))
    rw [Nat.toDigitsCore]
    by_cases h0 : n / 10 = 0
    · refine ⟨1, fun a => ?_⟩
      simp only [h0, if_true, List.cons_append, strtolDigits, hd.1, hd.2, pow_one]
      congr 1
      omega
    · obtain ⟨k, hk⟩ := ih (n / 10) (Nat.digitChar (n % 10) :: ds) rest (by omega)
      refine ⟨k + 1, fun a => ?_⟩
      simp only [h0, if_false]
      rw [hk a]
      simp only [List.cons_append, strtolDigits, hd.1, hd.2, if_true]
      congr 1
      rw [pow_succ]
      have := Nat.div_add_mod n 10
      nlinarith [Nat.div_add_mod n 10]

theorem toDigits_head (n : Nat) (rest : List Char) :
    isDigit (peek (Nat.toDigits 10 n ++ rest)) = true :=
  toDigitsCore_head (n + 1) n [] rest (Nat.lt_succ_self n)

theorem strtolDigits_toDigits (n : Nat) (rest : List Char) (h : isDigit (peek rest) = false) :
    strtolDigits (Nat.toDigits 10 n ++ rest) 0 = (n, rest) := by
  obtain ⟨k, hk⟩ := strtolDigits_toDigitsCore (n + 1) n [] rest (Nat.lt_succ_self n)
  rw [Nat.toDigits, hk 0]
  simp [strtolDigits_stop _ _ h]

theorem printfLd_length_pos (c : Int) : 0 < (printfLd c).length := by
  unfold printfLd
  split
  · simp
  · have h := isDigit_peek_ne_nil (toDigits_head c.natAbs [])
    rw [List.append_nil] at h
    exact List.length_pos.2 h

theorem printfLd_head (c : Int) (rest : List Char) :
    isDigitMinus (peek (printfLd c ++ rest)) = true := by
  unfold printfLd
  split
  · rfl
  · simp [isDigitMinus, toDigits_head]

theorem printfLd_nonneg_head (c : Int) (h : 0 ≤ c) (rest : List Char) :
    isDigit (peek (printfLd c ++ rest)) = true := by
  unfold printfLd
  rw [if_neg (by omega)]
  exact toDigits_head _ _

/-- The call of `strtol` on the text printed for a `long`, followed by a text that does not
start with a digit, returns the number, stops behind it and leaves `errno` alone. -/
theorem strtol_printfLd (c : Int) (h1 : LONG_MIN ≤ c) (h2 : c ≤ LONG_MAX) (rest : List Char)
    (h : isDigit (peek rest) = false) : strtol (printfLd c ++ rest) = (c, rest, false) := by
  unfold printfLd
  by_cases hc : c < 0
  · rw [if_pos hc]
    have hv : (-((c.natAbs : Nat) : Int)) = c := by omega
    simp only [strtol, List.cons_append, List.dropWhile_cons, peek_cons, List.tail_cons,
      toDigits_head, if_true, strtolDigits_toDigits _ _ h, hv, decide_True, true_or,
      show isspace '-' = false by decide, Bool.false_eq_true, if_false]
    rw [if_neg (by omega), if_neg (by omega)]
  · rw [if_neg hc]
    have hv : ((c.natAbs : Nat) : Int) = c := by omega
    have hd := toDigits_head c.natAbs rest
    obtain ⟨d, t, hdt⟩ := List.exists_cons_of_ne_nil (isDigit_peek_ne_nil hd)
    have hd2 : isDigit d = true := by rw [hdt, peek_cons] at hd; exact hd
    obtain ⟨-, hm, hp, -, -, hs⟩ := isDigit_excludes hd2
    have hdrop : List.dropWhile isspace (Nat.toDigits 10 c.natAbs ++ rest) =
        Nat.toDigits 10 c.natAbs ++ rest := by
      rw [hdt, List.dropWhile_cons, hs]; simp
    have hpk : peek (Nat.toDigits 10 c.natAbs ++ rest) = d := by rw [hdt]; rfl
    simp only [strtol, hdrop, hpk, hm, hp, or_self, if_false, hd2, if_true, decide_False,
      strtolDigits_toDigits _ _ h, hv, Bool.false_eq_true]
    rw [if_neg (by omega), if_neg (by omega)]

end Decimal

section ReadPrint

theorem readCoeff_printfLd (c : Int) (h1 : LONG_MIN ≤ c) (h2 : c ≤ LONG_MAX) (rest : List Char)
    (h : isDigit (peek rest) = false) : readCoeff (printfLd c ++ rest) = (c, rest, false) := by
  simp [readCoeff, strtol_printfLd c h1 h2 rest h, printfLd_head]

theorem readExp_printfLd (e : Nat) (h2 : (e : Int) ≤ POLY_EXP_T_MAX) (rest : List Char)
    (h : isDigit (peek rest) = false) :
    readExp (printfLd (e : Int) ++ rest) = (e, rest, false) := by
  have h3 : LONG_MIN ≤ (e : Int) := by unfold LONG_MIN; omega
  have h4 : (e : Int) ≤ LONG_MAX := by unfold LONG_MAX; unfold POLY_EXP_T_MAX at h2; omega
  simp [readExp, strtol_printfLd (e : Int) h3 h4 rest h,
    printfLd_nonneg_head (e : Int) (by omega), h2]

theorem fitsMachineMonos_iff (ms : List (Mono ℤ)) :
    fitsMachineMonos ms = true ↔
      ∀ m ∈ ms, (m.exp : Int) ≤ POLY_EXP_T_MAX ∧ fitsMachine m.p = true := by
  induction ms with
  | nil => simp [fitsMachineMonos]
  | cons m rest ih =>
    cases m with
    | mk p e => simp [fitsMachineMonos, ih, and_assoc]

theorem PolyPrint_length_pos (p : Poly ℤ) (hp : Canonical p = true) :
    0 < (PolyPrint p).length := by
  cases p with
  | coeff c => exact printfLd_length_pos c
  | arr ms =>
    cases ms with
    | nil => simp [Canonical] at hp
    | cons m rest => cases m with
      | mk q e => simp [PolyPrint]

/-- Reading one printed monomial, given that its printed coefficient is read back. -/
theorem readMono_print (p : Poly ℤ) (e : Nat) (he : (e : Int) ≤ POLY_EXP_T_MAX)
    (rest nextChar : List Char) (fuel : Nat)
    (ih : ∀ nc : List Char, readPoly fuel (PolyPrint p ++ (',' :: printfLd (e : Int) ++ ')' :: rest))
      nc ErrorType.NO_ERROR = some (p, ',' :: printfLd (e : Int) ++ ')' :: rest, ErrorType.NO_ERROR)) :
    readMono (fuel + 1) ('(' :: PolyPrint p ++ (',' :: printfLd (e : Int) ++ ')' :: rest))
      nextChar ErrorType.NO_ERROR = some (Mono.mk p e, rest, ErrorType.NO_ERROR) := by
  have hr : readExp (printfLd (e : Int) ++ ')' :: rest) = (e, ')' :: rest, false) :=
    readExp_printfLd e he _ (by rfl)
  have ih1 := ih nextChar
  simp only [List.cons_append] at ih1
  simp [readMono, peek_cons, ih1, hr]

/-- The loop of `readPoly` reads back the monomials printed from the second on. -/
theorem readMonos_print (r : List (Mono ℤ)) :
    (∀ m ∈ r, (m.exp : Int) ≤ POLY_EXP_T_MAX ∧ ∀ (fuel : Nat) (rest nc : List Char),
      (PolyPrint m.p).length < fuel → isDigit (peek rest) = false → peek rest ≠ '+' →
      readPoly fuel (PolyPrint m.p ++ rest) nc ErrorType.NO_ERROR =
        some (m.p, rest, ErrorType.NO_ERROR)) →
    ∀ (fuel : Nat) (buf : List (Mono ℤ)) (rest : List Char),
      (printMonos r).length < fuel → peek rest ≠ '+' →
      readMonos fuel buf (printMonos r ++ rest) ErrorType.NO_ERROR =
        some (buf ++ r, rest, ErrorType.NO_ERROR) := by
  induction r with
  | nil =>
    intro _ fuel buf rest hf hrest
    cases fuel with
    | zero => omega
    | succ fuel => simp [readMonos, printMonos, hrest]
  | cons m r ih =>
    intro h fuel buf rest hf hrest
    cases m with
    | mk p e =>
      have hm := h (Mono.mk p e) (List.mem_cons_self _ _)
      simp only [Mono.exp_mk, Mono.p_mk] at hm
      have hlen := printfLd_length_pos (e : Int)
      simp only [printMonos, List.cons_append, List.length_cons, List.length_append,
        List.append_assoc] at hf ⊢
      cases fuel with
      | zero => omega
      | succ fuel =>
        cases fuel with
        | zero => omega
        | succ fuel =>
          have hmono := readMono_print p e hm.1 (printMonos r ++ rest)
            ('+' :: '(' :: (PolyPrint p ++ (',' :: (printfLd (e : Int) ++
              ')' :: (printMonos r ++ rest))))) fuel
            (fun nc => by
              have := hm.2 fuel (',' :: printfLd (e : Int) ++ ')' :: (printMonos r ++ rest)) nc
                (by omega) (by rfl) (by simp [peek])
              simpa using this)
          simp only [List.cons_append, List.append_assoc] at hmono
          rw [readMonos]
          simp only [peek_cons, true_and, if_true, List.tail_cons, hmono]
          rw [ih (fun m' hm' => h m' (List.mem_cons_of_mem _ hm')) (fuel + 1) _ rest
            (by omega) hrest]
          simp

/-- The reader gives back every canonical polynomial whose numbers fit the machine from
its printed text, whatever follows the text, as long as that is neither a digit nor `+`. -/
theorem readPoly_print : ∀ p : Poly ℤ, Canonical p = true → fitsMachine p = true →
    ∀ (fuel : Nat) (rest nc : List Char),
      (PolyPrint p).length < fuel → isDigit (peek rest) = false → peek rest ≠ '+' →
      readPoly fuel (PolyPrint p ++ rest) nc ErrorType.NO_ERROR =
        some (p, rest, ErrorType.NO_ERROR) := by
  intro p
  induction p using Poly.induct with
  | hc c =>
    intro _ hf fuel rest nc hfuel hrest _
    simp only [fitsMachine, Bool.and_eq_true, decide_eq_true_eq] at hf
    cases fuel with
    | zero => omega
    | succ fuel =>
      simp [readPoly, PolyPrint, printfLd_head, readCoeff_printfLd c hf.1 hf.2 rest hrest]
  | ha ms ih =>
    intro hp hf fuel rest nc hfuel hrest hplus
    have hco := (coeffsCanonical_iff ms).1 ((Canonical_arr_iff ms).1 hp).2.2.2
    have hfm := (fitsMachineMonos_iff ms).1 (by simpa [fitsMachine] using hf)
    have hall : ∀ m ∈ ms, (m.exp : Int) ≤ POLY_EXP_T_MAX ∧ ∀ (fuel : Nat) (rest nc : List Char),
        (PolyPrint m.p).length < fuel → isDigit (peek rest) = false → peek rest ≠ '+' →
        readPoly fuel (PolyPrint m.p ++ rest) nc ErrorType.NO_ERROR =
          some (m.p, rest, ErrorType.NO_ERROR) :=
      fun m hm => ⟨(hfm m hm).1, ih m hm (hco m hm).1 (hfm m hm).2⟩
    cases ms with
    | nil => simp [Canonical] at hp
    | cons m r =>
      cases m with
      | mk q e =>
        have hm := hall (Mono.mk q e) (List.mem_cons_self _ _)
        simp only [Mono.exp_mk, Mono.p_mk] at hm
        have hlen := printfLd_length_pos (e : Int)
        simp only [PolyPrint, List.cons_append, List.length_cons, List.length_append,
          List.append_assoc] at hfuel ⊢
        cases fuel with
        | zero => omega
        | succ fuel =>
          cases fuel with
          | zero => omega
          | succ fuel =>
            have hmono := readMono_print q e hm.1 (printMonos r ++ rest) nc fuel
              (fun nc' => by
                have := hm.2 fuel (',' :: printfLd (e : Int) ++ ')' :: (printMonos r ++ rest))
                  nc' (by omega) (by rfl) (by simp [peek])
                simpa using this)
            simp only [List.cons_append, List.append_assoc] at hmono
            rw [readPoly]
            simp only [peek_cons, show isDigitMinus '(' = false by decide, Bool.false_eq_true,
              if_false, hmono]
            rw [readMonos_print r (fun m' hm' => hall m' (List.mem_cons_of_mem _ hm'))
              (fuel + 1) _ rest (by omega) hplus]
            simp only [List.singleton_append]
            rw [PolyAddMonos_eq, PolyOwnMonos_of_canonical _ hp]

end ReadPrint

/-! ## The statement of the specification on the printed form -/

section ClaimsText

/-- C27: the parser inverts the printer: for every canonical polynomial `p` whose
coefficients are 64-bit integers and whose exponents are at most `2^31 - 1`, `readPoly` on
the text that `PolyPrint` writes for `p` (called without a pending error, with enough depth
for the length of the text) returns, consumes the whole text, reports no error, and the
polynomial it returns is `p` itself, so it is `PolyIsEq`-equal to `p`. -/
theorem claim_C27_read_print (p : Poly ℤ) (hp : Canonical p = true)
    (hf : fitsMachine p = true) (fuel : Nat) (hfuel : (PolyPrint p).length < fuel)
    (nextChar : List Char) :
    readPoly fuel (PolyPrint p) nextChar ErrorType.NO_ERROR =
      some (p, [], ErrorType.NO_ERROR) ∧
    (readPoly fuel (PolyPrint p) nextChar ErrorType.NO_ERROR).map
      (fun r => (PolyIsEq r.1 p, r.2.1, r.2.2)) = some (true, [], ErrorType.NO_ERROR) := by
  have h := readPoly_print p hp hf fuel [] nextChar hfuel (by decide) (by decide)
  rw [List.append_nil] at h
  refine ⟨h, ?_⟩
  rw [h]
  simp [(PolyIsEq_iff_eq p p).2 rfl]

/-- The statement of C27 on `p = ((-2,1),0)+(30,12)`: the printed text, and what `readPoly`
returns on it. -/
theorem claim_C27_witness :
    PolyPrint (Poly.arr [.mk (.arr [.mk (.coeff (-2)) 1]) 0, .mk (.coeff 30) 12]) =
      ['(', '(', '-', '2', ',', '1', ')', ',', '0', ')', '+', '(', '3', '0', ',', '1', '2', ')'] ∧
    readPoly 19 (PolyPrint (Poly.arr [.mk (.arr [.mk (.coeff (-2)) 1]) 0, .mk (.coeff 30) 12]))
      [] ErrorType.NO_ERROR =
      some (Poly.arr [.mk (.arr [.mk (.coeff (-2)) 1]) 0, .mk (.coeff 30) 12], [],
        ErrorType.NO_ERROR) :=
  ⟨by decide,
    (claim_C27_read_print (Poly.arr [.mk (.arr [.mk (.coeff (-2)) 1]) 0, .mk (.coeff 30) 12])
      (by decide) (by decide) 19 (by decide) []).1⟩

end ClaimsText

/-! ## The stack and the commands -/

section Stack
variable {R : Type} [CommRing R] [DecidableEq R]

theorem PSPush_stack (s : PolyStack R) (p : Poly R) : (PSPush s p).stack = s.stack ++ [p] := rfl

theorem PSPop_of_append (s : PolyStack R) (l : List (Poly R)) (p : Poly R)
    (h : s.stack = l ++ [p]) : (PSPop s).1 = p ∧ (PSPop s).2.stack = l := by
  simp [PSPop, PolyStack.elems, h, List.getD_eq_getElem?_getD]

theorem PSPeek_of_append (s : PolyStack R) (l : List (Poly R)) (p : Poly R)
    (h : s.stack = l ++ [p]) : PSPeek s = p := by
  simp [PSPeek, PSGet, PolyStack.elems, h, List.getD_eq_getElem?_getD]

/-- The loop of `executeCompose` takes the `n` polynomials on top off the stack and stores
them in `q[0]`, ..., `q[n - 1]`, the deepest in `q[0]`. -/
theorem composePops_spec (k : Nat) : ∀ (n i : Nat) (q : Nat → Poly R) (s : PolyStack R)
    (rest qs : List (Poly R)), s.stack = rest ++ qs → qs.length = n → i + n = k →
    (composePops k n i q s).2.stack = rest ∧
      ∀ j, (composePops k n i q s).1 j = if j < n then qs.getD j PolyZero else q j := by
  intro n
  induction n with
  | zero =>
    intro i q s rest qs hs hlen _
    have : qs = [] := List.length_eq_zero.1 hlen
    subst this
    simp [composePops, hs]
  | succ n ih =>
    intro i q s rest qs hs hlen hk
    obtain ⟨qs', x, rfl⟩ : ∃ qs' x, qs = qs' ++ [x] := by
      have hne : qs ≠ [] := by intro h; rw [h] at hlen; simp at hlen
      exact ⟨qs.dropLast, qs.getLast hne, (List.dropLast_append_getLast hne).symm⟩
    have hlen' : qs'.length = n := by simpa using hlen
    have hpop := PSPop_of_append s (rest ++ qs') x (by rw [hs, List.append_assoc])
    have := ih (i + 1) (Function.update q (k - i - 1) (PSPop s).1) (PSPop s).2 rest qs'
      hpop.2 hlen' (by omega)
    rw [composePops]
    refine ⟨this.1, fun j => ?_⟩
    rw [this.2 j, hpop.1]
    have hidx : k - i - 1 = n := by omega
    rw [hidx]
    by_cases h1 : j < n
    · have h2 : j < n + 1 := by omega
      have h4 : j < qs'.length := by omega
      simp [h1, h2, List.getD_eq_getElem?_getD, List.getElem?_append_left h4]
    · by_cases h2 : j = n
      · subst h2
        simp [List.getD_eq_getElem?_getD, hlen']
      · have h3 : ¬ j < n + 1 := by omega
        simp [h1, h3, Function.update, h2]

theorem executeSub_spec (s : PolyStack R) (errType : ErrorType) (rest : List (Poly R))
    (p q : Poly R) (h : s.stack = rest ++ [q, p]) :
    (executeSub s errType).1.stack = rest ++ [PolySub p q] ∧
      (executeSub s errType).2 = errType := by
  have h1 := PSPop_of_append s (rest ++ [q]) p (by simp [h])
  have h2 := PSPop_of_append (PSPop s).2 rest q h1.2
  have hl : ¬ s.elems < 2 := by simp [PolyStack.elems, h]
  simp only [executeSub, hl, if_false, PSPush_stack, h1.1, h2.1, h2.2, and_self]

theorem executeCompose_spec (s : PolyStack R) (errType : ErrorType) (k : Nat)
    (rest qs : List (Poly R)) (p : Poly R) (h : s.stack = rest ++ qs ++ [p])
    (hk : qs.length = k) :
    (executeCompose k s errType).1.stack =
        rest ++ [PolyCompose p k (fun i => qs.getD i PolyZero)] ∧
      (executeCompose k s errType).2 = errType := by
  have h1 := PSPop_of_append s (rest ++ qs) p h
  have h2 := composePops_spec k k 0 (fun _ => PolyZero) (PSPop s).2 rest qs h1.2 hk (by omega)
  have hl : ¬ s.elems ≤ k := by simp [PolyStack.elems, h, hk]; omega
  simp only [executeCompose, hl, if_false, PSPush_stack, h1.1, h2.1, and_true]
  congr 2
  apply PolyCompose_congr
  intro i hi
  rw [h2.2 i, if_pos hi]

/-- A command that finds fewer polynomials than it needs raises `STACK_UNDERFLOW` and
returns the stack as it was. -/
theorem cmndFunc_underflow (cmd : Command R) (s : PolyStack R) (errType : ErrorType)
    (h : s.elems < cmd.operands) :
    cmd.cmndFunc s errType = (s, ErrorType.STACK_UNDERFLOW) := by
  cases cmd with
  | ZERO => simp [Command.operands] at h
  | SUB => simp only [Command.operands] at h; simp [Command.cmndFunc, executeSub, h]
  | PRINT => simp only [Command.operands] at h; simp [Command.cmndFunc, executePrint, h]
  | POP => simp only [Command.operands] at h; simp [Command.cmndFunc, executePop, h]
  | NEG => simp only [Command.operands] at h; simp [Command.cmndFunc, executeNeg, h]
  | MUL => simp only [Command.operands] at h; simp [Command.cmndFunc, executeMul, h]
  | IS_ZERO => simp only [Command.operands] at h; simp [Command.cmndFunc, executeIsZero, h]
  | IS_EQ => simp only [Command.operands] at h; simp [Command.cmndFunc, executeIsEq, h]
  | IS_COEFF => simp only [Command.operands] at h; simp [Command.cmndFunc, executeIsCoeff, h]
  | DEG_BY arg => simp only [Command.operands] at h; simp [Command.cmndFunc, executeDegBy, h]
  | DEG => simp only [Command.operands] at h; simp [Command.cmndFunc, executeDeg, h]
  | COMPOSE arg =>
    simp only [Command.operands] at h
    have h1 : s.elems ≤ arg := by omega
    simp only [Command.cmndFunc, executeCompose, h1, if_true]
  | CLONE => simp only [Command.operands] at h; simp [Command.cmndFunc, executeClone, h]
  | AT arg => simp only [Command.operands] at h; simp [Command.cmndFunc, executeAt, h]
  | ADD => simp only [Command.operands] at h; simp [Command.cmndFunc, executeAdd, h]

/-- A command that finds the polynomials it needs leaves the error as it was. -/
theorem cmndFunc_enough (cmd : Command R) (s : PolyStack R) (errType : ErrorType)
    (h : cmd.operands ≤ s.elems) : (cmd.cmndFunc s errType).2 = errType := by
  cases cmd with
  | ZERO => rfl
  | SUB =>
    have h2 : ¬ s.elems < 2 := by simp only [Command.operands] at h; omega
    simp only [Command.cmndFunc, executeSub, h2, if_false]
  | PRINT =>
    have h1 : ¬ s.elems < 1 := by simp only [Command.operands] at h; omega
    simp only [Command.cmndFunc, executePrint, h1, if_false]
  | POP =>
    have h1 : ¬ s.elems < 1 := by simp only [Command.operands] at h; omega
    simp only [Command.cmndFunc, executePop, h1, if_false]
  | NEG =>
    have h1 : ¬ s.elems < 1 := by simp only [Command.operands] at h; omega
    simp only [Command.cmndFunc, executeNeg, h1, if_false]
  | MUL =>
    have h2 : ¬ s.elems < 2 := by simp only [Command.operands] at h; omega
    simp only [Command.cmndFunc, executeMul, h2, if_false]
  | IS_ZERO =>
    have h1 : ¬ s.elems < 1 := by simp only [Command.operands] at h; omega
    simp only [Command.cmndFunc, executeIsZero, h1, if_false]
  | IS_EQ =>
    have h2 : ¬ s.elems < 2 := by simp only [Command.operands] at h; omega
    simp only [Command.cmndFunc, executeIsEq, h2, if_false]
  | IS_COEFF =>
    have h1 : ¬ s.elems < 1 := by simp only [Command.operands] at h; omega
    simp only [Command.cmndFunc, executeIsCoeff, h1, if_false]
  | DEG_BY arg =>
    have h1 : ¬ s.elems < 1 := by simp only [Command.operands] at h; omega
    simp only [Command.cmndFunc, executeDegBy, h1, if_false]
  | DEG =>
    have h1 : ¬ s.elems < 1 := by simp only [Command.operands] at h; omega
    simp only [Command.cmndFunc, executeDeg, h1, if_false]
  | COMPOSE arg =>
    have h3 : ¬ s.elems ≤ arg := by simp only [Command.operands] at h; omega
    simp only [Command.cmndFunc, executeCompose, h3, if_false]
  | CLONE =>
    have h1 : ¬ s.elems < 1 := by simp only [Command.operands] at h; omega
    simp only [Command.cmndFunc, executeClone, h1, if_false]
  | AT arg =>
    have h1 : ¬ s.elems < 1 := by simp only [Command.operands] at h; omega
    simp only [Command.cmndFunc, executeAt, h1, if_false]
  | ADD =>
    have h2 : ¬ s.elems < 2 := by simp only [Command.operands] at h; omega
    simp only [Command.cmndFunc, executeAdd, h2, if_false]

end Stack

/-! ## The degree by a variable and the total degree -/

section DegreeOrder
variable {R : Type} [CommRing R] [DecidableEq R]

theorem PolyDeg_eq_neg_one_iff (p : Poly R) : PolyDeg p = -1 ↔ p = Poly.coeff 0 := by
  constructor
  · intro h
    by_cases hz : PolyIsZero p = true
    · exact (PolyIsZero_iff p).1 hz
    · have := PolyDeg_nonneg p (by simpa using hz)
      omega
  · rintro rfl
    simp [PolyDeg]

theorem PolyDegBy_eq_neg_one_iff (p : Poly R) (k : Nat) :
    PolyDegBy p k = -1 ↔ p = Poly.coeff 0 := by
  constructor
  · intro h
    by_cases hz : PolyIsZero p = true
    · exact (PolyIsZero_iff p).1 hz
    · have := PolyDegBy_nonneg p k (by simpa using hz)
      omega
  · rintro rfl
    simp [PolyDegBy]

theorem degFitsMonos_iff (ms : List (Mono R)) :
    degFitsMonos ms = true ↔
      ∀ m ∈ ms, (m.exp : Int) + PolyDeg m.p ≤ POLY_EXP_T_MAX ∧ degFits m.p = true := by
  induction ms with
  | nil => simp [degFitsMonos]
  | cons m rest ih =>
    cases m with
    | mk p e => simp [degFitsMonos, ih, and_assoc]

/-- The degree by any variable is at most the total degree, when the total degree is
computed without leaving the range of `poly_exp_t`. -/
theorem PolyDegBy_le_PolyDeg : ∀ p : Poly R, Canonical p = true → degFits p = true →
    ∀ k : Nat, PolyDegBy p k ≤ PolyDeg p := by
  intro p
  induction p using Poly.induct with
  | hc c => intro _ _ k; simp [PolyDegBy, PolyDeg]
  | ha ms ih =>
    intro hp hf k
    have hco := (coeffsCanonical_iff ms).1 ((Canonical_arr_iff ms).1 hp).2.2.2
    have hfm := (degFitsMonos_iff ms).1 (by simpa [degFits] using hf)
    have hmax := (PolyDeg_arr_max ms hp (fun m hm => (hfm m hm).1)).1
    cases k with
    | zero =>
      obtain ⟨hne, hlast⟩ := (PolyDegBy_arr_zero ms hp).2
      have hmem := List.getLast_mem hne
      have h1 := hmax _ hmem
      have h2 := PolyDeg_nonneg (ms.getLast hne).p (hco _ hmem).2
      omega
    | succ k =>
      obtain ⟨m, hm, hk⟩ := (PolyDegBy_arr_succ ms hp k).2
      have h1 := hmax m hm
      have h2 := ih m hm (hco m hm).1 (hfm m hm).2 k
      omega

end DegreeOrder

/-! ## The statements of the specification on the commands and on the two degrees -/

section ClaimsCommands
variable {R : Type} [CommRing R] [DecidableEq R]

/-- C31: operand order of the stack commands: on a stack whose top is `p` and whose
second element is `q`, `executeSub` replaces both by `PolySub p q`, top minus second, and
leaves the elements below and the error unchanged; and `executeCompose` with argument `k`
on a stack holding `p` on top of `k` polynomials `qs` replaces these `k + 1` elements by
`PolyCompose p k q`, where `q[i]` is the `i`-th of the `k` counted from the deepest, so
`q[k - 1]` is the element just below `p` and `q[0]` the deepest of the `k`. -/
theorem claim_C31_operand_order (s : PolyStack R) (errType : ErrorType) :
    (∀ (rest : List (Poly R)) (p q : Poly R), s.stack = rest ++ [q, p] →
      (executeSub s errType).1.stack = rest ++ [PolySub p q] ∧
        (executeSub s errType).2 = errType) ∧
    (∀ (k : Nat) (rest qs : List (Poly R)) (p : Poly R), s.stack = rest ++ qs ++ [p] →
      qs.length = k →
      (executeCompose k s errType).1.stack =
          rest ++ [PolyCompose p k (fun i => qs.getD i PolyZero)] ∧
        (executeCompose k s errType).2 = errType) :=
  ⟨fun rest p q h => executeSub_spec s errType rest p q h,
    fun k rest qs p h hk => executeCompose_spec s errType k rest qs p h hk⟩

/-- The statement of C31 on the stack holding 9, 3 and 10 (on top): SUB leaves 9 and
`10 - 3`, and COMPOSE 1 leaves 9 and the composition of 10 with `q[0] = 3`. -/
theorem claim_C31_witness :
    (executeSub { size := 16, stack := [Poly.coeff (9 : ℤ), Poly.coeff 3, Poly.coeff 10] }
      ErrorType.NO_ERROR).1.stack =
        [Poly.coeff 9] ++ [PolySub (Poly.coeff 10) (Poly.coeff 3)] ∧
    (executeCompose 1
      { size := 16, stack := [Poly.coeff (9 : ℤ), Poly.coeff 3, Poly.coeff 10] }
      ErrorType.NO_ERROR).1.stack =
        [Poly.coeff 9] ++
          [PolyCompose (Poly.coeff 10) 1 (fun i => [Poly.coeff (3 : ℤ)].getD i PolyZero)] :=
  ⟨((claim_C31_operand_order
      { size := 16, stack := [Poly.coeff (9 : ℤ), Poly.coeff 3, Poly.coeff 10] }
      ErrorType.NO_ERROR).1 [Poly.coeff 9] (Poly.coeff 10) (Poly.coeff 3) rfl).1,
    ((claim_C31_operand_order
      { size := 16, stack := [Poly.coeff (9 : ℤ), Poly.coeff 3, Poly.coeff 10] }
      ErrorType.NO_ERROR).2 1 [Poly.coeff 9] [Poly.coeff 3] (Poly.coeff 10) rfl rfl).1⟩

/-- C32: stack underflow is atomic: for every command, if the stack holds fewer
polynomials than the command needs (2 for ADD, MUL, SUB, IS_EQ; `k + 1` for COMPOSE `k`;
none for ZERO; 1 for the others), the command sets the error to `STACK_UNDERFLOW` and
returns the stack unchanged, with its element count, its allocated size and every element;
with enough operands the command leaves the error as it was, so it never sets
`STACK_UNDERFLOW`. -/
theorem claim_C32_underflow (cmd : Command R) (s : PolyStack R) (errType : ErrorType) :
    (s.elems < cmd.operands →
      cmd.cmndFunc s errType = (s, ErrorType.STACK_UNDERFLOW)) ∧
    (cmd.operands ≤ s.elems → (cmd.cmndFunc s errType).2 = errType) :=
  ⟨cmndFunc_underflow cmd s errType, cmndFunc_enough cmd s errType⟩

/-- The statement of C32 on ADD with one polynomial on the stack, on COMPOSE 2 with two,
and on SUB with two. -/
theorem claim_C32_witness :
    Command.cmndFunc Command.ADD
        { size := 16, stack := [Poly.coeff (5 : ℤ)] } ErrorType.NO_ERROR =
      ({ size := 16, stack := [Poly.coeff (5 : ℤ)] }, ErrorType.STACK_UNDERFLOW) ∧
    Command.cmndFunc (Command.COMPOSE 2)
        { size := 16, stack := [Poly.coeff (5 : ℤ), Poly.coeff 6] } ErrorType.NO_ERROR =
      ({ size := 16, stack := [Poly.coeff (5 : ℤ), Poly.coeff 6] },
        ErrorType.STACK_UNDERFLOW) ∧
    (Command.cmndFunc Command.SUB
        { size := 16, stack := [Poly.coeff (5 : ℤ), Poly.coeff 6] } ErrorType.NO_ERROR).2 =
      ErrorType.NO_ERROR :=
  ⟨(claim_C32_underflow Command.ADD { size := 16, stack := [Poly.coeff (5 : ℤ)] }
      ErrorType.NO_ERROR).1 (by decide),
    (claim_C32_underflow (Command.COMPOSE 2)
      { size := 16, stack := [Poly.coeff (5 : ℤ), Poly.coeff 6] }
      ErrorType.NO_ERROR).1 (by decide),
    (claim_C32_underflow Command.SUB
      { size := 16, stack := [Poly.coeff (5 : ℤ), Poly.coeff 6] }
      ErrorType.NO_ERROR).2 (by decide)⟩

/-- C33, as stated, fails at the canonical `p = ((1,2147483647),2147483647)`, whose
numbers all fit the machine: `PolyDegBy p 0` is `2147483647`, and `PolyDeg p` is `0`
because the `int` addition `2147483647 + 2147483647` wraps to `-2`. -/
theorem claim_C33_counterexample :
    Canonical (Poly.arr [.mk (.arr [.mk (.coeff (1 : ℤ)) 2147483647]) 2147483647]) = true ∧
    fitsMachine (Poly.arr [.mk (.arr [.mk (.coeff (1 : ℤ)) 2147483647]) 2147483647]) = true ∧
    PolyDegBy (Poly.arr [.mk (.arr [.mk (.coeff (1 : ℤ)) 2147483647]) 2147483647]) 0 =
      2147483647 ∧
    PolyDeg (Poly.arr [.mk (.arr [.mk (.coeff (1 : ℤ)) 2147483647]) 2147483647]) = 0 ∧
    ¬ (PolyDegBy (Poly.arr [.mk (.arr [.mk (.coeff (1 : ℤ)) 2147483647]) 2147483647]) 0 ≤
      PolyDeg (Poly.arr [.mk (.arr [.mk (.coeff (1 : ℤ)) 2147483647]) 2147483647])) :=
  ⟨by decide, by decide, by decide, by decide, by decide⟩

/-- C33, amended: for every canonical polynomial `p` whose total degree is computed within
`poly_exp_t` (at every nesting level `e + PolyDeg c` is at most `2^31 - 1` for every
monomial `(e, c)`) and every variable index `k`, `PolyDegBy p k ≤ PolyDeg p`; and for every
polynomial each of the two degrees is `-1` exactly when `p` is the Constant 0. -/
theorem claim_C33_degBy_le_deg (p : Poly R) (k : Nat) :
    (Canonical p = true → degFits p = true → PolyDegBy p k ≤ PolyDeg p) ∧
    (PolyDeg p = -1 ↔ p = Poly.coeff 0) ∧
    (PolyDegBy p k = -1 ↔ p = Poly.coeff 0) :=
  ⟨fun hp hf => PolyDegBy_le_PolyDeg p hp hf k, PolyDeg_eq_neg_one_iff p,
    PolyDegBy_eq_neg_one_iff p k⟩

/-- The amended statement of C33 on `p = 3x^2 + (2y^5)x^0` and the variable `x`: degree 2
by `x`, total degree 5. -/
theorem claim_C33_witness :
    PolyDegBy (Poly.arr [.mk (.arr [.mk (.coeff (2 : ℤ)) 5]) 0, .mk (.coeff 3) 2]) 0 ≤
      PolyDeg (Poly.arr [.mk (.arr [.mk (.coeff (2 : ℤ)) 5]) 0, .mk (.coeff 3) 2]) ∧
    PolyDegBy (Poly.arr [.mk (.arr [.mk (.coeff (2 : ℤ)) 5]) 0, .mk (.coeff 3) 2]) 0 = 2 ∧
    PolyDeg (Poly.arr [.mk (.arr [.mk (.coeff (2 : ℤ)) 5]) 0, .mk (.coeff 3) 2]) = 5 :=
  ⟨(claim_C33_degBy_le_deg
      (Poly.arr [.mk (.arr [.mk (.coeff (2 : ℤ)) 5]) 0, .mk (.coeff 3) 2]) 0).1
      (by decide) (by decide),
    by decide, by decide⟩

end ClaimsCommands

/-! ## The checked multiplication agrees with the exact one -/

section MachineSound
variable {R : Type} [CommRing R] [DecidableEq R]

theorem machMulCoeffLoop_sound (q : Poly R) (ps : List (Mono R))
    (H : ∀ m ∈ ps, ∀ r, Machine.PolyMul m.p q = some r → r = PolyMul m.p q) :
    ∀ l, Machine.mulCoeffLoop ps q = some l → l = mulCoeffLoop ps q := by
  induction ps with
  | nil =>
    intro l h
    rw [Machine.mulCoeffLoop] at h
    rw [mulCoeffLoop]
    exact (Option.some.inj h).symm
  | cons m rest ih =>
    obtain ⟨c, e⟩ := m
    intro l h
    rw [Machine.mulCoeffLoop] at h
    rw [mulCoeffLoop]
    cases h1 : Machine.PolyMul c q with
    | none => simp [h1] at h
    | some r =>
      cases h2 : Machine.mulCoeffLoop rest q with
      | none => simp [h1, h2] at h
      | some l' =>
        simp only [h1, h2, Option.some.injEq] at h
        subst h
        rw [H (Mono.mk c e) (List.mem_cons_self _ _) r h1,
          ih (fun m hm => H m (List.mem_cons_of_mem _ hm)) l' h2]
        rfl

theorem machMulInner_sound (c : Poly R) (e : Nat) (qs : List (Mono R))
    (H : ∀ m ∈ qs, ∀ r, Machine.PolyMul c m.p = some r → r = PolyMul c m.p) :
    ∀ l, Machine.mulInner c e qs = some l → l = mulInner c e qs := by
  induction qs with
  | nil =>
    intro l h
    rw [Machine.mulInner] at h
    rw [mulInner]
    exact (Option.some.inj h).symm
  | cons m rest ih =>
    obtain ⟨qc, qe⟩ := m
    intro l h
    rw [Machine.mulInner] at h
    rw [mulInner]
    cases h1 : Machine.PolyMul c qc with
    | none => simp [h1] at h
    | some r =>
      cases h3 : Machine.expAdd e qe with
      | none => simp [h1, h3] at h
      | some s =>
        cases h2 : Machine.mulInner c e rest with
        | none => simp [h1, h2, h3] at h
        | some l' =>
          simp only [h1, h2, h3, Option.some.injEq] at h
          subst h
          have hs : s = e + qe := by
            unfold Machine.expAdd at h3
            split at h3
            · exact (Option.some.inj h3).symm
            · cases h3
          rw [H (Mono.mk qc qe) (List.mem_cons_self _ _) r h1, hs,
            ih (fun m hm => H m (List.mem_cons_of_mem _ hm)) l' h2]
          rfl

theorem machMulLoop_sound (qs : List (Mono R)) (ps : List (Mono R))
    (H : ∀ m ∈ ps, ∀ m' ∈ qs, ∀ r, Machine.PolyMul m.p m'.p = some r → r = PolyMul m.p m'.p) :
    ∀ l, Machine.mulLoop ps qs = some l → l = mulLoop ps qs := by
  induction ps with
  | nil =>
    intro l h
    rw [Machine.mulLoop] at h
    rw [mulLoop]
    exact (Option.some.inj h).symm
  | cons m rest ih =>
    obtain ⟨c, e⟩ := m
    intro l h
    rw [Machine.mulLoop] at h
    rw [mulLoop]
    cases h1 : Machine.mulInner c e qs with
    | none => simp [h1] at h
    | some row =>
      cases h2 : Machine.mulLoop rest qs with
      | none => simp [h1, h2] at h
      | some l' =>
        simp only [h1, h2, Option.some.injEq] at h
        subst h
        rw [machMulInner_sound c e qs
            (fun m' hm' => H (Mono.mk c e) (List.mem_cons_self _ _) m' hm') row h1,
          ih (fun m hm => H m (List.mem_cons_of_mem _ hm)) l' h2]

theorem machMul_sound_aux (n : Nat) :
    ∀ p q : Poly R, sizeOf p + sizeOf q ≤ n →
      ∀ r, Machine.PolyMul p q = some r → r = PolyMul p q := by
  induction n using Nat.strong_induction_on with
  | _ n ih =>
    intro p q hn r h
    cases p with
    | coeff a =>
      cases q with
      | coeff b =>
        rw [Machine.PolyMul] at h
        rw [PolyMul.eq_1]
        exact (Option.some.inj h).symm
      | arr qs =>
        rw [Machine.PolyMul] at h
        rw [PolyMul.eq_2, PolyMul.eq_3]
        rw [Machine.PolyMul] at h
        cases h1 : Machine.mulCoeffLoop qs (Poly.coeff a) with
        | none => simp [h1] at h
        | some l =>
          simp only [h1, Option.map_some', Option.some.injEq] at h
          subst h
          rw [machMulCoeffLoop_sound (Poly.coeff a) qs ?_ l h1]
          intro m hm r' hr'
          have hlt := sizeOf_p_lt_of_mem hm
          refine ih (sizeOf m.p + sizeOf (Poly.coeff a)) ?_ m.p (Poly.coeff a) le_rfl r' hr'
          simp only [Poly.arr.sizeOf_spec, Poly.coeff.sizeOf_spec] at hn hlt ⊢
          omega
    | arr ps =>
      cases q with
      | coeff b =>
        rw [Machine.PolyMul] at h
        rw [PolyMul.eq_3]
        cases h1 : Machine.mulCoeffLoop ps (Poly.coeff b) with
        | none => simp [h1] at h
        | some l =>
          simp only [h1, Option.map_some', Option.some.injEq] at h
          subst h
          rw [machMulCoeffLoop_sound (Poly.coeff b) ps ?_ l h1]
          intro m hm r' hr'
          have hlt := sizeOf_p_lt_of_mem hm
          refine ih (sizeOf m.p + sizeOf (Poly.coeff b)) ?_ m.p (Poly.coeff b) le_rfl r' hr'
          simp only [Poly.arr.sizeOf_spec, Poly.coeff.sizeOf_spec] at hn hlt ⊢
          omega
      | arr qs =>
        rw [Machine.PolyMul] at h
        rw [PolyMul.eq_4]
        cases h1 : Machine.mulLoop ps qs with
        | none => simp [h1] at h
        | some l =>
          simp only [h1, Option.map_some', Option.some.injEq] at h
          subst h
          rw [machMulLoop_sound qs ps ?_ l h1]
          intro m hm m' hm' r' hr'
          have hlt := sizeOf_p_lt_of_mem hm
          have hlt' := sizeOf_p_lt_of_mem hm'
          refine ih (sizeOf m.p + sizeOf m'.p) ?_ m.p m'.p le_rfl r' hr'
          simp only [Poly.arr.sizeOf_spec] at hn hlt hlt' ⊢
          omega

/-- Where the checked multiplication has a value, it is the exact product. -/
theorem machMul_sound (p q r : Poly R) (h : Machine.PolyMul p q = some r) :
    r = PolyMul p q :=
  machMul_sound_aux _ p q le_rfl r h

end MachineSound

/-! ## Bounds on the exponents, level by level -/

section ExpBounds
variable {R : Type} [CommRing R] [DecidableEq R]

theorem expsBelowMonos_iff (B : Nat → Nat) (ms : List (Mono R)) :
    expsBelowMonos B ms = true ↔
      ∀ m ∈ ms, m.exp ≤ B 0 ∧ expsBelow (fun k => B (k + 1)) m.p = true := by
  induction ms with
  | nil => simp [expsBelowMonos]
  | cons m rest ih =>
    cases m with
    | mk p e => simp [expsBelowMonos, ih, and_assoc]

theorem expsBelow_coeff (B : Nat → Nat) (c : R) : expsBelow B (Poly.coeff c) = true := by
  rw [expsBelow]

theorem expsBelow_arr (B : Nat → Nat) (ms : List (Mono R)) :
    expsBelow B (Poly.arr ms) = expsBelowMonos B ms := by
  rw [expsBelow]

theorem expsBelow_mono : ∀ (p : Poly R) (B B' : Nat → Nat), (∀ k, B k ≤ B' k) →
    expsBelow B p = true → expsBelow B' p = true := by
  intro p
  induction p using Poly.induct with
  | hc c => intro B B' _ _; exact expsBelow_coeff _ _
  | ha ms ih =>
    intro B B' hB h
    rw [expsBelow_arr, expsBelowMonos_iff] at h ⊢
    intro m hm
    exact ⟨le_trans (h m hm).1 (hB 0),
      ih m hm _ _ (fun k => hB (k + 1)) (h m hm).2⟩

theorem expsBelow_PolyOfArr (B : Nat → Nat) (l : List (Mono R))
    (h : expsBelowMonos B l = true) : expsBelow B (PolyOfArr l) = true := by
  cases l with
  | nil => exact expsBelow_coeff _ _
  | cons m rest => simpa [PolyOfArr, expsBelow_arr] using h

/-- The final collapse of `PolyAdd` keeps a bound on the exponents. -/
theorem expsBelow_PolyAdd_of_result (B : Nat → Nat) (p q : Poly R)
    (h : expsBelow B (if (PolyIsCoeff p || PolyIsCoeff q) = true then PolyAddCoeff p q
          else PolyAddNonCoeffs p q) = true) :
    expsBelow B (PolyAdd p q) = true := by
  rw [PolyAdd.eq_1]
  split
  · exact expsBelow_coeff _ _
  · exact h

theorem expsBelow_addLoop (B : Nat → Nat) (ps : List (Mono R)) :
    ∀ qs : List (Mono R),
      (∀ m ∈ ps, ∀ m' ∈ qs, expsBelow (fun k => B (k + 1)) (PolyAdd m.p m'.p) = true) →
      expsBelowMonos B ps = true → expsBelowMonos B qs = true →
      expsBelowMonos B (addLoop ps qs) = true := by
  induction ps with
  | nil => intro qs _ _ h; simpa using h
  | cons p ps ihp =>
    intro qs
    induction qs with
    | nil => intro _ h _; simpa using h
    | cons q qs ihq =>
      intro H h1 h2
      obtain ⟨pp, pe⟩ := p
      obtain ⟨qp, qe⟩ := q
      have h1' := (expsBelowMonos_iff B _).1 h1
      have h2' := (expsBelowMonos_iff B _).1 h2
      have hps : expsBelowMonos B ps = true :=
        (expsBelowMonos_iff B _).2 (fun m hm => h1' m (List.mem_cons_of_mem _ hm))
      have hqs : expsBelowMonos B qs = true :=
        (expsBelowMonos_iff B _).2 (fun m hm => h2' m (List.mem_cons_of_mem _ hm))
      have hp0 := h1' _ (List.mem_cons_self _ _)
      have hq0 := h2' _ (List.mem_cons_self _ _)
      simp only [Mono.p_mk, Mono.exp_mk] at hp0 hq0
      rw [addLoop.eq_4]
      by_cases hlt : pe < qe
      · rw [if_pos hlt, MonoClone_eq]
        have := ihp (Mono.mk qp qe :: qs)
          (fun m hm m' hm' => H m (List.mem_cons_of_mem _ hm) m' hm') hps h2
        rw [expsBelowMonos_iff] at this ⊢
        intro m hm
        rcases List.mem_cons.1 hm with rfl | hm
        · exact hp0
        · exact this m hm
      · rw [if_neg hlt]
        by_cases hgt : pe > qe
        · rw [if_pos hgt, MonoClone_eq]
          have := ihq (fun m hm m' hm' => H m hm m' (List.mem_cons_of_mem _ hm')) h1 hqs
          rw [expsBelowMonos_iff] at this ⊢
          intro m hm
          rcases List.mem_cons.1 hm with rfl | hm
          · exact hq0
          · exact this m hm
        · rw [if_neg hgt]
          have := ihp qs
            (fun m hm m' hm' => H m (List.mem_cons_of_mem _ hm) m' (List.mem_cons_of_mem _ hm'))
            hps hqs
          have hsum := H (Mono.mk pp pe) (List.mem_cons_self _ _) (Mono.mk qp qe)
            (List.mem_cons_self _ _)
          simp only [Mono.p_mk] at hsum
          cases hz : PolyIsZero (PolyAdd pp qp) with
          | true =>
            simp only [hz, Bool.not_true, Bool.false_eq_true, if_false]
            exact this
          | false =>
            simp only [hz, Bool.not_false, if_true, MonoFromPoly]
            rw [expsBelowMonos_iff] at this ⊢
            intro m hm
            rcases List.mem_cons.1 hm with rfl | hm
            · exact ⟨hp0.1, hsum⟩
            · exact this m hm

theorem expsBelow_PolyAddCoeff_arr_coeff (B : Nat → Nat) (ps : List (Mono R)) (b : R)
    (hp : expsBelowMonos B ps = true)
    (H : ∀ m ∈ ps, expsBelow (fun k => B (k + 1)) (PolyAdd m.p (Poly.coeff b)) = true) :
    expsBelow B (PolyAddCoeff (Poly.arr ps) (Poly.coeff b)) = true := by
  have hp' := (expsBelowMonos_iff B _).1 hp
  by_cases hb : b = 0
  · have : PolyAddCoeff (Poly.arr ps) (Poly.coeff b) = Poly.arr ps := by
      cases ps with
      | nil => rw [PolyAddCoeff.eq_4 _ _ (by simp)]; simp [hb]
      | cons m rest =>
        obtain ⟨p0, e0⟩ := m
        cases e0 with
        | zero => rw [PolyAddCoeff.eq_3]; simp [hb]
        | succ e => rw [PolyAddCoeff.eq_4 _ _ (by simp)]; simp [hb]
    rw [this, expsBelow_arr]; exact hp
  · cases ps with
    | nil =>
      rw [PolyAddCoeff.eq_4 _ _ (by simp)]
      simp only [PolyIsZero_coeff, hb, decide_False, Bool.false_eq_true, if_false,
        cloneMonos_eq, MonoFromPoly, expsBelow_arr, expsBelowMonos_iff]
      intro m hm
      rcases List.mem_cons.1 hm with rfl | hm
      · exact ⟨Nat.zero_le _, expsBelow_coeff _ _⟩
      · simp at hm
    | cons m rest =>
      obtain ⟨p0, e0⟩ := m
      have hrest : expsBelowMonos B rest = true :=
        (expsBelowMonos_iff B _).2 (fun m hm => hp' m (List.mem_cons_of_mem _ hm))
      cases e0 with
      | zero =>
        rw [PolyAddCoeff.eq_3]
        simp only [PolyIsZero_coeff, hb, decide_False, Bool.false_eq_true, if_false,
          cloneMonos_eq]
        have hsum := H (Mono.mk p0 0) (List.mem_cons_self _ _)
        simp only [Mono.p_mk] at hsum
        cases hz : PolyIsZero (PolyAdd p0 (Poly.coeff b)) with
        | true =>
          simp only [if_true]
          exact expsBelow_PolyOfArr B rest hrest
        | false =>
          simp only [Bool.false_eq_true, if_false, expsBelow_arr, expsBelowMonos_iff]
          intro m hm
          rcases List.mem_cons.1 hm with rfl | hm
          · exact ⟨Nat.zero_le _, hsum⟩
          · exact hp' m (List.mem_cons_of_mem _ hm)
      | succ e =>
        rw [PolyAddCoeff.eq_4 _ _ (by simp)]
        simp only [PolyIsZero_coeff, hb, decide_False, Bool.false_eq_true, if_false,
          cloneMonos_eq, MonoFromPoly, expsBelow_arr, expsBelowMonos_iff]
        intro m hm
        rcases List.mem_cons.1 hm with rfl | hm
        · exact ⟨Nat.zero_le _, expsBelow_coeff _ _⟩
        · exact hp' m hm

theorem expsBelow_PolyAdd_aux (n : Nat) :
    ∀ (p q : Poly R) (B : Nat → Nat), sizeOf p + sizeOf q ≤ n →
      expsBelow B p = true → expsBelow B q = true → expsBelow B (PolyAdd p q) = true := by
  induction n using Nat.strong_induction_on with
  | _ n ih =>
    intro p q B hn hp hq
    apply expsBelow_PolyAdd_of_result
    cases p with
    | coeff a =>
      cases q with
      | coeff b => simp [PolyAddCoeff, PolyFromCoeff, expsBelow_coeff]
      | arr qs =>
        simp only [PolyIsCoeff_coeff, Bool.true_or, if_true, PolyAddCoeff.eq_2]
        rw [expsBelow_arr] at hq
        apply expsBelow_PolyAddCoeff_arr_coeff B qs a hq
        intro m hm
        have hlt := sizeOf_p_lt_of_mem hm
        refine ih (sizeOf m.p + sizeOf (Poly.coeff a)) ?_ m.p (Poly.coeff a) _ le_rfl
          ((expsBelowMonos_iff B _).1 hq m hm).2 (expsBelow_coeff _ _)
        omega
    | arr ps =>
      cases q with
      | coeff b =>
        simp only [PolyIsCoeff_coeff, Bool.or_true, if_true]
        rw [expsBelow_arr] at hp
        apply expsBelow_PolyAddCoeff_arr_coeff B ps b hp
        intro m hm
        have hlt := sizeOf_p_lt_of_mem hm
        refine ih (sizeOf m.p + sizeOf (Poly.coeff b)) ?_ m.p (Poly.coeff b) _ le_rfl
          ((expsBelowMonos_iff B _).1 hp m hm).2 (expsBelow_coeff _ _)
        omega
      | arr qs =>
        simp only [PolyIsCoeff_arr, Bool.or_false, Bool.false_eq_true, if_false,
          PolyAddNonCoeffs.eq_1]
        rw [expsBelow_arr] at hp hq
        apply expsBelow_PolyOfArr
        apply expsBelow_addLoop B ps qs _ hp hq
        intro m hm m' hm'
        have h1 := sizeOf_p_lt_of_mem hm
        have h2 := sizeOf_p_lt_of_mem hm'
        refine ih (sizeOf m.p + sizeOf m'.p) ?_ m.p m'.p _ le_rfl
          ((expsBelowMonos_iff B _).1 hp m hm).2 ((expsBelowMonos_iff B _).1 hq m' hm').2
        omega

/-- Addition forms no new exponent: a bound on the exponents of both operands is a bound
on those of the sum. -/
theorem expsBelow_PolyAdd (B : Nat → Nat) (p q : Poly R) (hp : expsBelow B p = true)
    (hq : expsBelow B q = true) : expsBelow B (PolyAdd p q) = true :=
  expsBelow_PolyAdd_aux _ p q B le_rfl hp hq

theorem expsBelow_ownLoop (B : Nat → Nat) (rest : List (Mono R)) :
    ∀ (prevExp : Nat) (polySum : Poly R), prevExp ≤ B 0 →
      expsBelow (fun k => B (k + 1)) polySum = true → expsBelowMonos B rest = true →
      expsBelowMonos B (ownLoop prevExp polySum rest) = true := by
  induction rest with
  | nil =>
    intro prevExp polySum h1 h2 _
    rw [ownLoop]
    split
    · rw [expsBelowMonos_iff]
      intro m hm
      simp only [List.mem_singleton] at hm
      subst hm
      exact ⟨h1, h2⟩
    · rfl
  | cons m rest ih =>
    obtain ⟨p, e⟩ := m
    intro prevExp polySum h1 h2 h3
    have h3' := (expsBelowMonos_iff B _).1 h3
    have hm0 := h3' _ (List.mem_cons_self _ _)
    simp only [Mono.p_mk, Mono.exp_mk] at hm0
    have hrest : expsBelowMonos B rest = true :=
      (expsBelowMonos_iff B _).2 (fun m hm => h3' m (List.mem_cons_of_mem _ hm))
    rw [ownLoop]
    split
    · exact ih e (PolyAdd polySum p) hm0.1 (expsBelow_PolyAdd _ _ _ h2 hm0.2) hrest
    · have hr := ih e p hm0.1 hm0.2 hrest
      rw [expsBelowMonos_iff] at hr ⊢
      intro m hm
      rcases List.mem_append.1 hm with hm | hm
      · split at hm
        · simp only [List.mem_singleton] at hm
          subst hm
          exact ⟨h1, h2⟩
        · simp at hm
      · exact hr m hm

theorem expsBelow_ownSorted (B : Nat → Nat) (ms : List (Mono R))
    (h : expsBelowMonos B ms = true) : expsBelow B (ownSorted ms) = true := by
  cases ms with
  | nil => exact expsBelow_coeff _ _
  | cons m rest =>
    obtain ⟨p, e⟩ := m
    have h' := (expsBelowMonos_iff B _).1 h
    have hm0 := h' _ (List.mem_cons_self _ _)
    simp only [Mono.p_mk, Mono.exp_mk] at hm0
    have hl := expsBelow_ownLoop B rest e p hm0.1 hm0.2
      ((expsBelowMonos_iff B _).2 (fun m hm => h' m (List.mem_cons_of_mem _ hm)))
    rw [ownSorted]
    split
    · exact expsBelow_coeff _ _
    · exact expsBelow_coeff _ _
    · rename_i heq
      rw [heq] at hl
      rw [expsBelow_arr]; exact hl

/-- The normaliser forms no new exponent. -/
theorem expsBelow_PolyOwnMonos (B : Nat → Nat) (ms : List (Mono R))
    (h : ∀ m ∈ ms, m.exp ≤ B 0 ∧ expsBelow (fun k => B (k + 1)) m.p = true) :
    expsBelow B (PolyOwnMonos ms) = true := by
  rw [PolyOwnMonos_eq]
  apply expsBelow_ownSorted
  rw [expsBelowMonos_iff]
  intro m hm
  exact h m ((sortMonos_perm ms).mem_iff.1 hm)

end ExpBounds

/-! ## When the checked multiplication has a value -/

section MachineDefined
variable {R : Type} [CommRing R] [DecidableEq R]

theorem machMulCoeffLoop_defined (q : Poly R) (ps : List (Mono R))
    (H : ∀ m ∈ ps, Machine.PolyMul m.p q = some (PolyMul m.p q)) :
    Machine.mulCoeffLoop ps q = some (mulCoeffLoop ps q) := by
  induction ps with
  | nil => rw [Machine.mulCoeffLoop, mulCoeffLoop]
  | cons m rest ih =>
    obtain ⟨c, e⟩ := m
    have h1 := H (Mono.mk c e) (List.mem_cons_self _ _)
    simp only [Mono.p_mk] at h1
    rw [Machine.mulCoeffLoop, mulCoeffLoop, h1,
      ih (fun m hm => H m (List.mem_cons_of_mem _ hm))]

theorem machMulInner_defined (c : Poly R) (e : Nat) (qs : List (Mono R))
    (H : ∀ m ∈ qs, Machine.PolyMul c m.p = some (PolyMul c m.p) ∧
      ((e + m.exp : Nat) : Int) ≤ POLY_EXP_T_MAX) :
    Machine.mulInner c e qs = some (mulInner c e qs) := by
  induction qs with
  | nil => rw [Machine.mulInner, mulInner]
  | cons m rest ih =>
    obtain ⟨qc, qe⟩ := m
    have h1 := H (Mono.mk qc qe) (List.mem_cons_self _ _)
    simp only [Mono.p_mk, Mono.exp_mk] at h1
    have h2 : Machine.expAdd e qe = some (e + qe) := by
      unfold Machine.expAdd
      rw [if_pos h1.2]
    rw [Machine.mulInner, mulInner, h1.1, h2,
      ih (fun m hm => H m (List.mem_cons_of_mem _ hm))]

theorem machMulLoop_defined (qs : List (Mono R)) (ps : List (Mono R))
    (H : ∀ m ∈ ps, ∀ m' ∈ qs, Machine.PolyMul m.p m'.p = some (PolyMul m.p m'.p) ∧
      ((m.exp + m'.exp : Nat) : Int) ≤ POLY_EXP_T_MAX) :
    Machine.mulLoop ps qs = some (mulLoop ps qs) := by
  induction ps with
  | nil => rw [Machine.mulLoop, mulLoop]
  | cons m rest ih =>
    obtain ⟨c, e⟩ := m
    rw [Machine.mulLoop, mulLoop,
      machMulInner_defined c e qs (fun m' hm' => H (Mono.mk c e) (List.mem_cons_self _ _) m' hm'),
      ih (fun m hm => H m (List.mem_cons_of_mem _ hm))]

/-- The product with a Constant on the right forms no exponent sum: it always has a
value. -/
theorem machMul_coeff_right (c : R) : ∀ p : Poly R,
    Machine.PolyMul p (Poly.coeff c) = some (PolyMul p (Poly.coeff c)) := by
  intro p
  induction p using Poly.induct with
  | hc a => rw [Machine.PolyMul, PolyMul.eq_1]
  | ha ms ih =>
    rw [Machine.PolyMul, PolyMul.eq_3, machMulCoeffLoop_defined _ ms ih]
    rfl

/-- The product with a Constant on the left always has a value. -/
theorem machMul_coeff_left (c : R) (p : Poly R) :
    Machine.PolyMul (Poly.coeff c) p = some (PolyMul (Poly.coeff c) p) := by
  cases p with
  | coeff a => rw [Machine.PolyMul, PolyMul.eq_1]
  | arr ms => rw [Machine.PolyMul, PolyMul.eq_2, machMul_coeff_right]

theorem expsBelow_PolyMul_aux (n : Nat) :
    ∀ (p q : Poly R) (B C D : Nat → Nat), sizeOf p + sizeOf q ≤ n →
      expsBelow B p = true → expsBelow C q = true → (∀ k, B k + C k ≤ D k) →
      expsBelow D (PolyMul p q) = true := by
  induction n using Nat.strong_induction_on with
  | _ n ih =>
    intro p q B C D hn hp hq hD
    cases p with
    | coeff a =>
      cases q with
      | coeff b => rw [PolyMul.eq_1]; exact expsBelow_coeff _ _
      | arr qs =>
        rw [PolyMul.eq_2, PolyMul.eq_3, mulCoeffLoop_eq_map]
        rw [expsBelow_arr] at hq
        apply expsBelow_PolyOwnMonos
        intro m hm
        obtain ⟨m', hm', rfl⟩ := List.mem_map.1 hm
        have hb := (expsBelowMonos_iff C _).1 hq m' hm'
        have hlt := sizeOf_p_lt_of_mem hm'
        refine ⟨le_trans hb.1 (le_trans (Nat.le_add_left _ _) (hD 0)), ?_⟩
        refine ih (sizeOf m'.p + sizeOf (Poly.coeff a)) ?_ m'.p (Poly.coeff a)
          (fun k => C (k + 1)) (fun k => B (k + 1)) _ le_rfl hb.2 (expsBelow_coeff _ _)
          (fun k => by rw [Nat.add_comm]; exact hD (k + 1))
        simp only [Poly.arr.sizeOf_spec, Poly.coeff.sizeOf_spec] at hn hlt ⊢
        omega
    | arr ps =>
      cases q with
      | coeff b =>
        rw [PolyMul.eq_3, mulCoeffLoop_eq_map]
        rw [expsBelow_arr] at hp
        apply expsBelow_PolyOwnMonos
        intro m hm
        obtain ⟨m', hm', rfl⟩ := List.mem_map.1 hm
        have hb := (expsBelowMonos_iff B _).1 hp m' hm'
        have hlt := sizeOf_p_lt_of_mem hm'
        refine ⟨le_trans hb.1 (le_trans (Nat.le_add_right _ _) (hD 0)), ?_⟩
        refine ih (sizeOf m'.p + sizeOf (Poly.coeff b)) ?_ m'.p (Poly.coeff b)
          (fun k => B (k + 1)) (fun k => C (k + 1)) _ le_rfl hb.2 (expsBelow_coeff _ _)
          (fun k => hD (k + 1))
        simp only [Poly.arr.sizeOf_spec, Poly.coeff.sizeOf_spec] at hn hlt ⊢
        omega
      | arr qs =>
        rw [PolyMul.eq_4, mulLoop_eq_flatMap]
        rw [expsBelow_arr] at hp hq
        apply expsBelow_PolyOwnMonos
        intro m hm
        obtain ⟨pm, hpm, hm⟩ := List.mem_flatMap.1 hm
        obtain ⟨qm, hqm, rfl⟩ := List.mem_map.1 hm
        have hb := (expsBelowMonos_iff B _).1 hp pm hpm
        have hc := (expsBelowMonos_iff C _).1 hq qm hqm
        have h1 := sizeOf_p_lt_of_mem hpm
        have h2 := sizeOf_p_lt_of_mem hqm
        refine ⟨le_trans (Nat.add_le_add hb.1 hc.1) (hD 0), ?_⟩
        refine ih (sizeOf pm.p + sizeOf qm.p) ?_ pm.p qm.p
          (fun k => B (k + 1)) (fun k => C (k + 1)) _ le_rfl hb.2 hc.2 (fun k => hD (k + 1))
        simp only [Poly.arr.sizeOf_spec] at hn h1 h2 ⊢
        omega

/-- The exponents of a product are bounded, level by level, by the sums of the bounds of
the factors. -/
theorem expsBelow_PolyMul (p q : Poly R) (B C D : Nat → Nat) (hp : expsBelow B p = true)
    (hq : expsBelow C q = true) (hD : ∀ k, B k + C k ≤ D k) :
    expsBelow D (PolyMul p q) = true :=
  expsBelow_PolyMul_aux _ p q B C D le_rfl hp hq hD

theorem machMul_defined_aux (n : Nat) :
    ∀ (p q : Poly R) (B C : Nat → Nat), sizeOf p + sizeOf q ≤ n →
      expsBelow B p = true → expsBelow C q = true →
      (∀ k, ((B k + C k : Nat) : Int) ≤ POLY_EXP_T_MAX) →
      Machine.PolyMul p q = some (PolyMul p q) := by
  induction n using Nat.strong_induction_on with
  | _ n ih =>
    intro p q B C hn hp hq hD
    cases p with
    | coeff a => exact machMul_coeff_left a q
    | arr ps =>
      cases q with
      | coeff b => exact machMul_coeff_right b _
      | arr qs =>
        rw [expsBelow_arr] at hp hq
        rw [Machine.PolyMul, PolyMul.eq_4, machMulLoop_defined qs ps]
        · rfl
        · intro pm hpm qm hqm
          have hb := (expsBelowMonos_iff B _).1 hp pm hpm
          have hc := (expsBelowMonos_iff C _).1 hq qm hqm
          have h1 := sizeOf_p_lt_of_mem hpm
          have h2 := sizeOf_p_lt_of_mem hqm
          refine ⟨?_, ?_⟩
          · refine ih (sizeOf pm.p + sizeOf qm.p) ?_ pm.p qm.p
              (fun k => B (k + 1)) (fun k => C (k + 1)) le_rfl hb.2 hc.2 (fun k => hD (k + 1))
            simp only [Poly.arr.sizeOf_spec] at hn h1 h2 ⊢
            omega
          · have := hD 0
            have h3 : pm.exp + qm.exp ≤ B 0 + C 0 := Nat.add_le_add hb.1 hc.1
            have h4 : ((pm.exp + qm.exp : Nat) : Int) ≤ ((B 0 + C 0 : Nat) : Int) := by
              exact_mod_cast h3
            exact le_trans h4 this

/-- The checked multiplication has a value, the exact product, whenever at every nesting
level a bound on the exponents of `p` plus a bound on those of `q` is at most
`POLY_EXP_T_MAX`. -/
theorem machMul_defined (p q : Poly R) (B C : Nat → Nat) (hp : expsBelow B p = true)
    (hq : expsBelow C q = true) (hD : ∀ k, ((B k + C k : Nat) : Int) ≤ POLY_EXP_T_MAX) :
    Machine.PolyMul p q = some (PolyMul p q) :=
  machMul_defined_aux _ p q B C le_rfl hp hq hD

end MachineDefined

/-! ## The checked power -/

section MachineExp
variable {R : Type} [CommRing R] [DecidableEq R]

theorem mulOpt_eq_some {a b : Option (Poly R)} {x : Poly R} (h : Machine.mulOpt a b = some x) :
    ∃ y z, a = some y ∧ b = some z ∧ Machine.PolyMul y z = some x := by
  cases a with
  | none => simp [Machine.mulOpt] at h
  | some y =>
    cases b with
    | none => simp [Machine.mulOpt] at h
    | some z => exact ⟨y, z, rfl, rfl, h⟩

theorem mulOpt_some_some (y z : Poly R) :
    Machine.mulOpt (some y) (some z) = Machine.PolyMul y z := rfl

theorem machExpLoop_sound (e : Nat) : ∀ (ro mo : Option (Poly R)) (ri mi : Poly R),
    (∀ x, ro = some x → x = ri) → (∀ x, mo = some x → x = mi) →
    ∀ r, Machine.polyExpLoop ro mo e = some r → r = polyExpLoop ri mi e := by
  induction e using Nat.strong_induction_on with
  | _ e ih =>
    intro ro mo ri mi hro hmo r h
    rw [Machine.polyExpLoop] at h
    rw [polyExpLoop]
    by_cases he : e = 0
    · rw [if_pos he] at h ⊢
      exact hro r h
    · rw [if_neg he] at h ⊢
      refine ih (e / 2) (by omega) _ _ _ _ ?_ ?_ r h
      · intro x hx
        by_cases hodd : e % 2 = 1
        · rw [if_pos hodd] at hx ⊢
          obtain ⟨y, z, hy, hz, hyz⟩ := mulOpt_eq_some hx
          rw [← hro y hy, ← hmo z hz]
          exact machMul_sound y z x hyz
        · rw [if_neg hodd] at hx ⊢
          exact hro x hx
      · intro x hx
        obtain ⟨y, z, hy, hz, hyz⟩ := mulOpt_eq_some hx
        have := machMul_sound y z x hyz
        rw [hmo y hy, hmo z hz] at this
        exact this

/-- Where the checked power has a value, it is the exact power. -/
theorem machExp_sound (p : Poly R) (e : Nat) (r : Poly R) (h : Machine.PolyExp p e = some r) :
    r = PolyExp p e := by
  rw [Machine.PolyExp] at h
  rw [PolyExp]
  exact machExpLoop_sound e _ _ _ _ (fun x hx => (Option.some.inj hx).symm)
    (fun x hx => (Option.some.inj hx).symm) r h

theorem half_double (e b : Nat) : (e / 2) * (b + b) + (e % 2) * b = e * b := by
  have h := Nat.div_add_mod e 2
  calc (e / 2) * (b + b) + (e % 2) * b = (2 * (e / 2) + e % 2) * b := by ring
    _ = e * b := by rw [h]

theorem expsBelow_polyExpLoop (e : Nat) : ∀ (result multiplier : Poly R) (Br Bm D : Nat → Nat),
    expsBelow Br result = true → expsBelow Bm multiplier = true →
    (∀ k, Br k + e * Bm k ≤ D k) →
    expsBelow D (polyExpLoop result multiplier e) = true := by
  induction e using Nat.strong_induction_on with
  | _ e ih =>
    intro result multiplier Br Bm D hr hm hD
    rw [polyExpLoop]
    by_cases he : e = 0
    · rw [if_pos he]
      exact expsBelow_mono _ Br D (fun k => le_trans (Nat.le_add_right _ _) (hD k)) hr
    · rw [if_neg he]
      have hm2 : expsBelow (fun k => Bm k + Bm k) (PolyMul multiplier multiplier) = true :=
        expsBelow_PolyMul _ _ Bm Bm _ hm hm (fun _ => le_rfl)
      by_cases hodd : e % 2 = 1
      · rw [if_pos hodd]
        refine ih (e / 2) (by omega) _ _ (fun k => Br k + Bm k) (fun k => Bm k + Bm k) D
          (expsBelow_PolyMul _ _ Br Bm _ hr hm (fun _ => le_rfl)) hm2 ?_
        intro k
        have h1 := half_double e (Bm k)
        rw [hodd] at h1
        have h2 := hD k
        simp only [] at h1 ⊢
        linarith
      · rw [if_neg hodd]
        refine ih (e / 2) (by omega) _ _ Br (fun k => Bm k + Bm k) D hr hm2 ?_
        intro k
        have h1 := half_double e (Bm k)
        have h0 : e % 2 = 0 := by omega
        rw [h0] at h1
        have h2 := hD k
        simp only [] at h1 ⊢
        linarith

/-- The exponents of a power are bounded, level by level, by `e` times the bounds of the
base. -/
theorem expsBelow_PolyExp (p : Poly R) (e : Nat) (B D : Nat → Nat)
    (hp : expsBelow B p = true) (hD : ∀ k, e * B k ≤ D k) :
    expsBelow D (PolyExp p e) = true := by
  rw [PolyExp, PolyClone_eq]
  exact expsBelow_polyExpLoop e _ _ (fun _ => 0) B D (expsBelow_coeff _ _) hp
    (fun k => by simpa using hD k)

theorem machExpLoop_defined (e : Nat) : ∀ (result multiplier : Poly R) (Br Bm : Nat → Nat),
    expsBelow Br result = true → expsBelow Bm multiplier = true →
    (∀ k, ((Br k + 2 * e * Bm k : Nat) : Int) ≤ POLY_EXP_T_MAX) →
    Machine.polyExpLoop (some result) (some multiplier) e =
      some (polyExpLoop result multiplier e) := by
  induction e using Nat.strong_induction_on with
  | _ e ih =>
    intro result multiplier Br Bm hr hm hD
    rw [Machine.polyExpLoop, polyExpLoop]
    by_cases he : e = 0
    · rw [if_pos he, if_pos he]
    · rw [if_neg he, if_neg he]
      have hpos : 1 ≤ e := by omega
      have hle : ∀ k, Bm k ≤ e * Bm k := fun k => Nat.le_mul_of_pos_left _ (by omega)
      have hmm : Machine.mulOpt (some multiplier) (some multiplier) =
          some (PolyMul multiplier multiplier) := by
        rw [mulOpt_some_some]
        refine machMul_defined _ _ Bm Bm hm hm (fun k => ?_)
        have h1 := hD k
        have h2 := hle k
        have h3 : Bm k + Bm k ≤ Br k + 2 * e * Bm k := by nlinarith
        have h4 : ((Bm k + Bm k : Nat) : Int) ≤ ((Br k + 2 * e * Bm k : Nat) : Int) := by
          exact_mod_cast h3
        exact le_trans h4 h1
      have hm2 : expsBelow (fun k => Bm k + Bm k) (PolyMul multiplier multiplier) = true :=
        expsBelow_PolyMul _ _ Bm Bm _ hm hm (fun _ => le_rfl)
      rw [hmm]
      by_cases hodd : e % 2 = 1
      · rw [if_pos hodd, if_pos hodd]
        have hrm : Machine.mulOpt (some result) (some multiplier) =
            some (PolyMul result multiplier) := by
          rw [mulOpt_some_some]
          refine machMul_defined _ _ Br Bm hr hm (fun k => ?_)
          have h1 := hD k
          have h2 := hle k
          have h3 : Br k + Bm k ≤ Br k + 2 * e * Bm k := by nlinarith
          have h4 : ((Br k + Bm k : Nat) : Int) ≤ ((Br k + 2 * e * Bm k : Nat) : Int) := by
            exact_mod_cast h3
          exact le_trans h4 h1
        rw [hrm]
        refine ih (e / 2) (by omega) _ _ (fun k => Br k + Bm k) (fun k => Bm k + Bm k)
          (expsBelow_PolyMul _ _ Br Bm _ hr hm (fun _ => le_rfl)) hm2 ?_
        intro k
        have h1 := half_double e (Bm k)
        rw [hodd] at h1
        have h2 := hD k
        have h3 : Br k + Bm k + 2 * (e / 2) * (Bm k + Bm k) ≤ Br k + 2 * e * Bm k := by
          nlinarith
        have h4 : ((Br k + Bm k + 2 * (e / 2) * (Bm k + Bm k) : Nat) : Int) ≤
            ((Br k + 2 * e * Bm k : Nat) : Int) := by exact_mod_cast h3
        exact le_trans h4 h2
      · rw [if_neg hodd, if_neg hodd]
        refine ih (e / 2) (by omega) _ _ Br (fun k => Bm k + Bm k) hr hm2 ?_
        intro k
        have h1 := half_double e (Bm k)
        have h0 : e % 2 = 0 := by omega
        rw [h0] at h1
        have h2 := hD k
        have h3 : Br k + 2 * (e / 2) * (Bm k + Bm k) ≤ Br k + 2 * e * Bm k := by
          nlinarith
        have h4 : ((Br k + 2 * (e / 2) * (Bm k + Bm k) : Nat) : Int) ≤
            ((Br k + 2 * e * Bm k : Nat) : Int) := by exact_mod_cast h3
        exact le_trans h4 h2

/-- The checked power has a value, the exact power, whenever at every nesting level
`2 * e` times a bound on the exponents of `p` is at most `POLY_EXP_T_MAX`: then no product
that `PolyExp` forms, the last square included, overflows. -/
theorem machExp_defined (p : Poly R) (e : Nat) (B : Nat → Nat) (hp : expsBelow B p = true)
    (hD : ∀ k, ((2 * e * B k : Nat) : Int) ≤ POLY_EXP_T_MAX) :
    Machine.PolyExp p e = some (PolyExp p e) := by
  rw [Machine.PolyExp, PolyExp, PolyClone_eq]
  exact machExpLoop_defined e _ _ (fun _ => 0) B (expsBelow_coeff _ _) hp
    (fun k => by simpa using hD k)

theorem machExp_zero (p : Poly R) : Machine.PolyExp p 0 = some (Poly.coeff 1) := by
  rw [Machine.PolyExp, Machine.polyExpLoop]; rfl

end MachineExp

/-! ## The checked composition -/

section MachineCompose
variable {R : Type} [CommRing R] [DecidableEq R]

theorem machComposeLoop_sound (ms : List (Mono R))
    (H : ∀ m ∈ ms, ∀ (k : Nat) (q : Nat → Poly R) (r : Poly R),
      Machine.PolyCompose m.p k q = some r → r = PolyCompose m.p k q)
    (k : Nat) (q : Nat → Poly R) :
    ∀ result r : Poly R, Machine.composeLoop ms k q result = some r →
      r = composeLoop ms k q result := by
  induction ms with
  | nil =>
    intro result r h
    rw [Machine.composeLoop] at h
    rw [composeLoop]
    exact (Option.some.inj h).symm
  | cons m rest ih =>
    obtain ⟨c, e⟩ := m
    intro result r h
    rw [Machine.composeLoop] at h
    rw [composeLoop]
    by_cases hbr : e ≠ 0 ∧ k = 0
    · rw [if_pos hbr] at h ⊢
      exact (Option.some.inj h).symm
    · rw [if_neg hbr] at h ⊢
      cases hc : Machine.PolyCompose c (if k = 0 then 0 else k - 1) (fun i => q (i + 1)) with
      | none => simp [hc] at h
      | some compPoly =>
        cases hx : (if e = 0 then some (PolyFromCoeff 1) else Machine.PolyExp (q 0) e) with
        | none => simp [hc, hx] at h
        | some expPoly =>
          cases hm : Machine.PolyMul compPoly expPoly with
          | none => simp [hc, hx, hm] at h
          | some mulPoly =>
            simp only [hc, hx, hm] at h
            have h1 := H (Mono.mk c e) (List.mem_cons_self _ _) _ _ compPoly hc
            simp only [Mono.p_mk] at h1
            have h2 : expPoly = (if e = 0 then PolyFromCoeff 1 else PolyExp (q 0) e) := by
              by_cases he : e = 0
              · rw [if_pos he] at hx ⊢
                exact (Option.some.inj hx).symm
              · rw [if_neg he] at hx ⊢
                exact machExp_sound _ _ _ hx
            have h3 := machMul_sound _ _ _ hm
            have := ih (fun m hm => H m (List.mem_cons_of_mem _ hm)) _ r h
            rw [this, h3, h1, h2]

/-- Where the checked composition has a value, it is the exact composition. -/
theorem machCompose_sound : ∀ (p : Poly R) (k : Nat) (q : Nat → Poly R) (r : Poly R),
    Machine.PolyCompose p k q = some r → r = PolyCompose p k q := by
  intro p
  induction p using Poly.induct with
  | hc c =>
    intro k q r h
    rw [Machine.PolyCompose] at h
    rw [PolyCompose]
    exact (Option.some.inj h).symm
  | ha ms ih =>
    intro k q r h
    rw [Machine.PolyCompose] at h
    rw [PolyCompose]
    exact machComposeLoop_sound ms ih k q _ r h

theorem composeBound_step (B : Nat → Nat) (C : Nat → Nat → Nat) (k e : Nat) (he : e ≤ B 0)
    (hbr : ¬ (e ≠ 0 ∧ k = 0)) (j : Nat) :
    (Finset.range (if k = 0 then 0 else k - 1)).sum (fun i => B (i + 1) * C (i + 1) j) +
        (if e = 0 then 0 else e * C 0 j) ≤
      (Finset.range k).sum (fun i => B i * C i j) := by
  cases k with
  | zero =>
    have : e = 0 := by
      by_contra h
      exact hbr ⟨h, rfl⟩
    simp [this]
  | succ k0 =>
    simp only [Nat.succ_ne_zero, if_false, Nat.add_sub_cancel]
    rw [Finset.sum_range_succ']
    have h1 : (if e = 0 then 0 else e * C 0 j) ≤ B 0 * C 0 j := by
      split
      · exact Nat.zero_le _
      · exact Nat.mul_le_mul_right _ he
    omega

theorem expsBelow_composeLoop (ms : List (Mono R)) (k : Nat) (q : Nat → Poly R)
    (B : Nat → Nat) (C : Nat → Nat → Nat) (D : Nat → Nat)
    (hms : expsBelowMonos B ms = true) (hq : ∀ i, i < k → expsBelow (C i) (q i) = true)
    (hD : ∀ j, (Finset.range k).sum (fun i => B i * C i j) ≤ D j)
    (H : ∀ m ∈ ms, ∀ (B' : Nat → Nat) (k' : Nat) (q' : Nat → Poly R) (C' : Nat → Nat → Nat)
      (D' : Nat → Nat), expsBelow B' m.p = true →
      (∀ i, i < k' → expsBelow (C' i) (q' i) = true) →
      (∀ j, (Finset.range k').sum (fun i => B' i * C' i j) ≤ D' j) →
      expsBelow D' (PolyCompose m.p k' q') = true) :
    ∀ result : Poly R, expsBelow D result = true →
      expsBelow D (composeLoop ms k q result) = true := by
  induction ms with
  | nil => intro result hr; exact hr
  | cons m rest ih =>
    intro result hr
    obtain ⟨c, e⟩ := m
    have hms' := (expsBelowMonos_iff B _).1 hms
    have hm0 := hms' _ (List.mem_cons_self _ _)
    simp only [Mono.p_mk, Mono.exp_mk] at hm0
    rw [composeLoop]
    by_cases hbr : e ≠ 0 ∧ k = 0
    · rw [if_pos hbr]; exact hr
    · rw [if_neg hbr]
      apply ih ((expsBelowMonos_iff B _).2 (fun m hm => hms' m (List.mem_cons_of_mem _ hm)))
        (fun m hm => H m (List.mem_cons_of_mem _ hm))
      apply expsBelow_PolyAdd _ _ _ hr
      refine expsBelow_PolyMul _ _
        (fun j => (Finset.range (if k = 0 then 0 else k - 1)).sum
          (fun i => B (i + 1) * C (i + 1) j))
        (fun j => if e = 0 then 0 else e * C 0 j) D ?_ ?_
        (fun j => le_trans (composeBound_step B C k e hm0.1 hbr j) (hD j))
      · refine H (Mono.mk c e) (List.mem_cons_self _ _) (fun i => B (i + 1)) _ _
          (fun i => C (i + 1)) _ hm0.2 ?_ (fun _ => le_rfl)
        intro i hi
        by_cases hk : k = 0
        · simp [hk] at hi
        · rw [if_neg hk] at hi
          exact hq (i + 1) (by omega)
      · by_cases he : e = 0
        · rw [if_pos he]; exact expsBelow_coeff _ _
        · rw [if_neg he]
          have hk : 0 < k := by
            rcases Nat.eq_zero_or_pos k with h | h
            · exact absurd ⟨he, h⟩ hbr
            · exact h
          exact expsBelow_PolyExp _ _ (C 0) _ (hq 0 hk) (fun j => by simp [he])

/-- The exponents of a composition at level `j` are bounded by the sum over `i < k` of the
bound of `p` at level `i` times the bound of `q[i]` at level `j`. -/
theorem expsBelow_PolyCompose : ∀ (p : Poly R) (B : Nat → Nat) (k : Nat) (q : Nat → Poly R)
    (C : Nat → Nat → Nat) (D : Nat → Nat), expsBelow B p = true →
    (∀ i, i < k → expsBelow (C i) (q i) = true) →
    (∀ j, (Finset.range k).sum (fun i => B i * C i j) ≤ D j) →
    expsBelow D (PolyCompose p k q) = true := by
  intro p
  induction p using Poly.induct with
  | hc c => intro B k q C D _ _ _; rw [PolyCompose]; exact expsBelow_coeff _ _
  | ha ms ih =>
    intro B k q C D hp hq hD
    rw [expsBelow_arr] at hp
    rw [PolyCompose]
    exact expsBelow_composeLoop ms k q B C D hp hq hD ih _ (expsBelow_coeff _ _)

theorem machComposeLoop_defined (ms : List (Mono R)) (k : Nat) (q : Nat → Poly R)
    (B : Nat → Nat) (C : Nat → Nat → Nat)
    (hms : expsBelowMonos B ms = true) (hq : ∀ i, i < k → expsBelow (C i) (q i) = true)
    (hD : ∀ j, ((2 * (Finset.range k).sum (fun i => B i * C i j) : Nat) : Int) ≤
      POLY_EXP_T_MAX)
    (H : ∀ m ∈ ms, ∀ (B' : Nat → Nat) (k' : Nat) (q' : Nat → Poly R) (C' : Nat → Nat → Nat),
      expsBelow B' m.p = true →
      (∀ i, i < k' → expsBelow (C' i) (q' i) = true) →
      (∀ j, ((2 * (Finset.range k').sum (fun i => B' i * C' i j) : Nat) : Int) ≤
        POLY_EXP_T_MAX) →
      Machine.PolyCompose m.p k' q' = some (PolyCompose m.p k' q')) :
    ∀ result : Poly R,
      Machine.composeLoop ms k q result = some (composeLoop ms k q result) := by
  induction ms with
  | nil => intro result; rw [Machine.composeLoop, composeLoop]
  | cons m rest ih =>
    intro result
    obtain ⟨c, e⟩ := m
    have hms' := (expsBelowMonos_iff B _).1 hms
    have hm0 := hms' _ (List.mem_cons_self _ _)
    simp only [Mono.p_mk, Mono.exp_mk] at hm0
    rw [Machine.composeLoop, composeLoop]
    by_cases hbr : e ≠ 0 ∧ k = 0
    · rw [if_pos hbr, if_pos hbr]
    · rw [if_neg hbr, if_neg hbr]
      have hq' : ∀ i, i < (if k = 0 then 0 else k - 1) →
          expsBelow (C (i + 1)) (q (i + 1)) = true := by
        intro i hi
        by_cases hk : k = 0
        · simp [hk] at hi
        · rw [if_neg hk] at hi
          exact hq (i + 1) (by omega)
      have hstep := composeBound_step B C k e hm0.1 hbr
      have hcomp : Machine.PolyCompose c (if k = 0 then 0 else k - 1) (fun i => q (i + 1)) =
          some (PolyCompose c (if k = 0 then 0 else k - 1) (fun i => q (i + 1))) := by
        refine H (Mono.mk c e) (List.mem_cons_self _ _) (fun i => B (i + 1)) _ _
          (fun i => C (i + 1)) hm0.2 hq' (fun j => ?_)
        have h1 := hD j
        have h2 := hstep j
        have h3 : 2 * (Finset.range (if k = 0 then 0 else k - 1)).sum
              (fun i => B (i + 1) * C (i + 1) j) ≤
            2 * (Finset.range k).sum (fun i => B i * C i j) := by omega
        have h4 : ((2 * (Finset.range (if k = 0 then 0 else k - 1)).sum
              (fun i => B (i + 1) * C (i + 1) j) : Nat) : Int) ≤
            ((2 * (Finset.range k).sum (fun i => B i * C i j) : Nat) : Int) := by
          exact_mod_cast h3
        exact le_trans h4 h1
      have hcb : expsBelow (fun j => (Finset.range (if k = 0 then 0 else k - 1)).sum
          (fun i => B (i + 1) * C (i + 1) j))
          (PolyCompose c (if k = 0 then 0 else k - 1) (fun i => q (i + 1))) = true :=
        expsBelow_PolyCompose c (fun i => B (i + 1)) _ _ (fun i => C (i + 1)) _ hm0.2 hq'
          (fun _ => le_rfl)
      have hexp : (if e = 0 then some (PolyFromCoeff 1) else Machine.PolyExp (q 0) e) =
          some (if e = 0 then PolyFromCoeff 1 else PolyExp (q 0) e) ∧
          expsBelow (fun j => if e = 0 then 0 else e * C 0 j)
            (if e = 0 then PolyFromCoeff 1 else PolyExp (q 0) e) = true := by
        by_cases he : e = 0
        · rw [if_pos he, if_pos he]
          exact ⟨rfl, expsBelow_coeff _ _⟩
        · rw [if_neg he, if_neg he]
          have hk : 0 < k := by
            rcases Nat.eq_zero_or_pos k with h | h
            · exact absurd ⟨he, h⟩ hbr
            · exact h
          refine ⟨machExp_defined _ _ (C 0) (hq 0 hk) (fun j => ?_),
            expsBelow_PolyExp _ _ (C 0) _ (hq 0 hk) (fun j => by simp [he])⟩
          have h1 := hD j
          have h2 := hstep j
          rw [if_neg he] at h2
          have h3 : 2 * e * C 0 j ≤ 2 * (Finset.range k).sum (fun i => B i * C i j) := by
            have : 2 * e * C 0 j = 2 * (e * C 0 j) := by ring
            omega
          have h4 : ((2 * e * C 0 j : Nat) : Int) ≤
              ((2 * (Finset.range k).sum (fun i => B i * C i j) : Nat) : Int) := by
            exact_mod_cast h3
          exact le_trans h4 h1
      have hmul : Machine.PolyMul
          (PolyCompose c (if k = 0 then 0 else k - 1) (fun i => q (i + 1)))
          (if e = 0 then PolyFromCoeff 1 else PolyExp (q 0) e) =
          some (PolyMul (PolyCompose c (if k = 0 then 0 else k - 1) (fun i => q (i + 1)))
            (if e = 0 then PolyFromCoeff 1 else PolyExp (q 0) e)) := by
        refine machMul_defined _ _ _ _ hcb hexp.2 (fun j => ?_)
        have h1 := hD j
        have h2 := hstep j
        have h3 : (Finset.range (if k = 0 then 0 else k - 1)).sum
              (fun i => B (i + 1) * C (i + 1) j) + (if e = 0 then 0 else e * C 0 j) ≤
            2 * (Finset.range k).sum (fun i => B i * C i j) := by omega
        have h4 : (((Finset.range (if k = 0 then 0 else k - 1)).sum
              (fun i => B (i + 1) * C (i + 1) j) + (if e = 0 then 0 else e * C 0 j) : Nat) :
              Int) ≤
            ((2 * (Finset.range k).sum (fun i => B i * C i j) : Nat) : Int) := by
          exact_mod_cast h3
        exact le_trans h4 h1
      simp only [hcomp, hexp.1, hmul]
      exact ih ((expsBelowMonos_iff B _).2 (fun m hm => hms' m (List.mem_cons_of_mem _ hm)))
        (fun m hm => H m (List.mem_cons_of_mem _ hm)) _

/-- The checked composition has a value, the exact composition, whenever for every level
`j` twice the sum over `i < k` of the bound of `p` at level `i` times the bound of `q[i]`
at level `j` is at most `POLY_EXP_T_MAX`. -/
theorem machCompose_defined : ∀ (p : Poly R) (B : Nat → Nat) (k : Nat) (q : Nat → Poly R)
    (C : Nat → Nat → Nat), expsBelow B p = true →
    (∀ i, i < k → expsBelow (C i) (q i) = true) →
    (∀ j, ((2 * (Finset.range k).sum (fun i => B i * C i j) : Nat) : Int) ≤
      POLY_EXP_T_MAX) →
    Machine.PolyCompose p k q = some (PolyCompose p k q) := by
  intro p
  induction p using Poly.induct with
  | hc c => intro B k q C _ _ _; rw [Machine.PolyCompose, PolyCompose]
  | ha ms ih =>
    intro B k q C hp hq hD
    rw [expsBelow_arr] at hp
    rw [Machine.PolyCompose, PolyCompose]
    exact machComposeLoop_defined ms k q B C hp hq hD ih _

theorem machComposeLoop_zero (ms : List (Mono R)) (q : Nat → Poly R)
    (H : ∀ m ∈ ms, ∀ q' : Nat → Poly R,
      Machine.PolyCompose m.p 0 q' = some (PolyCompose m.p 0 q')) :
    ∀ result : Poly R,
      Machine.composeLoop ms 0 q result = some (composeLoop ms 0 q result) := by
  induction ms with
  | nil => intro result; rw [Machine.composeLoop, composeLoop]
  | cons m rest ih =>
    intro result
    obtain ⟨c, e⟩ := m
    rw [Machine.composeLoop, composeLoop]
    by_cases he : e = 0
    · subst he
      have hc := H (Mono.mk c 0) (List.mem_cons_self _ _) (fun i => q (i + 1))
      simp only [Mono.p_mk] at hc
      simp only [ne_eq, not_true_eq_false, false_and, if_false, if_true, hc, PolyFromCoeff,
        machMul_coeff_right]
      exact ih (fun m hm => H m (List.mem_cons_of_mem _ hm)) _
    · simp [he]

/-- Without substitutions the checked composition always has a value. -/
theorem machCompose_zero : ∀ (p : Poly R) (q : Nat → Poly R),
    Machine.PolyCompose p 0 q = some (PolyCompose p 0 q) := by
  intro p
  induction p using Poly.induct with
  | hc c => intro q; rw [Machine.PolyCompose, PolyCompose]
  | ha ms ih =>
    intro q
    rw [Machine.PolyCompose, PolyCompose]
    exact machComposeLoop_zero ms q ih _

end MachineCompose

section MachineCongr
variable {R : Type} [CommRing R] [DecidableEq R]

theorem machComposeLoop_congr (ms : List (Mono R))
    (H : ∀ m ∈ ms, ∀ (k : Nat) (q q' : Nat → Poly R), (∀ i, i < k → q i = q' i) →
      Machine.PolyCompose m.p k q = Machine.PolyCompose m.p k q')
    (k : Nat) (q q' : Nat → Poly R) (hq : ∀ i, i < k → q i = q' i) :
    ∀ result : Poly R,
      Machine.composeLoop ms k q result = Machine.composeLoop ms k q' result := by
  induction ms with
  | nil => intro result; rw [Machine.composeLoop, Machine.composeLoop]
  | cons m rest ih =>
    intro result
    obtain ⟨c, e⟩ := m
    rw [Machine.composeLoop, Machine.composeLoop]
    by_cases hbr : e ≠ 0 ∧ k = 0
    · rw [if_pos hbr, if_pos hbr]
    · rw [if_neg hbr, if_neg hbr]
      have h1 : Machine.PolyCompose c (if k = 0 then 0 else k - 1) (fun i => q (i + 1)) =
          Machine.PolyCompose c (if k = 0 then 0 else k - 1) (fun i => q' (i + 1)) := by
        apply H (Mono.mk c e) (List.mem_cons_self _ _)
        intro i hi
        by_cases hk : k = 0
        · simp [hk] at hi
        · rw [if_neg hk] at hi
          exact hq (i + 1) (by omega)
      have h2 : (if e = 0 then some (PolyFromCoeff 1) else Machine.PolyExp (q 0) e) =
          (if e = 0 then some (PolyFromCoeff (1 : R)) else Machine.PolyExp (q' 0) e) := by
        by_cases he : e = 0
        · rw [if_pos he, if_pos he]
        · rw [if_neg he, if_neg he]
          have hk : 0 < k := by
            rcases Nat.eq_zero_or_pos k with h | h
            · exact absurd ⟨he, h⟩ hbr
            · exact h
          rw [hq 0 hk]
      rw [← h1, ← h2]
      cases Machine.PolyCompose c (if k = 0 then 0 else k - 1) (fun i => q (i + 1)) with
      | none => rfl
      | some compPoly =>
        cases (if e = 0 then some (PolyFromCoeff 1) else Machine.PolyExp (q 0) e) with
        | none => rfl
        | some expPoly =>
          dsimp only
          cases hm : Machine.PolyMul compPoly expPoly with
          | none => rfl
          | some mulPoly =>
            exact ih (fun m hm => H m (List.mem_cons_of_mem _ hm)) _

/-- The checked composition reads `q[i]` only for `i < k`. -/
theorem machCompose_congr : ∀ (p : Poly R) (k : Nat) (q q' : Nat → Poly R),
    (∀ i, i < k → q i = q' i) → Machine.PolyCompose p k q = Machine.PolyCompose p k q' := by
  intro p
  induction p using Poly.induct with
  | hc c => intro k q q' _; rw [Machine.PolyCompose, Machine.PolyCompose]
  | ha ms ih =>
    intro k q q' hq
    rw [Machine.PolyCompose, Machine.PolyCompose]
    exact machComposeLoop_congr ms ih k q q' hq _

end MachineCongr

/-! ## Scaling and the Constant leaves -/

section LeavesScale
variable {R : Type} [CommRing R] [DecidableEq R]

theorem mem_leavesMonos (a : R) (ms : List (Mono R)) :
    a ∈ leavesMonos ms ↔ ∃ m ∈ ms, a ∈ leaves m.p := by
  induction ms with
  | nil => simp [leavesMonos]
  | cons m rest ih =>
    cases m with
    | mk p e => simp [leavesMonos, ih]

/-- A map of the leaves that sends no leaf of `p` to 0 keeps the canonical form of `p`. -/
theorem Canonical_mapLeaves_of_leaves (f : R → R) : ∀ p : Poly R, Canonical p = true →
    (∀ a ∈ leaves p, f a ≠ 0) → Canonical (mapLeaves f p) = true := by
  intro p
  induction p using Poly.induct with
  | hc c => intro _ _; rfl
  | ha ms ih =>
    intro hp hf
    obtain ⟨hne, hexp, hcol, hco⟩ := (Canonical_arr_iff ms).1 hp
    rw [mapLeaves, Canonical_arr_iff, collapsible_mapLeavesMonos]
    refine ⟨?_, ?_, hcol, ?_⟩
    · rw [mapLeavesMonos_eq_map]; simpa using hne
    · rw [expsIncreasing_iff_sorted] at hexp ⊢
      rw [mapLeavesMonos_exp]
      exact hexp
    · rw [coeffsCanonical_iff] at hco ⊢
      intro m hm
      rw [mapLeavesMonos_eq_map] at hm
      obtain ⟨m', hm', rfl⟩ := List.mem_map.1 hm
      simp only [Mono.p_mk]
      have hsub : ∀ a ∈ leaves m'.p, f a ≠ 0 := fun a ha =>
        hf a (by rw [leaves]; exact (mem_leavesMonos a ms).2 ⟨m', hm', ha⟩)
      refine ⟨ih m' hm' (hco m' hm').1 hsub, ?_⟩
      cases hmp : m'.p with
      | arr l => rfl
      | coeff a =>
        simp only [mapLeaves, PolyIsZero_coeff, decide_eq_false_iff_not]
        apply hsub
        rw [hmp, leaves]
        exact List.mem_singleton.2 rfl

/-- If the tree of a Sum with its leaves mapped is canonical, no leaf was sent to 0. -/
theorem leaves_ne_zero_of_Canonical_mapLeaves (f : R → R) : ∀ p : Poly R,
    Canonical (mapLeaves f p) = true → PolyIsCoeff p = false → ∀ a ∈ leaves p, f a ≠ 0 := by
  intro p
  induction p using Poly.induct with
  | hc c => intro _ h; simp at h
  | ha ms ih =>
    intro hc _ a ha
    rw [mapLeaves] at hc
    have hco := (coeffsCanonical_iff _).1 ((Canonical_arr_iff _).1 hc).2.2.2
    rw [leaves] at ha
    obtain ⟨m, hm, hma⟩ := (mem_leavesMonos a ms).1 ha
    have hmm : Mono.mk (mapLeaves f m.p) m.exp ∈ mapLeavesMonos f ms := by
      rw [mapLeavesMonos_eq_map]
      exact List.mem_map.2 ⟨m, hm, rfl⟩
    have h1 := hco _ hmm
    simp only [Mono.p_mk] at h1
    cases hmp : m.p with
    | coeff b =>
      rw [hmp] at h1 hma
      rw [leaves] at hma
      have hab : a = b := List.mem_singleton.1 hma
      subst hab
      simpa [mapLeaves] using h1.2
    | arr l =>
      exact ih m hm h1.1 (by rw [hmp]; rfl) a hma

/-- Scaling in place keeps the canonical form exactly when the polynomial is a Constant or
no leaf has product 0 with the scalar. -/
theorem Canonical_mapLeaves_iff (f : R → R) (p : Poly R) (hp : Canonical p = true) :
    Canonical (mapLeaves f p) = true ↔
      (PolyIsCoeff p = true ∨ ∀ a ∈ leaves p, f a ≠ 0) := by
  constructor
  · intro h
    cases hc : PolyIsCoeff p with
    | true => exact Or.inl rfl
    | false => exact Or.inr (leaves_ne_zero_of_Canonical_mapLeaves f p h hc)
  · rintro (h | h)
    · cases p with
      | coeff c => rfl
      | arr ms => simp at h
    · exact Canonical_mapLeaves_of_leaves f p hp h

/-- When the Constant `c` has product 0 with no leaf of `p`, the product of the canonical
polynomial `p` with `c` is the tree with every leaf multiplied by `c`. -/
theorem PolyMul_coeff_eq_mapLeaves_of_leaves (c : R) : ∀ p : Poly R, Canonical p = true →
    (∀ a ∈ leaves p, a * c ≠ 0) → PolyMul p (Poly.coeff c) = mapLeaves (fun a => a * c) p := by
  intro p
  induction p using Poly.induct with
  | hc a => intro _ _; rw [PolyMul.eq_1]; rfl
  | ha ms ih =>
    intro hp hl
    have hco := (coeffsCanonical_iff ms).1 ((Canonical_arr_iff ms).1 hp).2.2.2
    have hcan := Canonical_mapLeaves_of_leaves (fun a => a * c) _ hp hl
    rw [mapLeaves] at hcan ⊢
    rw [PolyMul.eq_3, mulCoeffLoop_eq_map, ← PolyOwnMonos_of_canonical _ hcan,
      mapLeavesMonos_eq_map]
    congr 1
    apply List.map_congr_left
    intro m hm
    rw [ih m hm (hco m hm).1
      (fun a ha => hl a (by rw [leaves]; exact (mem_leavesMonos a ms).2 ⟨m, hm, ha⟩))]

/-- The product of a canonical Sum with a Constant keeps every monomial exactly when no
coefficient has the Constant 0 as its product and the products do not collapse. -/
theorem PolyMul_arr_coeff_eq_iff (c : R) (ps : List (Mono R))
    (hp : Canonical (Poly.arr ps) = true) :
    PolyMul (Poly.arr ps) (Poly.coeff c) =
        Poly.arr (ps.map (fun m => Mono.mk (PolyMul m.p (Poly.coeff c)) m.exp)) ↔
      ((∀ m ∈ ps, PolyIsZero (PolyMul m.p (Poly.coeff c)) = false) ∧
        collapsible (ps.map (fun m => Mono.mk (PolyMul m.p (Poly.coeff c)) m.exp)) = false) := by
  obtain ⟨hne, hexp, -, hco⟩ := (Canonical_arr_iff ps).1 hp
  have hco' := (coeffsCanonical_iff ps).1 hco
  constructor
  · intro h
    have hcan := PolyMul_canonical _ _ hp (rfl : Canonical (Poly.coeff c) = true)
    rw [h] at hcan
    obtain ⟨-, -, hcol, hcc⟩ := (Canonical_arr_iff _).1 hcan
    refine ⟨fun m hm => ?_, hcol⟩
    have := (coeffsCanonical_iff _).1 hcc _ (List.mem_map.2 ⟨m, hm, rfl⟩)
    exact this.2
  · rintro ⟨hz, hcol⟩
    have hcan : Canonical
        (Poly.arr (ps.map (fun m => Mono.mk (PolyMul m.p (Poly.coeff c)) m.exp))) = true := by
      rw [Canonical_arr_iff]
      refine ⟨by simpa using hne, ?_, hcol, ?_⟩
      · rw [expsIncreasing_iff_sorted] at hexp ⊢
        rw [List.map_map]
        exact hexp
      · rw [coeffsCanonical_iff]
        intro m hm
        obtain ⟨m', hm', rfl⟩ := List.mem_map.1 hm
        exact ⟨PolyMul_canonical _ _ (hco' m' hm').1 rfl, hz m' hm'⟩
    rw [PolyMul.eq_3, mulCoeffLoop_eq_map, PolyOwnMonos_of_canonical _ hcan]

end LeavesScale

/-! ## The statements of the specification on scaling by a Constant -/

section ClaimsScale
variable {R : Type} [CommRing R] [DecidableEq R]

/-- C28, as stated, fails at `p = Sum[(1, Const 1)]` (the canonical polynomial `x`) and
`c = 0`: `PolyMulByCoeffInPlace` leaves `Sum[(1, Const 0)]`, a Sum with the Constant 0 as
coefficient, which is not canonical. -/
theorem claim_C28_counterexample :
    Canonical (Poly.arr [.mk (.coeff (1 : ℤ)) 1]) = true ∧
    PolyMulByCoeffInPlace (Poly.arr [.mk (.coeff (1 : ℤ)) 1]) 0 = Poly.arr [.mk (.coeff 0) 1] ∧
    Canonical (PolyMulByCoeffInPlace (Poly.arr [.mk (.coeff (1 : ℤ)) 1]) 0) = false :=
  ⟨by decide, rfl, by decide⟩

/-- C28, amended: for every canonical polynomial `p` and every scalar `c`,
`PolyMulByCoeffInPlace p c` is the tree `p` with the same shape and exponents and every
Constant leaf multiplied by `c`; and it satisfies invariant (a)-(e) exactly when `p` is a
Constant or no Constant leaf of `p` has product 0 with `c`. -/
theorem claim_C28_scale_in_place (p : Poly R) (c : R) (hp : Canonical p = true) :
    PolyMulByCoeffInPlace p c = mapLeaves (fun a => a * c) p ∧
    (∀ a : R, PolyMulByCoeffInPlace (Poly.coeff a) c = Poly.coeff (a * c)) ∧
    (∀ ms : List (Mono R),
      PolyMulByCoeffInPlace (Poly.arr ms) c =
          Poly.arr (ms.map (fun m => Mono.mk (PolyMulByCoeffInPlace m.p c) m.exp)) ∧
        (ms.map (fun m => Mono.mk (PolyMulByCoeffInPlace m.p c) m.exp)).map Mono.exp =
          ms.map Mono.exp) ∧
    (Canonical (PolyMulByCoeffInPlace p c) = true ↔
      (PolyIsCoeff p = true ∨ ∀ a ∈ leaves p, a * c ≠ 0)) := by
  refine ⟨PolyMulByCoeffInPlace_eq_mapLeaves p c, fun a => rfl, fun ms => ⟨?_, ?_⟩, ?_⟩
  · rw [PolyMulByCoeffInPlace, mulByCoeffMonos_eq_map]
  · rw [List.map_map]; rfl
  · rw [PolyMulByCoeffInPlace_eq_mapLeaves]
    exact Canonical_mapLeaves_iff _ p hp

/-- The amended statement of C28 in the arithmetic modulo `2 ^ 64` on `p = x` and the even
scalar `c = 2`, which has product 0 with no leaf of `p`: the invariant is kept. -/
theorem claim_C28_witness :
    Canonical (PolyMulByCoeffInPlace (Poly.arr [.mk (.coeff (1 : ZMod (2 ^ 64))) 1]) 2) = true :=
  (claim_C28_scale_in_place (Poly.arr [.mk (.coeff (1 : ZMod (2 ^ 64))) 1]) 2
    (by
      have h1 : (1 : ZMod (2 ^ 64)) ≠ 0 := by decide
      simp only [Canonical, expsIncreasing, collapsible, coeffsCanonical, PolyIsZero,
        decide_eq_false h1]
      rfl)).2.2.2.2
    (Or.inr (by
      have h2 : (1 : ZMod (2 ^ 64)) * 2 ≠ 0 := by decide
      intro a ha
      simp only [leaves, leavesMonos, List.append_nil, List.mem_singleton] at ha
      rw [ha]
      exact h2))

/-- C29, as stated, fails in the arithmetic modulo `2 ^ 64` at the non-zero Constant
`c = 4` and the canonical Sum `p = Sum[(1, Const 2^62)]`: the product of the coefficient
with `c` is `2 ^ 64 = 0`, the monomial is dropped, and `PolyMul p c` and `PolyMul c p`
are the Constant 0, not a Sum with the exponent sequence of `p`. -/
theorem claim_C29_counterexample :
    (4 : ZMod (2 ^ 64)) ≠ 0 ∧
    Canonical (Poly.arr [.mk (.coeff (4611686018427387904 : ZMod (2 ^ 64))) 1]) = true ∧
    PolyMul (Poly.arr [.mk (.coeff (4611686018427387904 : ZMod (2 ^ 64))) 1]) (.coeff 4) =
      Poly.coeff 0 ∧
    PolyMul (.coeff 4) (Poly.arr [.mk (.coeff (4611686018427387904 : ZMod (2 ^ 64))) 1]) =
      Poly.coeff 0 := by
  have ha : (4611686018427387904 : ZMod (2 ^ 64)) * 4 = 0 := by decide
  have hb : (4611686018427387904 : ZMod (2 ^ 64)) ≠ 0 := by decide
  refine ⟨by decide, ?_, ?_, ?_⟩
  · simp only [Canonical, expsIncreasing, collapsible, coeffsCanonical, PolyIsZero,
      decide_eq_false hb]
    rfl
  · rw [PolyMul.eq_3, mulCoeffLoop_eq_map]
    simp only [List.map_cons, List.map_nil, Mono.p_mk, Mono.exp_mk, PolyMul.eq_1,
      PolyFromCoeff, ha]
    rfl
  · rw [PolyMul.eq_2, PolyMul.eq_3, mulCoeffLoop_eq_map]
    simp only [List.map_cons, List.map_nil, Mono.p_mk, Mono.exp_mk, PolyMul.eq_1,
      PolyFromCoeff, ha]
    rfl

/-- C29, amended: for every Constant `c` and every canonical Sum `p`, `PolyMul p c` and
`PolyMul c p` are the same polynomial, formed without any exponent sum; it is the Sum with
exactly the exponent sequence of `p`, each coefficient being the product of the
coefficient of `p` with `c`, exactly when no coefficient of `p` has the Constant 0 as its
product with `c` and the products are not a single exponent-0 monomial with a Constant
coefficient; this is the case whenever `c` has product 0 with no Constant leaf of `p`; and
for every `p` the product with the Constant 0 is the Constant 0. -/
theorem claim_C29_mul_coeff (c : R) (ps : List (Mono R))
    (hp : Canonical (Poly.arr ps) = true) :
    (PolyMul (Poly.arr ps) (Poly.coeff c) =
        Poly.arr (ps.map (fun m => Mono.mk (PolyMul m.p (Poly.coeff c)) m.exp)) ↔
      ((∀ m ∈ ps, PolyIsZero (PolyMul m.p (Poly.coeff c)) = false) ∧
        collapsible (ps.map (fun m => Mono.mk (PolyMul m.p (Poly.coeff c)) m.exp)) = false)) ∧
    PolyMul (Poly.coeff c) (Poly.arr ps) = PolyMul (Poly.arr ps) (Poly.coeff c) ∧
    (ps.map (fun m => Mono.mk (PolyMul m.p (Poly.coeff c)) m.exp)).map Mono.exp =
      ps.map Mono.exp ∧
    ((∀ a ∈ leaves (Poly.arr ps), a * c ≠ 0) →
      PolyMul (Poly.arr ps) (Poly.coeff c) =
          Poly.arr (ps.map (fun m => Mono.mk (PolyMul m.p (Poly.coeff c)) m.exp)) ∧
        PolyMul (Poly.arr ps) (Poly.coeff c) = mapLeaves (fun a => a * c) (Poly.arr ps)) ∧
    (Machine.PolyMul (Poly.arr ps) (Poly.coeff c) = some (PolyMul (Poly.arr ps) (Poly.coeff c)) ∧
      Machine.PolyMul (Poly.coeff c) (Poly.arr ps) =
        some (PolyMul (Poly.arr ps) (Poly.coeff c))) ∧
    ∀ p : Poly R, PolyMul p (Poly.coeff 0) = Poly.coeff 0 ∧
      PolyMul (Poly.coeff 0) p = Poly.coeff 0 := by
  have hco := (coeffsCanonical_iff ps).1 ((Canonical_arr_iff ps).1 hp).2.2.2
  refine ⟨PolyMul_arr_coeff_eq_iff c ps hp, PolyMul.eq_2 _ _, ?_, ?_, ?_, fun p => ?_⟩
  · rw [List.map_map]; rfl
  · intro hl
    have h1 := PolyMul_coeff_eq_mapLeaves_of_leaves c _ hp hl
    refine ⟨?_, h1⟩
    rw [h1, mapLeaves, mapLeavesMonos_eq_map]
    congr 1
    apply List.map_congr_left
    intro m hm
    rw [PolyMul_coeff_eq_mapLeaves_of_leaves c m.p (hco m hm).1
      (fun a ha => hl a (by rw [leaves]; exact (mem_leavesMonos a ps).2 ⟨m, hm, ha⟩))]
  · refine ⟨machMul_coeff_right c _, ?_⟩
    rw [machMul_coeff_left, PolyMul.eq_2]
  · refine ⟨PolyMul_coeff_zero p, ?_⟩
    cases p with
    | coeff b => rw [PolyMul.eq_1]; simp [PolyFromCoeff]
    | arr l => rw [PolyMul.eq_2]; exact PolyMul_coeff_zero _

/-- The amended statement of C29 in the arithmetic modulo `2 ^ 64` on the even Constant
`c = 2` and `p = x`: the product is a Sum with the exponent sequence of `p`. -/
theorem claim_C29_witness :
    PolyMul (Poly.arr [.mk (.coeff (1 : ZMod (2 ^ 64))) 1]) (Poly.coeff 2) =
      Poly.arr (List.map (fun m : Mono (ZMod (2 ^ 64)) =>
        Mono.mk (PolyMul m.p (Poly.coeff 2)) m.exp) [.mk (.coeff (1 : ZMod (2 ^ 64))) 1]) :=
  ((claim_C29_mul_coeff (2 : ZMod (2 ^ 64)) [.mk (.coeff (1 : ZMod (2 ^ 64))) 1]
    (by
      have h1 : (1 : ZMod (2 ^ 64)) ≠ 0 := by decide
      simp only [Canonical, expsIncreasing, collapsible, coeffsCanonical, PolyIsZero,
        decide_eq_false h1]
      rfl)).2.2.2.1
    (by
      have h2 : (1 : ZMod (2 ^ 64)) * 2 ≠ 0 := by decide
      intro a ha
      simp only [leaves, leavesMonos, List.append_nil, List.mem_singleton] at ha
      rw [ha]
      exact h2)).1

end ClaimsScale

/-! ## The statements of the specification on products, with the exponent sums of the
machine

The exponent of a candidate monomial is the `int` sum `p->arr[i].exp + q->arr[j].exp`
(poly.c:421). `Machine.PolyMul` returns `none` when one of these sums exceeds
`POLY_EXP_T_MAX`, where the C program has no defined result. -/

section ClaimsMachineMul
variable {R : Type} [CommRing R] [DecidableEq R]

/-- C3, as stated, fails at the canonical polynomials `p = 1 + x^2147483647` and `q = x`,
both within the bounds of the data model: the exponent sum `2147483647 + 1` of poly.c:421
exceeds the largest `int`, and `PolyMul` has no canonical result. -/
theorem claim_C3_counterexample :
    Canonical (Poly.arr [.mk (.coeff (1 : ℤ)) 0, .mk (.coeff 1) 2147483647]) = true ∧
    Canonical (Poly.arr [.mk (.coeff (1 : ℤ)) 1]) = true ∧
    fitsMachine (Poly.arr [.mk (.coeff (1 : ℤ)) 0, .mk (.coeff 1) 2147483647]) = true ∧
    fitsMachine (Poly.arr [.mk (.coeff (1 : ℤ)) 1]) = true ∧
    Machine.PolyMul (Poly.arr [.mk (.coeff (1 : ℤ)) 0, .mk (.coeff 1) 2147483647])
      (Poly.arr [.mk (.coeff 1) 1]) = none := by
  refine ⟨by decide, by decide, by decide, by decide, ?_⟩
  simp [Machine.PolyMul, Machine.mulLoop, Machine.mulInner, Machine.expAdd, POLY_EXP_T_MAX]

/-- C3, amended: for all canonical polynomials `p` and `q`, whenever no exponent sum formed
by `PolyMul` exceeds `2^31 - 1`, the result of `PolyMul p q` is canonical in the sense of
invariant (a)-(e); this is the case whenever the exponents of `p` and `q` are bounded level
by level by `B` and `C` with `B k + C k ≤ 2^31 - 1`, and always when one operand is a
Constant; in the Sum-by-Sum case the normaliser is handed `|p| * |q|` candidate
monomials. -/
theorem claim_C3_mul_canonical (p q : Poly R) (hp : Canonical p = true)
    (hq : Canonical q = true) :
    (∀ r, Machine.PolyMul p q = some r → Canonical r = true) ∧
    (∀ B C : Nat → Nat, expsBelow B p = true → expsBelow C q = true →
      (∀ k, ((B k + C k : Nat) : Int) ≤ POLY_EXP_T_MAX) →
      ∃ r, Machine.PolyMul p q = some r ∧ Canonical r = true) ∧
    (∀ c : R, ∃ r s, Machine.PolyMul p (Poly.coeff c) = some r ∧ Canonical r = true ∧
      Machine.PolyMul (Poly.coeff c) p = some s ∧ Canonical s = true) ∧
    (∀ (ps qs l : List (Mono R)), p = Poly.arr ps → q = Poly.arr qs →
      Machine.mulLoop ps qs = some l →
      Machine.PolyMul p q = some (PolyOwnMonos l) ∧ l.length = ps.length * qs.length) := by
  refine ⟨?_, ?_, ?_, ?_⟩
  · intro r h
    rw [machMul_sound p q r h]
    exact PolyMul_canonical p q hp hq
  · intro B C hB hC hD
    exact ⟨_, machMul_defined p q B C hB hC hD, PolyMul_canonical p q hp hq⟩
  · intro c
    exact ⟨_, _, machMul_coeff_right c p, PolyMul_canonical p _ hp rfl,
      machMul_coeff_left c p, PolyMul_canonical _ p rfl hp⟩
  · intro ps qs l h1 h2 hl
    subst h1 h2
    refine ⟨?_, ?_⟩
    · rw [Machine.PolyMul, hl]; rfl
    · rw [machMulLoop_sound qs ps (fun m _ m' _ r h => machMul_sound _ _ r h) l hl]
      exact mulLoop_length ps qs

/-- The amended statement of C3 on `p = 1 + x` and `q = -1 + x`, whose product is
`-1 + x^2`. -/
theorem claim_C3_witness :
    Machine.PolyMul (Poly.arr [.mk (.coeff (1 : ℤ)) 0, .mk (.coeff 1) 1])
        (Poly.arr [.mk (.coeff (-1)) 0, .mk (.coeff 1) 1]) =
      some (Poly.arr [.mk (.coeff (-1)) 0, .mk (.coeff 1) 2]) ∧
    Canonical (Poly.arr [.mk (.coeff (-1 : ℤ)) 0, .mk (.coeff 1) 2]) = true := by
  have h : Machine.PolyMul (Poly.arr [.mk (.coeff (1 : ℤ)) 0, .mk (.coeff 1) 1])
      (Poly.arr [.mk (.coeff (-1)) 0, .mk (.coeff 1) 1]) =
        some (Poly.arr [.mk (.coeff (-1)) 0, .mk (.coeff 1) 2]) := by
    simp [Machine.PolyMul, Machine.mulLoop, Machine.mulInner, Machine.expAdd, POLY_EXP_T_MAX,
      PolyOwnMonos, sortMonos, ownSorted, ownLoop, PolyFromCoeff, PolyAdd_coeff_coeff,
      MonoFromPoly, PolyIsZero]
  exact ⟨h, (claim_C3_mul_canonical _ _ (by decide) (by decide)).1 _ h⟩

/-- C5, as stated, fails at the canonical polynomial `p = q = x^1073741824`, within the
bounds of the data model: the exponent sum `1073741824 + 1073741824` of poly.c:421 exceeds
the largest `int`, and `PolyMul` has no result whose value is the product of the values. -/
theorem claim_C5_counterexample :
    Canonical (Poly.arr [.mk (.coeff (1 : ℤ)) 1073741824]) = true ∧
    fitsMachine (Poly.arr [.mk (.coeff (1 : ℤ)) 1073741824]) = true ∧
    Machine.PolyMul (Poly.arr [.mk (.coeff (1 : ℤ)) 1073741824])
      (Poly.arr [.mk (.coeff 1) 1073741824]) = none := by
  refine ⟨by decide, by decide, ?_⟩
  simp [Machine.PolyMul, Machine.mulLoop, Machine.mulInner, Machine.expAdd, POLY_EXP_T_MAX]

/-- C5, amended: in exact integer arithmetic, for all `p`, `q` and every assignment `v`,
whenever no exponent sum formed by `PolyMul` exceeds `2^31 - 1`, the result `r` of
`PolyMul p q` has `val r v = val p v * val q v`; this is the case whenever the exponents
of `p` and `q` are bounded level by level by `B` and `C` with `B k + C k ≤ 2^31 - 1`, and
always when one operand is a Constant. -/
theorem claim_C5_mul_value (p q : Poly ℤ) :
    (∀ r, Machine.PolyMul p q = some r → ∀ v : Nat → ℤ, val r v = val p v * val q v) ∧
    (∀ B C : Nat → Nat, expsBelow B p = true → expsBelow C q = true →
      (∀ k, ((B k + C k : Nat) : Int) ≤ POLY_EXP_T_MAX) →
      ∃ r, Machine.PolyMul p q = some r ∧ ∀ v : Nat → ℤ, val r v = val p v * val q v) ∧
    (∀ c : ℤ, ∃ r s, Machine.PolyMul p (Poly.coeff c) = some r ∧
      Machine.PolyMul (Poly.coeff c) p = some s ∧
      ∀ v : Nat → ℤ, val r v = val p v * c ∧ val s v = c * val p v) := by
  refine ⟨?_, ?_, ?_⟩
  · intro r h v
    rw [machMul_sound p q r h]
    exact val_PolyMul p q v
  · intro B C hB hC hD
    exact ⟨_, machMul_defined p q B C hB hC hD, fun v => val_PolyMul p q v⟩
  · intro c
    exact ⟨_, _, machMul_coeff_right c p, machMul_coeff_left c p,
      fun v => ⟨val_PolyMul p _ v, val_PolyMul _ p v⟩⟩

/-- The amended statement of C5 on `p = 1 + x` and `q = -1 + x` at `x = 2`. -/
theorem claim_C5_witness :
    Machine.PolyMul (Poly.arr [.mk (.coeff (1 : ℤ)) 0, .mk (.coeff 1) 1])
        (Poly.arr [.mk (.coeff (-1)) 0, .mk (.coeff 1) 1]) =
      some (Poly.arr [.mk (.coeff (-1)) 0, .mk (.coeff 1) 2]) ∧
    val (Poly.arr [.mk (.coeff (-1 : ℤ)) 0, .mk (.coeff 1) 2]) (fun _ => 2) =
      val (Poly.arr [.mk (.coeff (1 : ℤ)) 0, .mk (.coeff 1) 1]) (fun _ => 2) *
        val (Poly.arr [.mk (.coeff (-1 : ℤ)) 0, .mk (.coeff 1) 1]) (fun _ => 2) := by
  have h : Machine.PolyMul (Poly.arr [.mk (.coeff (1 : ℤ)) 0, .mk (.coeff 1) 1])
      (Poly.arr [.mk (.coeff (-1)) 0, .mk (.coeff 1) 1]) =
        some (Poly.arr [.mk (.coeff (-1)) 0, .mk (.coeff 1) 2]) := by
    simp [Machine.PolyMul, Machine.mulLoop, Machine.mulInner, Machine.expAdd, POLY_EXP_T_MAX,
      PolyOwnMonos, sortMonos, ownSorted, ownLoop, PolyFromCoeff, PolyAdd_coeff_coeff,
      MonoFromPoly, PolyIsZero]
  exact ⟨h, (claim_C5_mul_value _ _).1 _ h _⟩

/-- C17, as stated, fails at the canonical polynomials `p = x` and `q = 1 + x^2147483647`,
both within the bounds of the data model: in either order the exponent sum
`1 + 2147483647` of poly.c:421 exceeds the largest `int`, and neither call has a result
to compare. -/
theorem claim_C17_counterexample :
    Canonical (Poly.arr [.mk (.coeff (1 : ℤ)) 1]) = true ∧
    Canonical (Poly.arr [.mk (.coeff (1 : ℤ)) 0, .mk (.coeff 1) 2147483647]) = true ∧
    fitsMachine (Poly.arr [.mk (.coeff (1 : ℤ)) 1]) = true ∧
    fitsMachine (Poly.arr [.mk (.coeff (1 : ℤ)) 0, .mk (.coeff 1) 2147483647]) = true ∧
    Machine.PolyMul (Poly.arr [.mk (.coeff (1 : ℤ)) 1])
      (Poly.arr [.mk (.coeff 1) 0, .mk (.coeff 1) 2147483647]) = none ∧
    Machine.PolyMul (Poly.arr [.mk (.coeff (1 : ℤ)) 0, .mk (.coeff 1) 2147483647])
      (Poly.arr [.mk (.coeff 1) 1]) = none := by
  refine ⟨by decide, by decide, by decide, by decide, ?_, ?_⟩
  · simp [Machine.PolyMul, Machine.mulLoop, Machine.mulInner, Machine.expAdd, POLY_EXP_T_MAX]
  · simp [Machine.PolyMul, Machine.mulLoop, Machine.mulInner, Machine.expAdd, POLY_EXP_T_MAX]

/-- C17, amended: multiplication is commutative up to `PolyIsEq` wherever it is defined:
for all canonical `p` and `q`, whenever no exponent sum formed by `PolyMul p q` and by
`PolyMul q p` exceeds `2^31 - 1`, `PolyIsEq` of the two results is true, whatever the order
in which the candidate monomials are generated; this is the case whenever the exponents of
`p` and `q` are bounded level by level by `B` and `C` with `B k + C k ≤ 2^31 - 1`. This
holds for every coefficient ring. -/
theorem claim_C17_mul_comm (p q : Poly R) (hp : Canonical p = true)
    (hq : Canonical q = true) :
    (∀ r s, Machine.PolyMul p q = some r → Machine.PolyMul q p = some s →
      PolyIsEq r s = true) ∧
    (∀ B C : Nat → Nat, expsBelow B p = true → expsBelow C q = true →
      (∀ k, ((B k + C k : Nat) : Int) ≤ POLY_EXP_T_MAX) →
      ∃ r s, Machine.PolyMul p q = some r ∧ Machine.PolyMul q p = some s ∧
        PolyIsEq r s = true) := by
  refine ⟨?_, ?_⟩
  · intro r s hr hs
    rw [machMul_sound p q r hr, machMul_sound q p s hs]
    exact (PolyIsEq_iff_eq _ _).2 (PolyMul_comm_ring p q hp hq)
  · intro B C hB hC hD
    exact ⟨_, _, machMul_defined p q B C hB hC hD,
      machMul_defined q p C B hC hB (fun k => by rw [Nat.add_comm]; exact hD k),
      (PolyIsEq_iff_eq _ _).2 (PolyMul_comm_ring p q hp hq)⟩

/-- The amended statement of C17 on `p = 1 + x` and `q = -1 + x`: both orders give
`-1 + x^2`. -/
theorem claim_C17_witness :
    Machine.PolyMul (Poly.arr [.mk (.coeff (1 : ℤ)) 0, .mk (.coeff 1) 1])
        (Poly.arr [.mk (.coeff (-1)) 0, .mk (.coeff 1) 1]) =
      some (Poly.arr [.mk (.coeff (-1)) 0, .mk (.coeff 1) 2]) ∧
    Machine.PolyMul (Poly.arr [.mk (.coeff (-1 : ℤ)) 0, .mk (.coeff 1) 1])
        (Poly.arr [.mk (.coeff 1) 0, .mk (.coeff 1) 1]) =
      some (Poly.arr [.mk (.coeff (-1)) 0, .mk (.coeff 1) 2]) ∧
    PolyIsEq (Poly.arr [.mk (.coeff (-1 : ℤ)) 0, .mk (.coeff 1) 2])
      (Poly.arr [.mk (.coeff (-1 : ℤ)) 0, .mk (.coeff 1) 2]) = true := by
  have h1 : Machine.PolyMul (Poly.arr [.mk (.coeff (1 : ℤ)) 0, .mk (.coeff 1) 1])
      (Poly.arr [.mk (.coeff (-1)) 0, .mk (.coeff 1) 1]) =
        some (Poly.arr [.mk (.coeff (-1)) 0, .mk (.coeff 1) 2]) := by
    simp [Machine.PolyMul, Machine.mulLoop, Machine.mulInner, Machine.expAdd, POLY_EXP_T_MAX,
      PolyOwnMonos, sortMonos, ownSorted, ownLoop, PolyFromCoeff, PolyAdd_coeff_coeff,
      MonoFromPoly, PolyIsZero]
  have h2 : Machine.PolyMul (Poly.arr [.mk (.coeff (-1 : ℤ)) 0, .mk (.coeff 1) 1])
      (Poly.arr [.mk (.coeff 1) 0, .mk (.coeff 1) 1]) =
        some (Poly.arr [.mk (.coeff (-1)) 0, .mk (.coeff 1) 2]) := by
    simp [Machine.PolyMul, Machine.mulLoop, Machine.mulInner, Machine.expAdd, POLY_EXP_T_MAX,
      PolyOwnMonos, sortMonos, ownSorted, ownLoop, PolyFromCoeff, PolyAdd_coeff_coeff,
      MonoFromPoly, PolyIsZero]
  exact ⟨h1, h2, (claim_C17_mul_comm _ _ (by decide) (by decide)).1 _ _ h1 h2⟩

/-- C18, as stated, fails at the canonical polynomials `p = x`, `q = 1 + x^2147483647`
and `r = x^2147483647`, all within the bounds of the data model: `PolyAdd q r` is
`1 + 2x^2147483647`, and in `PolyMul p (PolyAdd q r)`, in `PolyMul p q` and in
`PolyMul p r` the exponent sum `1 + 2147483647` of poly.c:421 exceeds the largest `int`:
neither side has a result. -/
theorem claim_C18_counterexample :
    Canonical (Poly.arr [.mk (.coeff (1 : ℤ)) 1]) = true ∧
    Canonical (Poly.arr [.mk (.coeff (1 : ℤ)) 0, .mk (.coeff 1) 2147483647]) = true ∧
    Canonical (Poly.arr [.mk (.coeff (1 : ℤ)) 2147483647]) = true ∧
    fitsMachine (Poly.arr [.mk (.coeff (1 : ℤ)) 1]) = true ∧
    fitsMachine (Poly.arr [.mk (.coeff (1 : ℤ)) 0, .mk (.coeff 1) 2147483647]) = true ∧
    fitsMachine (Poly.arr [.mk (.coeff (1 : ℤ)) 2147483647]) = true ∧
    PolyAdd (Poly.arr [.mk (.coeff (1 : ℤ)) 0, .mk (.coeff 1) 2147483647])
        (Poly.arr [.mk (.coeff 1) 2147483647]) =
      Poly.arr [.mk (.coeff 1) 0, .mk (.coeff 2) 2147483647] ∧
    Machine.PolyMul (Poly.arr [.mk (.coeff (1 : ℤ)) 1])
      (PolyAdd (Poly.arr [.mk (.coeff (1 : ℤ)) 0, .mk (.coeff 1) 2147483647])
        (Poly.arr [.mk (.coeff 1) 2147483647])) = none ∧
    Machine.PolyMul (Poly.arr [.mk (.coeff (1 : ℤ)) 1])
      (Poly.arr [.mk (.coeff 1) 0, .mk (.coeff 1) 2147483647]) = none ∧
    Machine.PolyMul (Poly.arr [.mk (.coeff (1 : ℤ)) 1])
      (Poly.arr [.mk (.coeff 1) 2147483647]) = none := by
  have ha : PolyAdd (Poly.arr [.mk (.coeff (1 : ℤ)) 0, .mk (.coeff 1) 2147483647])
      (Poly.arr [.mk (.coeff 1) 2147483647]) =
        Poly.arr [.mk (.coeff 1) 0, .mk (.coeff 2) 2147483647] := by
    simp [PolyAdd, PolyAddCoeff, PolyAddNonCoeffs, addLoop, PolyOfArr, MonoFromPoly,
      PolyFromCoeff, PolyIsZero]
  refine ⟨by decide, by decide, by decide, by decide, by decide, by decide, ha, ?_, ?_, ?_⟩
  · rw [ha]
    simp [Machine.PolyMul, Machine.mulLoop, Machine.mulInner, Machine.expAdd, POLY_EXP_T_MAX]
  · simp [Machine.PolyMul, Machine.mulLoop, Machine.mulInner, Machine.expAdd, POLY_EXP_T_MAX]
  · simp [Machine.PolyMul, Machine.mulLoop, Machine.mulInner, Machine.expAdd, POLY_EXP_T_MAX]

/-- C18, amended: distributivity wherever the products are defined: for all canonical `p`,
`q` and `r`, whenever no exponent sum formed by `PolyMul p (PolyAdd q r)`, `PolyMul p q`
and `PolyMul p r` exceeds `2^31 - 1`, with results `a`, `b` and `c`,
`PolyIsEq a (PolyAdd b c)` is true; this is the case whenever the exponents of `p` are
bounded level by level by `B` and those of `q` and `r` by `C` with
`B k + C k ≤ 2^31 - 1`. This holds for every coefficient ring. -/
theorem claim_C18_distrib (p q r : Poly R) (hp : Canonical p = true)
    (hq : Canonical q = true) (hr : Canonical r = true) :
    (∀ a b c, Machine.PolyMul p (PolyAdd q r) = some a → Machine.PolyMul p q = some b →
      Machine.PolyMul p r = some c → PolyIsEq a (PolyAdd b c) = true) ∧
    (∀ B C : Nat → Nat, expsBelow B p = true → expsBelow C q = true →
      expsBelow C r = true → (∀ k, ((B k + C k : Nat) : Int) ≤ POLY_EXP_T_MAX) →
      ∃ a b c, Machine.PolyMul p (PolyAdd q r) = some a ∧ Machine.PolyMul p q = some b ∧
        Machine.PolyMul p r = some c ∧ PolyIsEq a (PolyAdd b c) = true) := by
  refine ⟨?_, ?_⟩
  · intro a b c ha hb hc
    rw [machMul_sound _ _ a ha, machMul_sound _ _ b hb, machMul_sound _ _ c hc]
    exact (PolyIsEq_iff_eq _ _).2 (PolyMul_PolyAdd_ring p q r hp hq hr)
  · intro B C hB hCq hCr hD
    exact ⟨_, _, _, machMul_defined p _ B C hB (expsBelow_PolyAdd C q r hCq hCr) hD,
      machMul_defined p q B C hB hCq hD, machMul_defined p r B C hB hCr hD,
      (PolyIsEq_iff_eq _ _).2 (PolyMul_PolyAdd_ring p q r hp hq hr)⟩

/-- The amended statement of C18 on `p = 1 + x`, `q = x` and `r = 2`: the left side is
`2 + 3x + x^2`, the products on the right are `x + x^2` and `2 + 2x`. -/
theorem claim_C18_witness :
    Machine.PolyMul (Poly.arr [.mk (.coeff (1 : ℤ)) 0, .mk (.coeff 1) 1])
        (PolyAdd (Poly.arr [.mk (.coeff 1) 1]) (Poly.coeff 2)) =
      some (Poly.arr [.mk (.coeff 2) 0, .mk (.coeff 3) 1, .mk (.coeff 1) 2]) ∧
    Machine.PolyMul (Poly.arr [.mk (.coeff (1 : ℤ)) 0, .mk (.coeff 1) 1])
        (Poly.arr [.mk (.coeff 1) 1]) =
      some (Poly.arr [.mk (.coeff 1) 1, .mk (.coeff 1) 2]) ∧
    Machine.PolyMul (Poly.arr [.mk (.coeff (1 : ℤ)) 0, .mk (.coeff 1) 1]) (Poly.coeff 2) =
      some (Poly.arr [.mk (.coeff 2) 0, .mk (.coeff 2) 1]) ∧
    PolyIsEq (Poly.arr [.mk (.coeff (2 : ℤ)) 0, .mk (.coeff 3) 1, .mk (.coeff 1) 2])
      (PolyAdd (Poly.arr [.mk (.coeff 1) 1, .mk (.coeff 1) 2])
        (Poly.arr [.mk (.coeff 2) 0, .mk (.coeff 2) 1])) = true := by
  have h1 : Machine.PolyMul (Poly.arr [.mk (.coeff (1 : ℤ)) 0, .mk (.coeff 1) 1])
      (PolyAdd (Poly.arr [.mk (.coeff 1) 1]) (Poly.coeff 2)) =
        some (Poly.arr [.mk (.coeff 2) 0, .mk (.coeff 3) 1, .mk (.coeff 1) 2]) := by
    simp [Machine.PolyMul, Machine.mulLoop, Machine.mulInner, Machine.expAdd, POLY_EXP_T_MAX,
      PolyOwnMonos, sortMonos, ownSorted, ownLoop, PolyFromCoeff, PolyAdd_coeff_coeff,
      MonoFromPoly, PolyIsZero, PolyAdd, PolyAddCoeff, PolyAddNonCoeffs, addLoop, PolyOfArr]
  have h2 : Machine.PolyMul (Poly.arr [.mk (.coeff (1 : ℤ)) 0, .mk (.coeff 1) 1])
      (Poly.arr [.mk (.coeff 1) 1]) =
        some (Poly.arr [.mk (.coeff 1) 1, .mk (.coeff 1) 2]) := by
    simp [Machine.PolyMul, Machine.mulLoop, Machine.mulInner, Machine.expAdd, POLY_EXP_T_MAX,
      PolyOwnMonos, sortMonos, ownSorted, ownLoop, PolyFromCoeff, PolyAdd_coeff_coeff,
      MonoFromPoly, PolyIsZero]
  have h3 : Machine.PolyMul (Poly.arr [.mk (.coeff (1 : ℤ)) 0, .mk (.coeff 1) 1])
      (Poly.coeff 2) = some (Poly.arr [.mk (.coeff 2) 0, .mk (.coeff 2) 1]) := by
    simp [Machine.PolyMul, Machine.mulCoeffLoop, PolyOwnMonos, sortMonos, ownSorted, ownLoop,
      PolyFromCoeff, PolyAdd_coeff_coeff, MonoFromPoly, PolyIsZero]
  exact ⟨h1, h2, h3,
    (claim_C18_distrib _ _ _ (by decide) (by decide) (by decide)).1 _ _ _ h1 h2 h3⟩

end ClaimsMachineMul

/-! ## The statements of the specification on powers and composition, with the exponent
sums of the machine -/

section ClaimsMachineExp
variable {R : Type} [CommRing R] [DecidableEq R]

/-- C12, as stated, fails at the canonical polynomial `p = 1 + x^1073741824` and `e = 2`,
within the bounds of the data model: the square that `PolyExp` multiplies into its result
needs the exponent sum `1073741824 + 1073741824` of poly.c:421, which exceeds the largest
`int`; the same happens in `PolyCompose` of `x^2` with the substitution
`x^1073741824`. -/
theorem claim_C12_counterexample :
    Canonical (Poly.arr [.mk (.coeff (1 : ℤ)) 0, .mk (.coeff 1) 1073741824]) = true ∧
    fitsMachine (Poly.arr [.mk (.coeff (1 : ℤ)) 0, .mk (.coeff 1) 1073741824]) = true ∧
    Machine.PolyExp (Poly.arr [.mk (.coeff (1 : ℤ)) 0, .mk (.coeff 1) 1073741824]) 2 = none ∧
    Canonical (Poly.arr [.mk (.coeff (1 : ℤ)) 2]) = true ∧
    Canonical (Poly.arr [.mk (.coeff (1 : ℤ)) 1073741824]) = true ∧
    Machine.PolyCompose (Poly.arr [.mk (.coeff (1 : ℤ)) 2]) 1
      (fun _ => Poly.arr [.mk (.coeff 1) 1073741824]) = none := by
  refine ⟨by decide, by decide, ?_, by decide, by decide, ?_⟩
  · rw [Machine.PolyExp, Machine.polyExpLoop, Machine.polyExpLoop, Machine.polyExpLoop]
    simp [Machine.mulOpt, Machine.PolyMul, Machine.mulLoop, Machine.mulInner, Machine.expAdd,
      POLY_EXP_T_MAX]
  · rw [Machine.PolyCompose, Machine.composeLoop]
    simp only [Machine.PolyCompose, Machine.PolyExp]
    rw [Machine.polyExpLoop, Machine.polyExpLoop, Machine.polyExpLoop]
    simp [Machine.mulOpt, Machine.PolyMul, Machine.mulLoop, Machine.mulInner, Machine.expAdd,
      POLY_EXP_T_MAX]

/-- C12, amended: the derived operations keep the canonical form wherever their products
are defined: for every canonical `p`, every exponent `e`, every `x` and every array `q` of
`k` canonical polynomials, whenever no exponent sum formed in the products of `PolyExp p e`
that reach its result exceeds `2^31 - 1`, the result is canonical, and likewise for
`PolyCompose p k q`; `PolyAt p x` is always canonical; `PolyCompose` of a Constant is that
Constant whatever `k` and `q` are. `PolyExp p e` is defined whenever the exponents of `p`
are bounded level by level by `B` with `2 * e * B k ≤ 2^31 - 1`, and `PolyCompose p k q`
whenever those of `p` are bounded by `B` and those of `q i` by `C i` with
`2 * (B 0 * C 0 j + ... + B (k-1) * C (k-1) j) ≤ 2^31 - 1` for every level `j`. This holds
for every coefficient ring. -/
theorem claim_C12_derived_canonical (p : Poly R) (hp : Canonical p = true) (e : Nat) (x : R)
    (k : Nat) (q : Nat → Poly R) (hq : ∀ i, i < k → Canonical (q i) = true) :
    (∀ r, Machine.PolyExp p e = some r → Canonical r = true) ∧
    Canonical (PolyAt p x) = true ∧
    (∀ r, Machine.PolyCompose p k q = some r → Canonical r = true) ∧
    (∀ (c : R) (k' : Nat) (q' : Nat → Poly R),
      Machine.PolyCompose (Poly.coeff c) k' q' = some (Poly.coeff c)) ∧
    (∀ B : Nat → Nat, expsBelow B p = true →
      (∀ j, ((2 * e * B j : Nat) : Int) ≤ POLY_EXP_T_MAX) →
      ∃ r, Machine.PolyExp p e = some r ∧ Canonical r = true) ∧
    (∀ (B : Nat → Nat) (C : Nat → Nat → Nat), expsBelow B p = true →
      (∀ i, i < k → expsBelow (C i) (q i) = true) →
      (∀ j, ((2 * (Finset.range k).sum (fun i => B i * C i j) : Nat) : Int) ≤
        POLY_EXP_T_MAX) →
      ∃ r, Machine.PolyCompose p k q = some r ∧ Canonical r = true) := by
  refine ⟨?_, PolyAt_canonical p x hp, ?_, ?_, ?_, ?_⟩
  · intro r h
    rw [machExp_sound p e r h]
    exact PolyExp_canonical p e hp
  · intro r h
    rw [machCompose_sound p k q r h]
    exact PolyCompose_canonical p hp k q hq
  · intro c k' q'
    rw [Machine.PolyCompose]
  · intro B hB hD
    exact ⟨_, machExp_defined p e B hB hD, PolyExp_canonical p e hp⟩
  · intro B C hB hC hD
    exact ⟨_, machCompose_defined p B k q C hB hC hD, PolyCompose_canonical p hp k q hq⟩

/-- The amended statement of C12 on `p = 1 + x` with `e = 2`, whose square is
`1 + 2x + x^2`, with `x = 2`, and with the single substitution `Sum[(1, Const 1)]`, whose
exponents are at most 1. -/
theorem claim_C12_witness :
    Machine.PolyExp (Poly.arr [.mk (.coeff (1 : ℤ)) 0, .mk (.coeff 1) 1]) 2 =
      some (Poly.arr [.mk (.coeff 1) 0, .mk (.coeff 2) 1, .mk (.coeff 1) 2]) ∧
    Canonical (Poly.arr [.mk (.coeff (1 : ℤ)) 0, .mk (.coeff 2) 1, .mk (.coeff 1) 2]) = true ∧
    Canonical (PolyAt (Poly.arr [.mk (.coeff (1 : ℤ)) 0, .mk (.coeff 1) 1]) 2) = true ∧
    ∃ r, Machine.PolyCompose (Poly.arr [.mk (.coeff (1 : ℤ)) 0, .mk (.coeff 1) 1]) 1
      (fun _ => Poly.arr [.mk (.coeff 1) 1]) = some r ∧ Canonical r = true := by
  have h : Machine.PolyExp (Poly.arr [.mk (.coeff (1 : ℤ)) 0, .mk (.coeff 1) 1]) 2 =
      some (Poly.arr [.mk (.coeff 1) 0, .mk (.coeff 2) 1, .mk (.coeff 1) 2]) := by
    rw [Machine.PolyExp, Machine.polyExpLoop, Machine.polyExpLoop, Machine.polyExpLoop]
    simp [Machine.mulOpt, Machine.PolyMul, Machine.mulLoop, Machine.mulInner, Machine.expAdd,
      Machine.mulCoeffLoop, POLY_EXP_T_MAX, PolyOwnMonos, sortMonos, ownSorted, ownLoop,
      PolyFromCoeff, PolyAdd_coeff_coeff, MonoFromPoly, PolyIsZero, PolyClone_eq]
  have hc := claim_C12_derived_canonical
    (Poly.arr [.mk (.coeff (1 : ℤ)) 0, .mk (.coeff 1) 1]) (by decide) 2 2 1
    (fun _ => Poly.arr [.mk (.coeff 1) 1])
    (fun _ _ => (by decide : Canonical (Poly.arr [Mono.mk (Poly.coeff (1 : ℤ)) 1]) = true))
  exact ⟨h, hc.1 _ h, hc.2.1,
    hc.2.2.2.2.2 (fun _ => 1) (fun _ _ => 1) (by decide)
      (fun _ _ =>
        (by decide : expsBelow (fun _ => 1) (Poly.arr [Mono.mk (Poly.coeff (1 : ℤ)) 1]) = true))
      (fun j => by simp [POLY_EXP_T_MAX])⟩

end ClaimsMachineExp

section ClaimsMachineCompose
variable {R : Type} [CommRing R] [DecidableEq R]

/-- C10, as stated, fails at the canonical polynomial `p = x^2` with `k = 1` and the
canonical substitution `q[0] = x^1073741824`, within the bounds of the data model:
`PolyExp (q[0], 2)` squares `q[0]`, the exponent sum `1073741824 + 1073741824` of
poly.c:421 exceeds the largest `int`, and `PolyCompose` has no result whose value is the
value of `p` at the value of `q[0]`. -/
theorem claim_C10_counterexample :
    Canonical (Poly.arr [.mk (.coeff (1 : ℤ)) 2]) = true ∧
    Canonical (Poly.arr [.mk (.coeff (1 : ℤ)) 1073741824]) = true ∧
    fitsMachine (Poly.arr [.mk (.coeff (1 : ℤ)) 2]) = true ∧
    fitsMachine (Poly.arr [.mk (.coeff (1 : ℤ)) 1073741824]) = true ∧
    Machine.PolyCompose (Poly.arr [.mk (.coeff (1 : ℤ)) 2]) 1
      (fun _ => Poly.arr [.mk (.coeff 1) 1073741824]) = none := by
  refine ⟨by decide, by decide, by decide, by decide, ?_⟩
  rw [Machine.PolyCompose, Machine.composeLoop]
  simp only [Machine.PolyCompose, Machine.PolyExp]
  rw [Machine.polyExpLoop, Machine.polyExpLoop, Machine.polyExpLoop]
  simp [Machine.mulOpt, Machine.PolyMul, Machine.mulLoop, Machine.mulInner, Machine.expAdd,
    POLY_EXP_T_MAX]

/-- C10, amended: composition substitutes one polynomial per nesting level and truncates,
wherever its products are defined: in exact integer arithmetic, for every canonical `p`,
every `k`, every array `q` and every assignment `v`, whenever no exponent sum formed in
the products that reach the result of `PolyCompose p k q` exceeds `2^31 - 1`, the result
`r` has `val r v = val p w` with `w i = val (q i) v` for `i < k` and `w i = 0` for
`i ≥ k`; this is the case whenever the exponents of `p` are bounded level by level by `B`
and those of `q i` by `C i` with
`2 * (B 0 * C 0 j + ... + B (k-1) * C (k-1) j) ≤ 2^31 - 1` for every level `j`.
`PolyCompose` does not depend on `q i` for `i ≥ k`, and `PolyCompose p 0 q` is always the
Constant holding the constant term of `p`. -/
theorem claim_C10_compose_value (p : Poly ℤ) (hp : Canonical p = true) (k : Nat)
    (q : Nat → Poly ℤ) :
    (∀ r, Machine.PolyCompose p k q = some r → ∀ v : Nat → ℤ,
      val r v = val p (fun i => if i < k then val (q i) v else 0)) ∧
    (∀ q' : Nat → Poly ℤ, (∀ i, i < k → q i = q' i) →
      Machine.PolyCompose p k q = Machine.PolyCompose p k q') ∧
    Machine.PolyCompose p 0 q = some (Poly.coeff (val p (fun _ => 0))) ∧
    (∀ (B : Nat → Nat) (C : Nat → Nat → Nat), expsBelow B p = true →
      (∀ i, i < k → expsBelow (C i) (q i) = true) →
      (∀ j, ((2 * (Finset.range k).sum (fun i => B i * C i j) : Nat) : Int) ≤
        POLY_EXP_T_MAX) →
      ∃ r, Machine.PolyCompose p k q = some r ∧ ∀ v : Nat → ℤ,
        val r v = val p (fun i => if i < k then val (q i) v else 0)) := by
  refine ⟨?_, fun q' hq => machCompose_congr p k q q' hq, ?_, ?_⟩
  · intro r h v
    rw [machCompose_sound p k q r h]
    exact val_PolyCompose p hp v k q
  · rw [machCompose_zero]
    obtain ⟨c, hc⟩ := PolyCompose_zero_isCoeff p q
    have h := val_PolyCompose p hp (fun _ => 0) 0 q
    rw [hc] at h ⊢
    simp only [val_coeff, Nat.not_lt_zero, if_false] at h
    rw [h]
  · intro B C hB hC hD
    exact ⟨_, machCompose_defined p B k q C hB hC hD, fun v => val_PolyCompose p hp v k q⟩

/-- The amended statement of C10 on `p = 1 + 3x^2` with the single substitution `q[0] = x`,
whose result is `1 + 3x^2`, and the assignment `x = 2`. -/
theorem claim_C10_witness :
    Machine.PolyCompose (Poly.arr [.mk (.coeff (1 : ℤ)) 0, .mk (.coeff 3) 2]) 1
        (fun _ => Poly.arr [.mk (.coeff 1) 1]) =
      some (Poly.arr [.mk (.coeff 1) 0, .mk (.coeff 3) 2]) ∧
    val (Poly.arr [.mk (.coeff (1 : ℤ)) 0, .mk (.coeff 3) 2]) (fun _ => 2) =
      val (Poly.arr [.mk (.coeff (1 : ℤ)) 0, .mk (.coeff 3) 2])
        (fun i => if i < 1 then
          val ((fun _ => Poly.arr [.mk (.coeff (1 : ℤ)) 1]) i) (fun _ => 2) else 0) := by
  have h2 : Machine.PolyExp (Poly.arr [.mk (.coeff (1 : ℤ)) 1]) 2 =
      some (Poly.arr [.mk (.coeff 1) 2]) := by
    rw [Machine.PolyExp, Machine.polyExpLoop, Machine.polyExpLoop, Machine.polyExpLoop]
    simp [Machine.mulOpt, Machine.PolyMul, Machine.mulLoop, Machine.mulInner, Machine.expAdd,
      Machine.mulCoeffLoop, POLY_EXP_T_MAX, PolyOwnMonos, sortMonos, ownSorted, ownLoop,
      PolyFromCoeff, PolyAdd_coeff_coeff, MonoFromPoly, PolyIsZero, PolyClone_eq]
  have h : Machine.PolyCompose (Poly.arr [.mk (.coeff (1 : ℤ)) 0, .mk (.coeff 3) 2]) 1
      (fun _ => Poly.arr [.mk (.coeff 1) 1]) =
        some (Poly.arr [.mk (.coeff 1) 0, .mk (.coeff 3) 2]) := by
    simp only [Machine.PolyCompose, Machine.composeLoop, h2]
    simp [Machine.PolyMul, Machine.mulLoop, Machine.mulInner, Machine.expAdd,
      Machine.mulCoeffLoop, POLY_EXP_T_MAX, PolyOwnMonos, sortMonos, ownSorted, ownLoop,
      PolyFromCoeff, PolyAdd_coeff_coeff, MonoFromPoly, PolyIsZero, PolyClone_eq, PolyZero,
      PolyAdd, PolyAddCoeff, PolyAddNonCoeffs, addLoop, PolyOfArr]
  exact ⟨h, (claim_C10_compose_value _ (by decide) 1 (fun _ => Poly.arr [.mk (.coeff 1) 1])).1
    _ h (fun _ => 2)⟩

end ClaimsMachineCompose

end PolyCalc
